import Mathlib

/-!
Verification of `HashMap` (src/hash_map.h)

A shallow embedding of the bounded-neighbourhood open-addressing table of
`src/hash_map.h`, followed by the invariants of the reachable tables and the
contract theorems of the public operations.

Modelling conventions:

* The three vectors `entry_`, `origin_`, `used` always have length `capacity_`
  in the source (they are only ever resized together, from empty).  Each is
  modelled as a total function on slot indices; a vector that was just
  resized from empty maps every index to the value-initialised element
  (`default`, `0`, `false`).
* `size_t` and `uint32_t` arithmetic is modelled on `Nat`, without
  wrap-around: the invariant `Inv` keeps `H ≤ capacity_` and
  `size_ ≤ capacity_`, so no counter wraps as long as the slot count stays
  below `2^31`.  The one place where the source and the model part is the
  doubling `H *= 2` (lines 283, 292) of the 32-bit member `uint32_t H`
  (line 399) at `H = 2^31`: the model continues with `2^32`, the source with
  `0` (`double_u32`).  `insert_u32` is the insertion with the 32-bit `H`;
  it is the same computation as `insert` on every run that ends with
  `H < 2^32` (`u32_agrees_all`), hence on every table below `2^30` slots
  (`insert_u32_total`).  Every statement below about `insert`, `expand` and
  `run` is therefore a statement about the source on the runs in which `H`
  stays at or below `2^31`; what the source does when `2^31` is doubled is
  the subject of `insert_after_wrap_never_returns`.
  The wrapped expression `s_pos - f_pos + capacity_` of `dist`
  (taken when `s_pos < f_pos`) is written `s_pos + capacity_ - f_pos`, which
  is its value modulo `2^64` whenever `f_pos ≤ s_pos + capacity_`; likewise
  `capacity_ - l_shift + cur_pos`.
* `KeyType::operator==` is equality of keys and `hasher_` is a function of
  the key.
* The load test `1. * (size_ + 1) / capacity_ > 0.5` is the integer test
  `capacity_ < 2 * (size_ + 1)` (the quotient is exact or differs from `0.5`
  by at least `1 / (2 * capacity_)`).
* The recursion `insert → insert_without_check → expand → insert` is modelled
  with a recursion-depth budget (`fuel`); `none` means the budget ran out.
  The theorems show that a sufficient budget always exists for `insert`,
  that is, for the source as long as `H = 2^31` is not doubled.
* An iterator is its slot index `pos`; the table it points into is always
  `this`.
-/

namespace HashMap

/-- The data members of `HashMap` (lines 393-399); `hasher_` is passed
separately to the operations that hash. -/
structure Table (K V : Type) where
  entry_ : Nat → K × V
  origin_ : Nat → Nat
  used : Nat → Bool
  size_ : Nat
  capacity_ : Nat
  H : Nat

variable {K V : Type}

/-- Assignment `v[i] = x` to one element of a vector. -/
def store {α : Type} (v : Nat → α) (i : Nat) (x : α) : Nat → α :=
  fun j => if j = i then x else v j

/-- A freshly constructed table: no slots, `size_ = 0`, `capacity_ = 0`,
`H = 1` (member initialisers, lines 393-399). -/
def empty [Inhabited K] [Inhabited V] : Table K V :=
  { entry_ := fun _ => default, origin_ := fun _ => 0, used := fun _ => false,
    size_ := 0, capacity_ := 0, H := 1 }

/-- Method `put` (lines 35-40). -/
def put (t : Table K V) (pos : Nat) (entry : K × V) : Table K V :=
  { t with
    entry_ := store t.entry_ pos entry
    origin_ := store t.origin_ pos pos
    used := store t.used pos true
    size_ := t.size_ + 1 }

/-- Method `move` (lines 42-48). -/
def move (t : Table K V) (prev_pos new_pos : Nat) : Table K V :=
  { t with
    entry_ := store t.entry_ new_pos (t.entry_ prev_pos)
    origin_ := store t.origin_ new_pos (t.origin_ prev_pos)
    used := store (store t.used new_pos true) prev_pos false }

/-- Method `dist` (lines 50-56): cyclic forward distance from `f_pos` to `s_pos`. -/
def dist (t : Table K V) (f_pos s_pos : Nat) : Nat :=
  if s_pos ≥ f_pos then s_pos - f_pos else s_pos + t.capacity_ - f_pos

/-- Method `get_pos` (lines 58-60). -/
def get_pos (hasher : K → Nat) (t : Table K V) (key : K) : Nat :=
  hasher key % t.capacity_

/-- Method `remove` (lines 62-65). -/
def remove (t : Table K V) (pos : Nat) : Table K V :=
  { t with used := store t.used pos false, size_ := t.size_ - 1 }

/-- The loop of `iterator::next` (lines 70-74), run for at most `n` steps. -/
def next_loop (t : Table K V) : Nat → Nat → Nat
  | 0, pos => pos
  | n + 1, pos =>
    if pos < t.capacity_ ∧ t.used pos = false then next_loop t n (pos + 1) else pos

/-- Method `iterator::next` (lines 70-74): skip forward to an occupied slot or to
`capacity_`.  The loop leaves after at most `capacity_ - pos` steps. -/
def iter_next (t : Table K V) (pos : Nat) : Nat :=
  next_loop t (t.capacity_ - pos) pos

/-- Method `iterator::operator==` (lines 132-136) on two iterators of the same table. -/
def iter_eq (t : Table K V) (a b : Nat) : Bool :=
  iter_next t a == iter_next t b

/-- Method `iterator::operator!=` (lines 138-142) on two iterators of the same table. -/
def iter_ne (t : Table K V) (a b : Nat) : Bool :=
  iter_next t a != iter_next t b

/-- Method `end()` (lines 328-330). -/
def end_ (t : Table K V) : Nat := t.capacity_

/-- Method `begin()` (lines 320-322). -/
def begin_ (_t : Table K V) : Nat := 0

/-- The `for` loop of `find` (lines 339-348): `n` iterations remain, the
next one is for `shift`. -/
def find_loop [DecidableEq K] (t : Table K V) (key : K) (pos : Nat) : Nat → Nat → Nat
  | 0, _ => end_ t
  | n + 1, shift =>
    let n_pos := if pos + shift ≥ t.capacity_ then pos + shift - t.capacity_ else pos + shift
    if t.used n_pos = true ∧ key = (t.entry_ n_pos).1 then n_pos
    else find_loop t key pos n (shift + 1)

/-- Method `find` (lines 336-349, and its `const` copy 351-364). -/
def find [DecidableEq K] (hasher : K → Nat) (t : Table K V) (key : K) : Nat :=
  if t.capacity_ = 0 then end_ t
  else find_loop t key (get_pos hasher t key) t.H 0

/-- The forward scan of `insert_without_check` (lines 259-264): the first free
slot `n_pos` at a shift in `shift .. capacity_ - 1`; `n` iterations remain. -/
def free_scan (t : Table K V) (pos : Nat) : Nat → Nat → Option Nat
  | 0, _ => none
  | n + 1, shift =>
    let n_pos := if pos + shift ≥ t.capacity_ then pos + shift - t.capacity_ else pos + shift
    if t.used n_pos = false then some n_pos else free_scan t pos n (shift + 1)

/-- The backward window scan (lines 268-281): the first `prev` at a shift in
`l_shift .. H - 1` whose recorded origin is within `H` of `cur_pos`. -/
def back_scan (t : Table K V) (cur_pos : Nat) : Nat → Nat → Option Nat
  | 0, _ => none
  | n + 1, l_shift =>
    let prev := if cur_pos < l_shift then t.capacity_ + cur_pos - l_shift else cur_pos - l_shift
    if dist t (t.origin_ prev) cur_pos < t.H then some prev
    else back_scan t cur_pos n (l_shift + 1)

/-- The displacement `while` loop (lines 266-286).  Result `(t, some cur_pos)`:
the loop ended with `dist(pos, cur_pos) < H`; `(t, none)`: a pass moved
nothing (`!moved`); `none`: the step budget ran out. -/
def displace (pos : Nat) : Nat → Table K V → Nat → Option (Table K V × Option Nat)
  | 0, _, _ => none
  | n + 1, t, cur_pos =>
    if dist t pos cur_pos ≥ t.H then
      match back_scan t cur_pos (t.H - 1) 1 with
      | some prev => displace pos n (move t prev cur_pos) prev
      | none => some (t, none)
    else some (t, some cur_pos)

/-- The table after `capacity_ = 1; resize(1)` on a table without slots
(`expand`, lines 10-13); `size_` and `H` are not touched. -/
def first_slot [Inhabited K] [Inhabited V] (t : Table K V) : Table K V :=
  { entry_ := fun _ => default, origin_ := fun _ => 0, used := fun _ => false,
    size_ := t.size_, capacity_ := 1, H := t.H }

/-- The table right after `clear(); capacity_ *= 2; resize(capacity_)` in
`expand` (lines 18-26). -/
def rebuilt [Inhabited K] [Inhabited V] (t : Table K V) : Table K V :=
  { entry_ := fun _ => default, origin_ := fun _ => 0, used := fun _ => false,
    size_ := 0, capacity_ := t.capacity_ * 2, H := t.H }

mutual

/-- Method `expand` (lines 8-33). -/
def expand [DecidableEq K] [Inhabited K] [Inhabited V] (hasher : K → Nat) :
    Nat → Table K V → Option (Table K V)
  | 0, _ => none
  | fuel + 1, t =>
    if t.capacity_ = 0 then some (first_slot t)
    else expand_loop hasher t.entry_ t.used fuel (rebuilt t) 0

/-- The reinsertion loop of `expand` (lines 27-31); the bound
`capacity_ / 2` is read from the table at every iteration. -/
def expand_loop [DecidableEq K] [Inhabited K] [Inhabited V] (hasher : K → Nat)
    (old_entry : Nat → K × V) (old_used : Nat → Bool) :
    Nat → Table K V → Nat → Option (Table K V)
  | 0, _, _ => none
  | fuel + 1, t, i =>
    if i < t.capacity_ / 2 then
      if old_used i = true then
        match insert hasher fuel t (old_entry i) with
        | some (t1, _) => expand_loop hasher old_entry old_used fuel t1 (i + 1)
        | none => none
      else expand_loop hasher old_entry old_used fuel t (i + 1)
    else some t

/-- Method `insert_without_check` (lines 250-300); returns the table and the
position of the returned iterator.  The retry `H *= 2` is the product on
`Nat`; it is the value of the 32-bit member as long as `H < 2^31` (see
`insert_without_check_u32` for the stored value in general). -/
def insert_without_check [DecidableEq K] [Inhabited K] [Inhabited V] (hasher : K → Nat) :
    Nat → Table K V → K × V → Option (Table K V × Nat)
  | 0, _, _ => none
  | fuel + 1, t0, elem =>
    match (if t0.capacity_ = 0 ∨ t0.capacity_ < 2 * (t0.size_ + 1)
           then expand hasher fuel t0 else some t0) with
    | none => none
    | some t =>
      let pos := get_pos hasher t elem.1
      if t.used pos = false then some (put t pos elem, pos)
      else
        match free_scan t pos (t.capacity_ - 1) 1 with
        | some n_pos =>
          match displace pos fuel t n_pos with
          | none => none
          | some (t1, none) =>
            insert_without_check hasher fuel { t1 with H := t1.H * 2 } elem
          | some (t1, some cur_pos) =>
            if dist t1 (t1.origin_ pos) cur_pos < t1.H then
              some (put (move t1 pos cur_pos) pos elem, pos)
            else insert_without_check hasher fuel { t1 with H := t1.H * 2 } elem
        | none =>
          match expand hasher fuel t with
          | none => none
          | some t1 => insert_without_check hasher fuel t1 elem

/-- Method `insert` (lines 302-308). -/
def insert [DecidableEq K] [Inhabited K] [Inhabited V] (hasher : K → Nat) :
    Nat → Table K V → K × V → Option (Table K V × Nat)
  | 0, _, _ => none
  | fuel + 1, t, elem =>
    let it := find hasher t elem.1
    if iter_ne t (find hasher t elem.1) (end_ t) = true then some (t, it)
    else insert_without_check hasher fuel t elem

end

/-- Method `erase` (lines 310-318): the table afterwards and the returned flag.
The comparison `it == end()` runs `it.next()`, so `it.pos` is
`iter_next t it` when `remove(it.pos)` is reached. -/
def erase [DecidableEq K] (hasher : K → Nat) (t : Table K V) (key : K) : Table K V × Bool :=
  let it := find hasher t key
  if iter_eq t it (end_ t) = true then (t, false) else (remove t (iter_next t it), true)

/-- Method `at` (lines 374-381); `none` stands for the thrown `std::out_of_range`.
The comparison `it == end()` runs `it.next()` before `entry_[it.pos]` is
read. -/
def at_ [DecidableEq K] (hasher : K → Nat) (t : Table K V) (key : K) : Option V :=
  let it := find hasher t key
  if iter_eq t it (end_ t) = true then none else some (t.entry_ (iter_next t it)).2

/-- Method `operator[]` (lines 366-372): the table afterwards and the slot `it.pos`
whose `second` the returned reference designates (`it = insert(...)` copies
the position, lines 101-104; the comparison `it == end()` runs `it.next()`). -/
def operator_index [DecidableEq K] [Inhabited K] [Inhabited V] (hasher : K → Nat)
    (fuel : Nat) (t : Table K V) (key : K) : Option (Table K V × Nat) :=
  let it := find hasher t key
  if iter_eq t it (end_ t) = true then
    match insert hasher fuel t (key, default) with
    | some (t1, it1) => some (t1, it1)
    | none => none
  else some (t, iter_next t it)

/-- A write `ref = v` through the reference returned by `operator[]`, which
designates `entry_[loc].second`. -/
def assign_ref (t : Table K V) (loc : Nat) (v : V) : Table K V :=
  { t with entry_ := store t.entry_ loc ((t.entry_ loc).1, v) }

/-- Method `clear` (lines 383-390). -/
def clear [Inhabited K] [Inhabited V] (_t : Table K V) : Table K V :=
  { entry_ := fun _ => default, origin_ := fun _ => 0, used := fun _ => false,
    size_ := 0, capacity_ := 0, H := 1 }

/-- A call of `insert` or `erase`. -/
inductive Op (K V : Type) where
  | ins : K → V → Op K V
  | del : K → Op K V

/-- Run a sequence of `insert` / `erase` calls, in order. -/
def run [DecidableEq K] [Inhabited K] [Inhabited V] (hasher : K → Nat)
    (fuel : Nat) : List (Op K V) → Table K V → Option (Table K V)
  | [], t => some t
  | Op.ins k v :: ops, t =>
    match insert hasher fuel t (k, v) with
    | some (t1, _) => run hasher fuel ops t1
    | none => none
  | Op.del k :: ops, t => run hasher fuel ops (erase hasher t k).1

/-- Method `iterator::operator++` (lines 106-110): `next()`, then
`pos = min(pos + 1, capacity_)`. -/
def iter_incr (t : Table K V) (pos : Nat) : Nat :=
  min (iter_next t pos + 1) t.capacity_

/-- The traversal `for (it = begin(); it != end(); ++it) visit(*it)` from an
iterator at `pos`: the list of the slots whose entry `*it` returns, in the
order of the visits.  The comparison `it != end()` and `operator*` both run
`it.next()` before `operator++` does. -/
def traverse (t : Table K V) : Nat → Nat → Option (List Nat)
  | 0, _ => none
  | fuel + 1, pos =>
    if iter_ne t pos (end_ t) = true then
      let p1 := iter_next t pos
      let p2 := iter_next t p1
      match traverse t fuel (iter_incr t p2) with
      | some l => some (p2 :: l)
      | none => none
    else some []

/-! ## The insertion with its moves checked -/

/-- The test that a call `move(prev_pos, new_pos)` relocates a live entry:
the source slot is occupied and the destination slot is free at that
moment. -/
def move_live (t : Table K V) (prev_pos new_pos : Nat) : Bool :=
  t.used prev_pos && !t.used new_pos

/-- Conjoin the flag `b` to the flag returned by a call. -/
def and_flag {α : Type} (b : Bool) (o : Option (α × Bool)) : Option (α × Bool) :=
  match o with
  | some (r, c) => some (r, b && c)
  | none => none

/-- The displacement loop `displace`, returning in addition whether every
`move` it made passed `move_live`. -/
def displace_live (pos : Nat) :
    Nat → Table K V → Nat → Option ((Table K V × Option Nat) × Bool)
  | 0, _, _ => none
  | n + 1, t, cur_pos =>
    if dist t pos cur_pos ≥ t.H then
      match back_scan t cur_pos (t.H - 1) 1 with
      | some prev =>
        and_flag (move_live t prev cur_pos) (displace_live pos n (move t prev cur_pos) prev)
      | none => some ((t, none), true)
    else some ((t, some cur_pos), true)

mutual

/-- Method `expand` with its moves checked. -/
def expand_live [DecidableEq K] [Inhabited K] [Inhabited V] (hasher : K → Nat) :
    Nat → Table K V → Option (Table K V × Bool)
  | 0, _ => none
  | fuel + 1, t =>
    if t.capacity_ = 0 then some (first_slot t, true)
    else expand_loop_live hasher t.entry_ t.used fuel (rebuilt t) 0

/-- The reinsertion loop of `expand` with its moves checked. -/
def expand_loop_live [DecidableEq K] [Inhabited K] [Inhabited V] (hasher : K → Nat)
    (old_entry : Nat → K × V) (old_used : Nat → Bool) :
    Nat → Table K V → Nat → Option (Table K V × Bool)
  | 0, _, _ => none
  | fuel + 1, t, i =>
    if i < t.capacity_ / 2 then
      if old_used i = true then
        match insert_live hasher fuel t (old_entry i) with
        | some (r1, b1) =>
          and_flag b1 (expand_loop_live hasher old_entry old_used fuel r1.1 (i + 1))
        | none => none
      else expand_loop_live hasher old_entry old_used fuel t (i + 1)
    else some (t, true)

/-- Method `insert_without_check` with its moves checked: the flag tells
whether every `move` made during the call (in the displacement loops, in the
final placement, in the retries and in the reinsertions of `expand`) passed
`move_live`. -/
def insert_without_check_live [DecidableEq K] [Inhabited K] [Inhabited V]
    (hasher : K → Nat) : Nat → Table K V → K × V → Option ((Table K V × Nat) × Bool)
  | 0, _, _ => none
  | fuel + 1, t0, elem =>
    match (if t0.capacity_ = 0 ∨ t0.capacity_ < 2 * (t0.size_ + 1)
           then expand_live hasher fuel t0 else some (t0, true)) with
    | none => none
    | some (t, b0) =>
      let pos := get_pos hasher t elem.1
      if t.used pos = false then some ((put t pos elem, pos), b0)
      else
        match free_scan t pos (t.capacity_ - 1) 1 with
        | some n_pos =>
          match displace_live pos fuel t n_pos with
          | none => none
          | some ((t1, none), b1) =>
            and_flag (b0 && b1)
              (insert_without_check_live hasher fuel { t1 with H := t1.H * 2 } elem)
          | some ((t1, some cur_pos), b1) =>
            if dist t1 (t1.origin_ pos) cur_pos < t1.H then
              some ((put (move t1 pos cur_pos) pos elem, pos),
                b0 && b1 && move_live t1 pos cur_pos)
            else
              and_flag (b0 && b1)
                (insert_without_check_live hasher fuel { t1 with H := t1.H * 2 } elem)
        | none =>
          match expand_live hasher fuel t with
          | none => none
          | some (t1, b1) =>
            and_flag (b0 && b1) (insert_without_check_live hasher fuel t1 elem)

/-- Method `insert` with its moves checked. -/
def insert_live [DecidableEq K] [Inhabited K] [Inhabited V] (hasher : K → Nat) :
    Nat → Table K V → K × V → Option ((Table K V × Nat) × Bool)
  | 0, _, _ => none
  | fuel + 1, t, elem =>
    if iter_ne t (find hasher t elem.1) (end_ t) = true then
      some ((t, find hasher t elem.1), true)
    else insert_without_check_live hasher fuel t elem

end

/-! ## The insertion with its calls of `expand` recorded -/

/-- Prefix the trace `tr` to the trace returned by a call. -/
def add_trace {α : Type} (tr : List (Nat × Bool))
    (o : Option (α × List (Nat × Bool))) : Option (α × List (Nat × Bool)) :=
  match o with
  | some (r, tr1) => some (r, tr ++ tr1)
  | none => none

mutual

/-- Method `expand` with the calls of `expand` made inside it recorded; its
reinsertions run at nesting depth `d`. -/
def expand_traced [DecidableEq K] [Inhabited K] [Inhabited V] (hasher : K → Nat) :
    Nat → Nat → Table K V → Option (Table K V × List (Nat × Bool))
  | _, 0, _ => none
  | d, fuel + 1, t =>
    if t.capacity_ = 0 then some (first_slot t, [])
    else expand_loop_traced hasher t.entry_ t.used d fuel (rebuilt t) 0
termination_by structural _ fuel => fuel

/-- The reinsertion loop of `expand` with the calls of `expand` recorded. -/
def expand_loop_traced [DecidableEq K] [Inhabited K] [Inhabited V] (hasher : K → Nat)
    (old_entry : Nat → K × V) (old_used : Nat → Bool) :
    Nat → Nat → Table K V → Nat → Option (Table K V × List (Nat × Bool))
  | _, 0, _, _ => none
  | d, fuel + 1, t, i =>
    if i < t.capacity_ / 2 then
      if old_used i = true then
        match insert_traced hasher d fuel t (old_entry i) with
        | some (r1, tr1) =>
          add_trace tr1 (expand_loop_traced hasher old_entry old_used d fuel r1.1 (i + 1))
        | none => none
      else expand_loop_traced hasher old_entry old_used d fuel t (i + 1)
    else some (t, [])
termination_by structural _ fuel => fuel

/-- Method `insert_without_check`, run at nesting depth `d`, with every call
of `expand` recorded in order: `(d, false)` for a call from the load test
(line 252), `(d, true)` for a call from the no-free-slot fallback (line 297),
each followed by the calls made inside that `expand`, which are recorded at
depth `d + 1`. -/
def insert_without_check_traced [DecidableEq K] [Inhabited K] [Inhabited V]
    (hasher : K → Nat) :
    Nat → Nat → Table K V → K × V → Option ((Table K V × Nat) × List (Nat × Bool))
  | _, 0, _, _ => none
  | d, fuel + 1, t0, elem =>
    match (if t0.capacity_ = 0 ∨ t0.capacity_ < 2 * (t0.size_ + 1)
           then add_trace [(d, false)] (expand_traced hasher (d + 1) fuel t0)
           else some (t0, [])) with
    | none => none
    | some (t, tr0) =>
      let pos := get_pos hasher t elem.1
      if t.used pos = false then some ((put t pos elem, pos), tr0)
      else
        match free_scan t pos (t.capacity_ - 1) 1 with
        | some n_pos =>
          match displace pos fuel t n_pos with
          | none => none
          | some (t1, none) =>
            add_trace tr0
              (insert_without_check_traced hasher d fuel { t1 with H := t1.H * 2 } elem)
          | some (t1, some cur_pos) =>
            if dist t1 (t1.origin_ pos) cur_pos < t1.H then
              some ((put (move t1 pos cur_pos) pos elem, pos), tr0)
            else
              add_trace tr0
                (insert_without_check_traced hasher d fuel { t1 with H := t1.H * 2 } elem)
        | none =>
          match expand_traced hasher (d + 1) fuel t with
          | none => none
          | some (t1, tr1) =>
            add_trace (tr0 ++ (d, true) :: tr1)
              (insert_without_check_traced hasher d fuel t1 elem)
termination_by structural _ fuel => fuel

/-- Method `insert`, run at nesting depth `d`, with the calls of `expand`
recorded. -/
def insert_traced [DecidableEq K] [Inhabited K] [Inhabited V] (hasher : K → Nat) :
    Nat → Nat → Table K V → K × V → Option ((Table K V × Nat) × List (Nat × Bool))
  | _, 0, _, _ => none
  | d, fuel + 1, t, elem =>
    if iter_ne t (find hasher t elem.1) (end_ t) = true then
      some ((t, find hasher t elem.1), [])
    else insert_without_check_traced hasher d fuel t elem
termination_by structural _ fuel => fuel

end

/-- The value that `H *= 2` (lines 283, 292) stores in the 32-bit member
`uint32_t H` (line 399): the product modulo `2^32`. -/
def double_u32 (h : Nat) : Nat := h * 2 % 2 ^ 32

mutual

/-- Method `expand` (lines 8-33), with the member `H` read as a 32-bit
unsigned integer in the insertions it makes. -/
def expand_u32 [DecidableEq K] [Inhabited K] [Inhabited V] (hasher : K → Nat) :
    Nat → Table K V → Option (Table K V)
  | 0, _ => none
  | fuel + 1, t =>
    if t.capacity_ = 0 then some (first_slot t)
    else expand_loop_u32 hasher t.entry_ t.used fuel (rebuilt t) 0

/-- The reinsertion loop of `expand` (lines 27-31), with the member `H` read
as a 32-bit unsigned integer. -/
def expand_loop_u32 [DecidableEq K] [Inhabited K] [Inhabited V] (hasher : K → Nat)
    (old_entry : Nat → K × V) (old_used : Nat → Bool) :
    Nat → Table K V → Nat → Option (Table K V)
  | 0, _, _ => none
  | fuel + 1, t, i =>
    if i < t.capacity_ / 2 then
      if old_used i = true then
        match insert_u32 hasher fuel t (old_entry i) with
        | some (t1, _) => expand_loop_u32 hasher old_entry old_used fuel t1 (i + 1)
        | none => none
      else expand_loop_u32 hasher old_entry old_used fuel t (i + 1)
    else some t

/-- Method `insert_without_check` (lines 250-300) with the member `H` read as
the 32-bit unsigned integer it is declared as (line 399): `H *= 2` stores
`double_u32 H`.  Everything else is as in `insert_without_check`. -/
def insert_without_check_u32 [DecidableEq K] [Inhabited K] [Inhabited V]
    (hasher : K → Nat) :
    Nat → Table K V → K × V → Option (Table K V × Nat)
  | 0, _, _ => none
  | fuel + 1, t0, elem =>
    match (if t0.capacity_ = 0 ∨ t0.capacity_ < 2 * (t0.size_ + 1)
           then expand_u32 hasher fuel t0 else some t0) with
    | none => none
    | some t =>
      let pos := get_pos hasher t elem.1
      if t.used pos = false then some (put t pos elem, pos)
      else
        match free_scan t pos (t.capacity_ - 1) 1 with
        | some n_pos =>
          match displace pos fuel t n_pos with
          | none => none
          | some (t1, none) =>
            insert_without_check_u32 hasher fuel { t1 with H := double_u32 t1.H } elem
          | some (t1, some cur_pos) =>
            if dist t1 (t1.origin_ pos) cur_pos < t1.H then
              some (put (move t1 pos cur_pos) pos elem, pos)
            else
              insert_without_check_u32 hasher fuel { t1 with H := double_u32 t1.H } elem
        | none =>
          match expand_u32 hasher fuel t with
          | none => none
          | some t1 => insert_without_check_u32 hasher fuel t1 elem

/-- Method `insert` (lines 302-308), with the member `H` read as a 32-bit
unsigned integer. -/
def insert_u32 [DecidableEq K] [Inhabited K] [Inhabited V] (hasher : K → Nat) :
    Nat → Table K V → K × V → Option (Table K V × Nat)
  | 0, _, _ => none
  | fuel + 1, t, elem =>
    let it := find hasher t elem.1
    if iter_ne t (find hasher t elem.1) (end_ t) = true then some (t, it)
    else insert_without_check_u32 hasher fuel t elem

end

/-- The slot reached from `x = pos + shift` after the conditional
`if (x >= capacity_) x -= capacity_` of the scans (lines 260-263, 340-343). -/
def wrap (t : Table K V) (x : Nat) : Nat :=
  if x ≥ t.capacity_ then x - t.capacity_ else x

/-- Some occupied slot holds the pair `(k, v)`. -/
def Holds (t : Table K V) (k : K) (v : V) : Prop :=
  ∃ p, p < t.capacity_ ∧ t.used p = true ∧ t.entry_ p = (k, v)

/-- Some occupied slot holds the key `k`. -/
def Present (t : Table K V) (k : K) : Prop :=
  ∃ p, p < t.capacity_ ∧ t.used p = true ∧ (t.entry_ p).1 = k

/-- The slot `prev` computed at lines 269-274 from `cur_pos` and `l_shift`. -/
def prev_at (t : Table K V) (cur_pos l_shift : Nat) : Nat :=
  if cur_pos < l_shift then t.capacity_ + cur_pos - l_shift else cur_pos - l_shift

/-- The representation invariant of the table. -/
structure Inv (hasher : K → Nat) (t : Table K V) : Prop where
  H_pos : 0 < t.H
  bounded : ∀ p, t.used p = true → p < t.capacity_
  home : ∀ p, t.used p = true → t.origin_ p = get_pos hasher t (t.entry_ p).1
  near : ∀ p, t.used p = true → dist t (t.origin_ p) p < t.H
  unique : ∀ p q, t.used p = true → t.used q = true →
    (t.entry_ p).1 = (t.entry_ q).1 → p = q
  count : t.size_ = Nat.count (fun p => t.used p = true) t.capacity_
  cap_pow2 : t.capacity_ = 0 ∨ ∃ a, t.capacity_ = 2 ^ a
  H_pow2 : ∃ b, t.H = 2 ^ b
  H_le : t.H ≤ t.capacity_ ∨ (t.capacity_ = 0 ∧ t.H = 1)

/-- The state of the displacement loop (lines 266-286) at its head: `t` is
the current table, `cur` the current free candidate, `t0` the table on entry. -/
structure Casc (hasher : K → Nat) (t0 : Table K V) (pos : Nat) (t : Table K V)
    (cur : Nat) : Prop where
  inv : Inv hasher t
  cap_eq : t.capacity_ = t0.capacity_
  size_eq : t.size_ = t0.size_
  H_eq : t.H = t0.H
  content : ∀ k v, Holds t k v ↔ Holds t0 k v
  pos_lt : pos < t.capacity_
  cur_lt : cur < t.capacity_
  pos_used : t.used pos = true
  cur_free : t.used cur = false
  run_used : ∀ q, q < t.capacity_ → dist t pos q < dist t pos cur → t.used q = true

/-- The state of the reinsertion loop of `expand` (lines 27-31) before
iteration `i`: `told` is the table on entry to `expand`, `t` the table being
rebuilt. -/
structure LoopInv (hasher : K → Nat) (told t : Table K V) (i : Nat) : Prop where
  inv : Inv hasher t
  cap_eq : t.capacity_ = 2 * told.capacity_
  size_eq : t.size_ = Nat.count (fun p => told.used p = true) i
  content : ∀ k v, Holds t k v ↔ ∃ p, p < i ∧ told.used p = true ∧ told.entry_ p = (k, v)

/-- What a successful insertion of the new pair `e` into `t` yields: the
table `t1` and the returned position `loc`. -/
structure Inserted (hasher : K → Nat) (t : Table K V) (e : K × V)
    (t1 : Table K V) (loc : Nat) : Prop where
  inv : Inv hasher t1
  loc_lt : loc < t1.capacity_
  loc_used : t1.used loc = true
  loc_entry : t1.entry_ loc = e
  loc_home : loc = get_pos hasher t1 e.1
  size_eq : t1.size_ = t.size_ + 1
  content : ∀ k v, Holds t1 k v ↔ (Holds t k v ∨ (k, v) = e)
  cap_le : t.capacity_ ≤ t1.capacity_
  H_mono : t.H ≤ t1.H

/-- The tables reachable from the empty table by public calls: `insert`,
`erase`, `operator[]` (alone, or followed by a write through the returned
reference) and `clear`. -/
inductive Reachable [DecidableEq K] [Inhabited K] [Inhabited V] (hasher : K → Nat) :
    Table K V → Prop
  | empty : Reachable hasher empty
  | insert {t : Table K V} (fuel : Nat) (e : K × V) {t1 : Table K V} {loc : Nat} :
      Reachable hasher t → insert hasher fuel t e = some (t1, loc) → Reachable hasher t1
  | erase {t : Table K V} (k : K) :
      Reachable hasher t → Reachable hasher (erase hasher t k).1
  | index {t : Table K V} (fuel : Nat) (k : K) {t1 : Table K V} {loc : Nat} :
      Reachable hasher t → operator_index hasher fuel t k = some (t1, loc) →
      Reachable hasher t1
  | index_assign {t : Table K V} (fuel : Nat) (k : K) (v : V) {t1 : Table K V} {loc : Nat} :
      Reachable hasher t → operator_index hasher fuel t k = some (t1, loc) →
      Reachable hasher (assign_ref t1 loc v)
  | clear {t : Table K V} : Reachable hasher t → Reachable hasher (clear t)

/-- The table left by a call that returns a table and a position (the empty
table if the recursion budget ran out). -/
def table_of [Inhabited K] [Inhabited V] (o : Option (Table K V × Nat)) : Table K V :=
  match o with
  | some r => r.1
  | none => empty

/-- A sample table: `insert({1, 10})` on an empty table, hashing with the
identity. -/
def sample1 : Table Nat Nat := table_of (insert (fun n => n) 20 empty (1, 10))

/-- A sample table: `insert({1, 10}); insert({2, 20})`. -/
def sample2 : Table Nat Nat := table_of (insert (fun n => n) 20 sample1 (2, 20))

/-- A sample table: `insert({1, 10}); insert({2, 20}); insert({3, 30})`. -/
def sample3 : Table Nat Nat := table_of (insert (fun n => n) 20 sample2 (3, 30))

/-- A sample table with `H = 2`: `insert({1, 10}); insert({3, 30});
insert({2, 20})` on an empty table (capacity 8, slots 1, 2, 3 occupied). -/
def sample_h : Table Nat Nat :=
  (run (fun n => n) 20 [Op.ins 1 10, Op.ins 3 30, Op.ins 2 20] empty).getD empty

/-- A sample table: `sample_h` after `insert({11, 110})`. -/
def sample_h_ins : Table Nat Nat := table_of (insert (fun n => n) 20 sample_h (11, 110))

/-- A sample table: `sample_h` after `insert({9, 90})`, an insertion whose
displacement loop moves three entries. -/
def sample_h_ins9 : Table Nat Nat := table_of (insert (fun n => n) 20 sample_h (9, 90))

/-- A sample state with `H = 2^31`, the largest power of two that the member
`H` can hold: `2^32` slots, of which only slot `2^31 - 1` is occupied, by the
key `0` whose home is slot `0`. -/
def sample_wrap : Table Nat Nat :=
  { entry_ := fun _ => (0, 0), origin_ := fun _ => 0,
    used := fun i => decide (i = 2 ^ 31 - 1),
    size_ := 1, capacity_ := 2 ^ 32, H := 2 ^ 31 }

/-- The capacities `c1` that the insertion of a new key can leave behind,
starting from size `s` and capacity `c`. -/
def CapAfter (s c c1 : Nat) : Prop :=
  (c = 0 ∧ c1 = 1) ∨ (0 < c ∧ 2 * (s + 1) ≤ c ∧ c1 = c) ∨
  (0 < c ∧ c < 2 * (s + 1) ∧ (c1 = 2 * c ∨ (s = c ∧ c1 = 4 * c)))

/-- The load bound of the reachable tables: at most half full, or one of
the small tables with capacity 1, 2 or 4. -/
def LoadOK (s c : Nat) : Prop :=
  2 * s ≤ c ∨ (c = 1 ∧ s ≤ 1) ∨ (c = 2 ∧ s ≤ 2) ∨ (c = 4 ∧ s ≤ 3)

theorem store_same {α : Type} (v : Nat → α) (i : Nat) (x : α) : store v i x i = x := by
  simp [store]

theorem store_other {α : Type} (v : Nat → α) (i j : Nat) (x : α) (h : j ≠ i) :
    store v i x j = v j := by
  simp [store, h]

theorem wrap_dist (t : Table K V) (a b : Nat) (ha : a < t.capacity_) (hb : b < t.capacity_) :
    wrap t (a + dist t a b) = b := by
  unfold wrap dist
  split <;> split <;> omega

theorem dist_lt (t : Table K V) (a b : Nat) (ha : a < t.capacity_) (hb : b < t.capacity_) :
    dist t a b < t.capacity_ := by
  unfold dist
  split <;> omega

theorem dist_wrap (t : Table K V) (a s : Nat) (ha : a < t.capacity_) (hs : s < t.capacity_) :
    dist t a (wrap t (a + s)) = s := by
  unfold wrap dist
  split <;> split <;> omega

theorem wrap_lt (t : Table K V) (a s : Nat) (ha : a < t.capacity_) (hs : s < t.capacity_) :
    wrap t (a + s) < t.capacity_ := by
  unfold wrap
  split <;> omega

theorem get_pos_lt (hasher : K → Nat) (t : Table K V) (k : K) (h : 0 < t.capacity_) :
    get_pos hasher t k < t.capacity_ :=
  Nat.mod_lt _ h

/-! ## Iterators -/

theorem next_loop_stop (t : Table K V) (n p : Nat)
    (h : ¬ (p < t.capacity_ ∧ t.used p = false)) : next_loop t n p = p := by
  cases n <;> simp [next_loop, h]

theorem iter_next_end (t : Table K V) : iter_next t (end_ t) = end_ t := by
  unfold iter_next
  exact next_loop_stop t _ _ (by simp [end_])

theorem iter_next_used (t : Table K V) (p : Nat) (h : t.used p = true) : iter_next t p = p := by
  unfold iter_next
  exact next_loop_stop t _ _ (by simp [h])

theorem iter_ne_end_end (t : Table K V) : iter_ne t (end_ t) (end_ t) = false := by
  simp [iter_ne]

theorem iter_eq_end_end (t : Table K V) : iter_eq t (end_ t) (end_ t) = true := by
  simp [iter_eq]

theorem iter_ne_used_end (t : Table K V) (p : Nat) (hp : p < t.capacity_)
    (hu : t.used p = true) : iter_ne t p (end_ t) = true := by
  unfold iter_ne
  rw [iter_next_used t p hu, iter_next_end]
  simp [end_]
  omega

theorem iter_eq_used_end (t : Table K V) (p : Nat) (hp : p < t.capacity_)
    (hu : t.used p = true) : iter_eq t p (end_ t) = false := by
  unfold iter_eq
  rw [iter_next_used t p hu, iter_next_end]
  simp [end_]
  omega

/-! ## Lookup -/

theorem find_loop_spec [DecidableEq K] (t : Table K V) (key : K) (pos : Nat) :
    ∀ n shift,
      (find_loop t key pos n shift = end_ t ∧
        ∀ s, shift ≤ s → s < shift + n →
          ¬ (t.used (wrap t (pos + s)) = true ∧ key = (t.entry_ (wrap t (pos + s))).1)) ∨
      (∃ s, shift ≤ s ∧ s < shift + n ∧ find_loop t key pos n shift = wrap t (pos + s) ∧
        t.used (wrap t (pos + s)) = true ∧ key = (t.entry_ (wrap t (pos + s))).1) := by
  intro n
  induction n with
  | zero =>
    intro shift
    left
    refine ⟨rfl, ?_⟩
    intro s h1 h2
    omega
  | succ n ih =>
    intro shift
    by_cases hc : t.used (wrap t (pos + shift)) = true ∧
        key = (t.entry_ (wrap t (pos + shift))).1
    · right
      refine ⟨shift, le_refl _, by omega, ?_, hc.1, hc.2⟩
      have : find_loop t key pos (n + 1) shift =
          if t.used (wrap t (pos + shift)) = true ∧ key = (t.entry_ (wrap t (pos + shift))).1
          then wrap t (pos + shift) else find_loop t key pos n (shift + 1) := rfl
      rw [this, if_pos hc]
    · have hstep : find_loop t key pos (n + 1) shift = find_loop t key pos n (shift + 1) := by
        have : find_loop t key pos (n + 1) shift =
          if t.used (wrap t (pos + shift)) = true ∧ key = (t.entry_ (wrap t (pos + shift))).1
          then wrap t (pos + shift) else find_loop t key pos n (shift + 1) := rfl
        rw [this, if_neg hc]
      rcases ih (shift + 1) with ⟨h1, h2⟩ | ⟨s, h1, h2, h3, h4⟩
      · left
        refine ⟨by rw [hstep, h1], ?_⟩
        intro s hs1 hs2
        by_cases hs : s = shift
        · subst hs
          exact hc
        · exact h2 s (by omega) (by omega)
      · right
        exact ⟨s, by omega, by omega, by rw [hstep, h3], h4⟩

theorem find_present [DecidableEq K] (hasher : K → Nat) (t : Table K V) (hI : Inv hasher t)
    (k : K) (p : Nat) (hu : t.used p = true) (hk : (t.entry_ p).1 = k) :
    find hasher t k = p := by
  have hp : p < t.capacity_ := hI.bounded p hu
  have hc : t.capacity_ ≠ 0 := by omega
  have hpos : get_pos hasher t k < t.capacity_ := get_pos_lt hasher t k (by omega)
  have hd : dist t (get_pos hasher t k) p < t.H := by
    have := hI.near p hu
    rwa [hI.home p hu, hk] at this
  have hw : wrap t (get_pos hasher t k + dist t (get_pos hasher t k) p) = p :=
    wrap_dist t _ _ hpos hp
  unfold find
  rw [if_neg hc]
  rcases find_loop_spec t k (get_pos hasher t k) t.H 0 with ⟨_, h2⟩ | ⟨s, _, _, h3, h4, h5⟩
  · exfalso
    apply h2 (dist t (get_pos hasher t k) p) (Nat.zero_le _) (by omega)
    rw [hw]
    exact ⟨hu, hk.symm⟩
  · rw [h3]
    exact hI.unique _ _ h4 hu (by rw [← h5, hk])

theorem find_absent [DecidableEq K] (hasher : K → Nat) (t : Table K V) (hI : Inv hasher t)
    (k : K) (hk : ¬ Present t k) : find hasher t k = end_ t := by
  unfold find
  split
  · rfl
  · rcases find_loop_spec t k (get_pos hasher t k) t.H 0 with ⟨h1, _⟩ | ⟨s, _, _, _, h4, h5⟩
    · exact h1
    · exact absurd ⟨_, hI.bounded _ h4, h4, h5.symm⟩ hk

theorem find_cases [DecidableEq K] (hasher : K → Nat) (t : Table K V) (hI : Inv hasher t)
    (k : K) :
    (find hasher t k = end_ t ∧ ¬ Present t k) ∨
    (find hasher t k < t.capacity_ ∧ t.used (find hasher t k) = true ∧
      (t.entry_ (find hasher t k)).1 = k) := by
  by_cases hk : Present t k
  · right
    obtain ⟨p, hp, hu, he⟩ := hk
    rw [find_present hasher t hI k p hu he]
    exact ⟨hp, hu, he⟩
  · left
    exact ⟨find_absent hasher t hI k hk, hk⟩

/-! ## Counting occupied slots -/

/-- The number of occupied slots among the first `n`. -/
theorem used_count_succ (u : Nat → Bool) (n : Nat) :
    Nat.count (fun p => u p = true) (n + 1) =
      Nat.count (fun p => u p = true) n + (if u n = true then 1 else 0) :=
  Nat.count_succ _ _

theorem used_count_congr (u w : Nat → Bool) (n : Nat) (h : ∀ p, p < n → u p = w p) :
    Nat.count (fun p => u p = true) n = Nat.count (fun p => w p = true) n := by
  induction n with
  | zero => simp
  | succ n ih =>
    rw [used_count_succ, used_count_succ, ih (fun p hp => h p (by omega)), h n (by omega)]

theorem used_count_le (u : Nat → Bool) (n : Nat) : Nat.count (fun p => u p = true) n ≤ n := by
  induction n with
  | zero => simp
  | succ n ih =>
    rw [used_count_succ]
    split <;> omega

theorem used_count_mono (u : Nat → Bool) (m n : Nat) (h : m ≤ n) :
    Nat.count (fun p => u p = true) m ≤ Nat.count (fun p => u p = true) n := by
  induction n with
  | zero =>
    have : m = 0 := by omega
    subst this
    exact le_refl _
  | succ n ih =>
    by_cases hm : m = n + 1
    · subst hm
      exact le_refl _
    · have := ih (by omega)
      rw [used_count_succ]
      omega

theorem used_count_store_true (u : Nat → Bool) (i n : Nat) (hi : i < n) (hu : u i = false) :
    Nat.count (fun p => store u i true p = true) n = Nat.count (fun p => u p = true) n + 1 := by
  induction n with
  | zero => omega
  | succ n ih =>
    rw [used_count_succ, used_count_succ]
    by_cases hin : i = n
    · subst hin
      rw [used_count_congr (store u i true) u i (fun p hp => store_other u i p true (by omega))]
      simp [store_same, hu]
    · rw [ih (by omega), store_other u i n true (fun h => hin h.symm)]
      omega

theorem used_count_store_false (u : Nat → Bool) (i n : Nat) (hi : i < n) (hu : u i = true) :
    Nat.count (fun p => store u i false p = true) n + 1 = Nat.count (fun p => u p = true) n := by
  induction n with
  | zero => omega
  | succ n ih =>
    rw [used_count_succ, used_count_succ]
    by_cases hin : i = n
    · subst hin
      rw [used_count_congr (store u i false) u i (fun p hp => store_other u i p false (by omega))]
      simp [store_same, hu]
    · rw [store_other u i n false (fun h => hin h.symm)]
      have := ih (by omega)
      omega

theorem used_count_none (n : Nat) : Nat.count (fun _ : Nat => false = true) n = 0 := by
  induction n with
  | zero => simp
  | succ n ih => rw [Nat.count_succ, ih]; simp

theorem used_count_full (u : Nat → Bool) (n : Nat) (h : ∀ p, p < n → u p = true) :
    Nat.count (fun p => u p = true) n = n := by
  induction n with
  | zero => simp
  | succ n ih =>
    rw [used_count_succ, ih (fun p hp => h p (by omega)), h n (by omega)]
    simp

theorem exists_free (u : Nat → Bool) (n : Nat) (h : Nat.count (fun p => u p = true) n < n) :
    ∃ p, p < n ∧ u p = false := by
  by_contra hne
  have hall : ∀ p, p < n → u p = true := by
    intro p hp
    by_contra hp2
    exact hne ⟨p, hp, by simpa using hp2⟩
  rw [used_count_full u n hall] at h
  omega

/-! ## The primitive updates preserve the invariant -/

theorem store_apply {α : Type} (v : Nat → α) (i j : Nat) (x : α) :
    store v i x j = if j = i then x else v j := rfl

theorem inv_put (hasher : K → Nat) (t : Table K V) (hI : Inv hasher t) (e : K × V)
    (pos : Nat) (hpos : pos = get_pos hasher t e.1) (hlt : pos < t.capacity_)
    (hfree : t.used pos = false) (hnew : ¬ Present t e.1) : Inv hasher (put t pos e) where
  H_pos := hI.H_pos
  bounded := by
    intro p hp
    by_cases h : p = pos
    · subst h; exact hlt
    · exact hI.bounded p (by simpa [store_same, put, store_apply, h] using hp)
  home := by
    intro p hp
    by_cases h : p = pos
    · subst h
      simp only [put, store_same]
      exact hpos
    · have hu : t.used p = true := by simpa [store_same, put, store_apply, h] using hp
      have := hI.home p hu
      simpa [store_same, put, store_apply, h, get_pos] using this
  near := by
    intro p hp
    by_cases h : p = pos
    · subst h
      have := hI.H_pos
      simp only [put, store_same, dist]
      simpa using this
    · have hu : t.used p = true := by simpa [store_same, put, store_apply, h] using hp
      have := hI.near p hu
      simpa [store_same, put, store_apply, h, dist] using this
  unique := by
    intro p q hp hq hk
    by_cases h1 : p = pos <;> by_cases h2 : q = pos
    · rw [h1, h2]
    · exfalso
      have hu : t.used q = true := by simpa [store_same, put, store_apply, h2] using hq
      apply hnew
      refine ⟨q, hI.bounded q hu, hu, ?_⟩
      simpa [store_same, put, store_apply, h1, h2] using hk.symm
    · exfalso
      have hu : t.used p = true := by simpa [store_same, put, store_apply, h1] using hp
      apply hnew
      refine ⟨p, hI.bounded p hu, hu, ?_⟩
      simpa [store_same, put, store_apply, h1, h2] using hk
    · have hu1 : t.used p = true := by simpa [store_same, put, store_apply, h1] using hp
      have hu2 : t.used q = true := by simpa [store_same, put, store_apply, h2] using hq
      exact hI.unique p q hu1 hu2 (by simpa [store_same, put, store_apply, h1, h2] using hk)
  count := by
    show t.size_ + 1 = Nat.count (fun p => store t.used pos true p = true) t.capacity_
    rw [used_count_store_true t.used pos t.capacity_ hlt hfree, hI.count]
  cap_pow2 := hI.cap_pow2
  H_pow2 := hI.H_pow2
  H_le := hI.H_le

theorem holds_put (t : Table K V) (e : K × V) (pos : Nat) (hlt : pos < t.capacity_)
    (hfree : t.used pos = false) (k : K) (v : V) :
    Holds (put t pos e) k v ↔ (Holds t k v ∨ (k, v) = e) := by
  constructor
  · rintro ⟨p, hp, hu, he⟩
    by_cases h : p = pos
    · subst h
      right
      simpa [store_same, put] using he.symm
    · left
      exact ⟨p, hp, by simpa [store_same, put, store_apply, h] using hu,
        by simpa [store_same, put, store_apply, h] using he⟩
  · rintro (⟨p, hp, hu, he⟩ | h)
    · have hne : p ≠ pos := by
        intro h
        subst h
        rw [hfree] at hu
        exact Bool.noConfusion hu
      exact ⟨p, hp, by simpa [store_same, put, store_apply, hne] using hu,
        by simpa [store_same, put, store_apply, hne] using he⟩
    · exact ⟨pos, hlt, by simp [store_same, put], by simp [store_same, put, h]⟩

theorem inv_move (hasher : K → Nat) (t : Table K V) (hI : Inv hasher t)
    (prev cur : Nat) (hprev : t.used prev = true) (hcur : t.used cur = false)
    (hlt : cur < t.capacity_) (hd : dist t (t.origin_ prev) cur < t.H) :
    Inv hasher (move t prev cur) := by
  have hne : prev ≠ cur := by
    intro h
    rw [h, hcur] at hprev
    exact Bool.noConfusion hprev
  have hused : ∀ p, (move t prev cur).used p = true →
      (p = cur ∨ (p ≠ cur ∧ p ≠ prev ∧ t.used p = true)) := by
    intro p hp
    by_cases h1 : p = prev
    · simp [store_same, move, store_apply, h1] at hp
    · by_cases h2 : p = cur
      · exact Or.inl h2
      · right
        exact ⟨h2, h1, by simpa [store_same, move, store_apply, h1, h2] using hp⟩
  refine ⟨hI.H_pos, ?_, ?_, ?_, ?_, ?_, hI.cap_pow2, hI.H_pow2, hI.H_le⟩
  · intro p hp
    rcases hused p hp with h | ⟨_, _, h⟩
    · subst h; exact hlt
    · exact hI.bounded p h
  · intro p hp
    rcases hused p hp with h | ⟨h2, h1, h⟩
    · subst h
      have := hI.home prev hprev
      simpa [store_same, move, get_pos] using this
    · have := hI.home p h
      simpa [store_same, move, store_apply, h1, h2, get_pos] using this
  · intro p hp
    rcases hused p hp with h | ⟨h2, h1, h⟩
    · subst h
      simpa [store_same, move, dist] using hd
    · have := hI.near p h
      simpa [store_same, move, store_apply, h1, h2, dist] using this
  · intro p q hp hq hk
    rcases hused p hp with h | ⟨h2, h1, h⟩ <;> rcases hused q hq with h' | ⟨h2', h1', h'⟩
    · rw [h, h']
    · exfalso
      subst h
      apply h1'
      apply hI.unique q prev h' hprev
      simpa [store_same, move, store_apply, h2'] using hk.symm
    · exfalso
      subst h'
      apply h1
      apply hI.unique p prev h hprev
      simpa [store_same, move, store_apply, h2] using hk
    · exact hI.unique p q h h' (by simpa [store_same, move, store_apply, h2, h2'] using hk)
  · show t.size_ =
      Nat.count (fun p => store (store t.used cur true) prev false p = true) t.capacity_
    have h1 := used_count_store_true t.used cur t.capacity_ hlt hcur
    have h2 := used_count_store_false (store t.used cur true) prev t.capacity_
      (hI.bounded prev hprev) (by rw [store_other _ _ _ _ hne]; exact hprev)
    rw [hI.count]
    omega

theorem holds_move (t : Table K V) (prev cur : Nat) (hprev : t.used prev = true)
    (hcur : t.used cur = false) (hlt : cur < t.capacity_) (hplt : prev < t.capacity_)
    (k : K) (v : V) : Holds (move t prev cur) k v ↔ Holds t k v := by
  have hne : prev ≠ cur := by
    intro h
    rw [h, hcur] at hprev
    exact Bool.noConfusion hprev
  constructor
  · rintro ⟨p, hp, hu, he⟩
    by_cases h1 : p = prev
    · simp [store_same, move, store_apply, h1] at hu
    · by_cases h2 : p = cur
      · subst h2
        exact ⟨prev, hplt, hprev, by simpa [store_same, move] using he⟩
      · exact ⟨p, hp, by simpa [store_same, move, store_apply, h1, h2] using hu,
          by simpa [store_same, move, store_apply, h1, h2] using he⟩
  · rintro ⟨p, hp, hu, he⟩
    by_cases h1 : p = prev
    · subst h1
      exact ⟨cur, hlt, by simp [store_same, move, store_apply, hne.symm], by simpa [store_same, move] using he⟩
    · have h2 : p ≠ cur := by
        intro h
        subst h
        rw [hcur] at hu
        exact Bool.noConfusion hu
      exact ⟨p, hp, by simpa [store_same, move, store_apply, h1, h2] using hu,
        by simpa [store_same, move, store_apply, h1, h2] using he⟩

theorem inv_remove (hasher : K → Nat) (t : Table K V) (hI : Inv hasher t)
    (pos : Nat) (hu : t.used pos = true) : Inv hasher (remove t pos) := by
  have hsub : ∀ p, (remove t pos).used p = true → p ≠ pos ∧ t.used p = true := by
    intro p hp
    by_cases h : p = pos
    · simp [store_same, remove, store_apply, h] at hp
    · exact ⟨h, by simpa [store_same, remove, store_apply, h] using hp⟩
  refine ⟨hI.H_pos, ?_, ?_, ?_, ?_, ?_, hI.cap_pow2, hI.H_pow2, hI.H_le⟩
  · intro p hp
    exact hI.bounded p (hsub p hp).2
  · intro p hp
    exact hI.home p (hsub p hp).2
  · intro p hp
    exact hI.near p (hsub p hp).2
  · intro p q hp hq hk
    exact hI.unique p q (hsub p hp).2 (hsub q hq).2 hk
  · show t.size_ - 1 = Nat.count (fun p => store t.used pos false p = true) t.capacity_
    have := used_count_store_false t.used pos t.capacity_ (hI.bounded pos hu) hu
    rw [hI.count]
    omega

theorem present_iff_holds (t : Table K V) (k : K) : Present t k ↔ ∃ v, Holds t k v := by
  constructor
  · rintro ⟨p, hp, hu, he⟩
    exact ⟨(t.entry_ p).2, p, hp, hu, by rw [← he]⟩
  · rintro ⟨v, p, hp, hu, he⟩
    exact ⟨p, hp, hu, by rw [he]⟩

theorem present_congr (t t1 : Table K V) (h : ∀ k v, Holds t1 k v ↔ Holds t k v) (k : K) :
    Present t1 k ↔ Present t k := by
  rw [present_iff_holds, present_iff_holds]
  exact exists_congr (fun v => h k v)

/-! ## The scans of `insert_without_check` -/

theorem free_scan_spec (t : Table K V) (pos : Nat) :
    ∀ n shift,
      (free_scan t pos n shift = none ∧
        ∀ s, shift ≤ s → s < shift + n → t.used (wrap t (pos + s)) = true) ∨
      (∃ s, shift ≤ s ∧ s < shift + n ∧ free_scan t pos n shift = some (wrap t (pos + s)) ∧
        t.used (wrap t (pos + s)) = false ∧
        ∀ s1, shift ≤ s1 → s1 < s → t.used (wrap t (pos + s1)) = true) := by
  intro n
  induction n with
  | zero =>
    intro shift
    left
    refine ⟨rfl, ?_⟩
    intro s h1 h2
    omega
  | succ n ih =>
    intro shift
    have hdef : free_scan t pos (n + 1) shift =
        if t.used (wrap t (pos + shift)) = false then some (wrap t (pos + shift))
        else free_scan t pos n (shift + 1) := rfl
    by_cases hc : t.used (wrap t (pos + shift)) = false
    · right
      refine ⟨shift, le_refl _, by omega, by rw [hdef, if_pos hc], hc, ?_⟩
      intro s1 h1 h2
      omega
    · rw [if_neg hc] at hdef
      have hc1 : t.used (wrap t (pos + shift)) = true := by simpa using hc
      rcases ih (shift + 1) with ⟨h1, h2⟩ | ⟨s, h1, h2, h3, h4, h5⟩
      · left
        refine ⟨by rw [hdef, h1], ?_⟩
        intro s hs1 hs2
        by_cases hs : s = shift
        · subst hs
          exact hc1
        · exact h2 s (by omega) (by omega)
      · right
        refine ⟨s, by omega, by omega, by rw [hdef, h3], h4, ?_⟩
        intro s1 hs1 hs2
        by_cases hs : s1 = shift
        · subst hs
          exact hc1
        · exact h5 s1 (by omega) hs2

theorem free_scan_found (hasher : K → Nat) (t : Table K V) (hI : Inv hasher t)
    (hsize : t.size_ < t.capacity_) (pos : Nat) (hpos : pos < t.capacity_)
    (hused : t.used pos = true) :
    ∃ n_pos, free_scan t pos (t.capacity_ - 1) 1 = some n_pos ∧ n_pos < t.capacity_ ∧
      t.used n_pos = false ∧
      ∀ q, q < t.capacity_ → dist t pos q < dist t pos n_pos → t.used q = true := by
  rcases free_scan_spec t pos (t.capacity_ - 1) 1 with ⟨_, h2⟩ | ⟨s, h1, h2, h3, h4, h5⟩
  · exfalso
    have hall : ∀ q, q < t.capacity_ → t.used q = true := by
      intro q hq
      by_cases hd : dist t pos q = 0
      · have := wrap_dist t pos q hpos hq
        rw [hd] at this
        have hw : wrap t (pos + 0) = pos := by unfold wrap; simp; omega
        rw [hw] at this
        rw [← this]
        exact hused
      · have := h2 (dist t pos q) (by omega) (by have := dist_lt t pos q hpos hq; omega)
        rwa [wrap_dist t pos q hpos hq] at this
    have := used_count_full t.used t.capacity_ hall
    rw [← hI.count] at this
    omega
  · have hs : s < t.capacity_ := by omega
    refine ⟨_, h3, wrap_lt t pos s hpos hs, h4, ?_⟩
    intro q hq hd
    rw [dist_wrap t pos s hpos hs] at hd
    by_cases hd0 : dist t pos q = 0
    · have := wrap_dist t pos q hpos hq
      rw [hd0] at this
      have hw : wrap t (pos + 0) = pos := by unfold wrap; simp; omega
      rw [hw] at this
      rw [← this]
      exact hused
    · have := h5 (dist t pos q) (by omega) hd
      rwa [wrap_dist t pos q hpos hq] at this

theorem back_scan_spec (t : Table K V) (cur : Nat) :
    ∀ n l prev, back_scan t cur n l = some prev →
      ∃ l1, l ≤ l1 ∧ l1 < l + n ∧ prev = prev_at t cur l1 ∧
        dist t (t.origin_ prev) cur < t.H := by
  intro n
  induction n with
  | zero =>
    intro l prev h
    simp [back_scan] at h
  | succ n ih =>
    intro l prev h
    have hdef : back_scan t cur (n + 1) l =
        if dist t (t.origin_ (prev_at t cur l)) cur < t.H then some (prev_at t cur l)
        else back_scan t cur n (l + 1) := rfl
    rw [hdef] at h
    split at h
    · rename_i hd
      have hp : prev_at t cur l = prev := by simpa using h
      subst hp
      exact ⟨l, le_refl _, by omega, rfl, hd⟩
    · obtain ⟨l1, h1, h2, h3, h4⟩ := ih (l + 1) prev h
      exact ⟨l1, by omega, by omega, h3, h4⟩

theorem dist_prev_at (t : Table K V) (pos cur l : Nat) (hpos : pos < t.capacity_)
    (hcur : cur < t.capacity_) (hl : l ≤ dist t pos cur) :
    prev_at t cur l < t.capacity_ ∧ dist t pos (prev_at t cur l) = dist t pos cur - l := by
  unfold prev_at dist at *
  split at hl <;> split <;> (try split) <;> constructor <;> omega

/-! ## The displacement loop -/

theorem displace_succ (pos n : Nat) (t : Table K V) (cur : Nat) :
    displace pos (n + 1) t cur =
      if dist t pos cur ≥ t.H then
        match back_scan t cur (t.H - 1) 1 with
        | some prev => displace pos n (move t prev cur) prev
        | none => some (t, none)
      else some (t, some cur) := rfl

theorem displace_mono (pos : Nat) :
    ∀ n (t : Table K V) cur r, displace pos n t cur = some r →
      ∀ m, n ≤ m → displace pos m t cur = some r := by
  intro n
  induction n with
  | zero =>
    intro t cur r h
    simp [displace] at h
  | succ n ih =>
    intro t cur r h m hm
    obtain ⟨m1, rfl⟩ : ∃ m1, m = m1 + 1 := ⟨m - 1, by omega⟩
    rw [displace_succ] at h ⊢
    split
    · rename_i hd
      rw [if_pos hd] at h
      cases hb : back_scan t cur (t.H - 1) 1 with
      | none =>
        rw [hb] at h
        exact h
      | some prev =>
        rw [hb] at h
        exact ih _ _ _ h m1 (by omega)
    · rename_i hd
      rw [if_neg hd] at h
      exact h

theorem dist_self (t : Table K V) (a : Nat) : dist t a a = 0 := by
  simp [dist]

theorem displace_spec (hasher : K → Nat) (t0 : Table K V) (pos : Nat) :
    ∀ n (t : Table K V) cur, Casc hasher t0 pos t cur → dist t pos cur < n →
      ∃ t1 r c1, displace pos n t cur = some (t1, r) ∧ Casc hasher t0 pos t1 c1 ∧
        ((r = some c1 ∧ dist t1 pos c1 < t1.H) ∨ (r = none ∧ t1.H ≤ dist t1 pos c1)) := by
  intro n
  induction n with
  | zero =>
    intro t cur _ h
    omega
  | succ n ih =>
    intro t cur hC hn
    rw [displace_succ]
    by_cases hd : dist t pos cur ≥ t.H
    · rw [if_pos hd]
      cases hb : back_scan t cur (t.H - 1) 1 with
      | none => exact ⟨t, none, cur, rfl, hC, Or.inr ⟨rfl, hd⟩⟩
      | some prev =>
        obtain ⟨l1, h1, h2, h3, h4⟩ := back_scan_spec t cur _ _ _ hb
        have hHpos := hC.inv.H_pos
        have hl : l1 ≤ dist t pos cur := by omega
        obtain ⟨hplt, hpd⟩ := dist_prev_at t pos cur l1 hC.pos_lt hC.cur_lt hl
        rw [← h3] at hplt hpd
        have hpu : t.used prev = true := hC.run_used prev hplt (by omega)
        have hne : prev ≠ cur := by
          intro h
          rw [h, hC.cur_free] at hpu
          exact Bool.noConfusion hpu
        have hnp : pos ≠ prev := by
          intro h
          rw [← h, dist_self] at hpd
          omega
        have hnc : pos ≠ cur := by
          intro h
          have := hC.pos_used
          rw [h, hC.cur_free] at this
          exact Bool.noConfusion this
        have hC1 : Casc hasher t0 pos (move t prev cur) prev := by
          refine ⟨inv_move hasher t hC.inv prev cur hpu hC.cur_free hC.cur_lt h4,
            hC.cap_eq, hC.size_eq, hC.H_eq, ?_, hC.pos_lt, hplt, ?_, ?_, ?_⟩
          · intro k v
            rw [holds_move t prev cur hpu hC.cur_free hC.cur_lt hplt]
            exact hC.content k v
          · simpa [store_same, move, store_apply, hnp, hnc] using hC.pos_used
          · simp [store_same, move, store_apply]
          · intro q hq hdq
            have hdq1 : dist t pos q < dist t pos prev := hdq
            have h1 : q ≠ prev := by
              intro h
              rw [h] at hdq1
              omega
            by_cases h2 : q = cur
            · simp [store_same, move, store_apply, h1, h2, hne.symm]
            · have := hC.run_used q hq (by omega)
              simpa [store_same, move, store_apply, h1, h2] using this
        have hn1 : dist (move t prev cur) pos prev < n := by
          have : dist (move t prev cur) pos prev = dist t pos prev := rfl
          omega
        exact ih (move t prev cur) prev hC1 hn1
    · rw [if_neg hd]
      exact ⟨t, some cur, cur, rfl, hC, Or.inl ⟨rfl, by omega⟩⟩

/-! ## Unfolding the recursive operations -/

section Unfold

variable [DecidableEq K] [Inhabited K] [Inhabited V] (hasher : K → Nat)

theorem expand_succ (fuel : Nat) (t : Table K V) :
    expand hasher (fuel + 1) t =
      if t.capacity_ = 0 then some (first_slot t)
      else expand_loop hasher t.entry_ t.used fuel (rebuilt t) 0 := by
  rw [expand]

theorem expand_loop_succ (old_entry : Nat → K × V) (old_used : Nat → Bool) (fuel : Nat)
    (t : Table K V) (i : Nat) :
    expand_loop hasher old_entry old_used (fuel + 1) t i =
      if i < t.capacity_ / 2 then
        if old_used i = true then
          match insert hasher fuel t (old_entry i) with
          | some (t1, _) => expand_loop hasher old_entry old_used fuel t1 (i + 1)
          | none => none
        else expand_loop hasher old_entry old_used fuel t (i + 1)
      else some t := by
  rw [expand_loop]

theorem insert_succ (fuel : Nat) (t : Table K V) (elem : K × V) :
    insert hasher (fuel + 1) t elem =
      if iter_ne t (find hasher t elem.1) (end_ t) = true then some (t, find hasher t elem.1)
      else insert_without_check hasher fuel t elem := by
  rw [insert]

theorem insert_without_check_succ (fuel : Nat) (t0 : Table K V) (elem : K × V) :
    insert_without_check hasher (fuel + 1) t0 elem =
      match (if t0.capacity_ = 0 ∨ t0.capacity_ < 2 * (t0.size_ + 1)
             then expand hasher fuel t0 else some t0) with
      | none => none
      | some t =>
        if t.used (get_pos hasher t elem.1) = false then
          some (put t (get_pos hasher t elem.1) elem, get_pos hasher t elem.1)
        else
          match free_scan t (get_pos hasher t elem.1) (t.capacity_ - 1) 1 with
          | some n_pos =>
            match displace (get_pos hasher t elem.1) fuel t n_pos with
            | none => none
            | some (t1, none) =>
              insert_without_check hasher fuel { t1 with H := t1.H * 2 } elem
            | some (t1, some cur_pos) =>
              if dist t1 (t1.origin_ (get_pos hasher t elem.1)) cur_pos < t1.H then
                some (put (move t1 (get_pos hasher t elem.1) cur_pos)
                  (get_pos hasher t elem.1) elem, get_pos hasher t elem.1)
              else insert_without_check hasher fuel { t1 with H := t1.H * 2 } elem
          | none =>
            match expand hasher fuel t with
            | none => none
            | some t1 => insert_without_check hasher fuel t1 elem := by
  rw [insert_without_check]

theorem fuel_mono_all : ∀ n : Nat,
    (∀ (t : Table K V) r, expand hasher n t = some r →
      ∀ m, n ≤ m → expand hasher m t = some r) ∧
    (∀ (oe : Nat → K × V) (ou : Nat → Bool) (t : Table K V) i r,
      expand_loop hasher oe ou n t i = some r →
      ∀ m, n ≤ m → expand_loop hasher oe ou m t i = some r) ∧
    (∀ (t : Table K V) e r, insert_without_check hasher n t e = some r →
      ∀ m, n ≤ m → insert_without_check hasher m t e = some r) ∧
    (∀ (t : Table K V) e r, insert hasher n t e = some r →
      ∀ m, n ≤ m → insert hasher m t e = some r) := by
  intro n
  induction n with
  | zero =>
    refine ⟨?_, ?_, ?_, ?_⟩
    · intro t r h
      rw [expand] at h
      exact Option.noConfusion h
    · intro oe ou t i r h
      rw [expand_loop] at h
      exact Option.noConfusion h
    · intro t e r h
      rw [insert_without_check] at h
      exact Option.noConfusion h
    · intro t e r h
      rw [insert] at h
      exact Option.noConfusion h
  | succ n ih =>
    obtain ⟨ihE, ihL, ihW, ihI⟩ := ih
    refine ⟨?_, ?_, ?_, ?_⟩
    · intro t r h m hm
      obtain ⟨m1, rfl⟩ : ∃ m1, m = m1 + 1 := ⟨m - 1, by omega⟩
      rw [expand_succ] at h ⊢
      split
      · rename_i hc
        rw [if_pos hc] at h
        exact h
      · rename_i hc
        rw [if_neg hc] at h
        exact ihL _ _ _ _ _ h m1 (by omega)
    · intro oe ou t i r h m hm
      obtain ⟨m1, rfl⟩ : ∃ m1, m = m1 + 1 := ⟨m - 1, by omega⟩
      rw [expand_loop_succ] at h ⊢
      by_cases hi : i < t.capacity_ / 2
      · rw [if_pos hi] at h ⊢
        by_cases hu : ou i = true
        · rw [if_pos hu] at h ⊢
          cases hins : insert hasher n t (oe i) with
          | none =>
            rw [hins] at h
            exact Option.noConfusion h
          | some r1 =>
            rw [hins] at h
            rw [ihI _ _ _ hins m1 (by omega)]
            exact ihL _ _ _ _ _ h m1 (by omega)
        · rw [if_neg hu] at h ⊢
          exact ihL _ _ _ _ _ h m1 (by omega)
      · rw [if_neg hi] at h ⊢
        exact h
    · intro t0 e r h m hm
      obtain ⟨m1, rfl⟩ : ∃ m1, m = m1 + 1 := ⟨m - 1, by omega⟩
      have hm1 : n ≤ m1 := by omega
      rw [insert_without_check_succ] at h ⊢
      have hload : ∀ t, (if t0.capacity_ = 0 ∨ t0.capacity_ < 2 * (t0.size_ + 1)
             then expand hasher n t0 else some t0) = some t →
          (if t0.capacity_ = 0 ∨ t0.capacity_ < 2 * (t0.size_ + 1)
             then expand hasher m1 t0 else some t0) = some t := by
        intro t ht
        split
        · rename_i hc
          rw [if_pos hc] at ht
          exact ihE _ _ ht m1 hm1
        · rename_i hc
          rw [if_neg hc] at ht
          exact ht
      cases hl : (if t0.capacity_ = 0 ∨ t0.capacity_ < 2 * (t0.size_ + 1)
             then expand hasher n t0 else some t0) with
      | none =>
        rw [hl] at h
        exact Option.noConfusion h
      | some t =>
        rw [hl] at h
        rw [hload t hl]
        simp only at h ⊢
        by_cases hu : t.used (get_pos hasher t e.1) = false
        · rw [if_pos hu] at h ⊢
          exact h
        · rw [if_neg hu] at h ⊢
          cases hf : free_scan t (get_pos hasher t e.1) (t.capacity_ - 1) 1 with
          | none =>
            rw [hf] at h
            simp only at h ⊢
            cases he : expand hasher n t with
            | none =>
              rw [he] at h
              exact Option.noConfusion h
            | some t1 =>
              rw [he] at h
              rw [ihE _ _ he m1 hm1]
              exact ihW _ _ _ h m1 hm1
          | some n_pos =>
            rw [hf] at h
            simp only at h ⊢
            cases hd : displace (get_pos hasher t e.1) n t n_pos with
            | none =>
              rw [hd] at h
              exact Option.noConfusion h
            | some r1 =>
              rw [hd] at h
              rw [displace_mono _ _ _ _ _ hd m1 hm1]
              obtain ⟨t1, c⟩ := r1
              cases c with
              | none =>
                simp only at h ⊢
                exact ihW _ _ _ h m1 hm1
              | some cur =>
                simp only at h ⊢
                split
                · rename_i hc
                  rw [if_pos hc] at h
                  exact h
                · rename_i hc
                  rw [if_neg hc] at h
                  exact ihW _ _ _ h m1 hm1
    · intro t e r h m hm
      obtain ⟨m1, rfl⟩ : ∃ m1, m = m1 + 1 := ⟨m - 1, by omega⟩
      rw [insert_succ] at h ⊢
      split
      · rename_i hc
        rw [if_pos hc] at h
        exact h
      · rename_i hc
        rw [if_neg hc] at h
        exact ihW _ _ _ h m1 (by omega)

theorem expand_mono (n m : Nat) (h : n ≤ m) (t r : Table K V)
    (he : expand hasher n t = some r) : expand hasher m t = some r :=
  (fuel_mono_all hasher n).1 t r he m h

theorem expand_loop_mono (n m : Nat) (h : n ≤ m) (oe : Nat → K × V) (ou : Nat → Bool)
    (t : Table K V) (i : Nat) (r : Table K V)
    (he : expand_loop hasher oe ou n t i = some r) :
    expand_loop hasher oe ou m t i = some r :=
  (fuel_mono_all hasher n).2.1 oe ou t i r he m h

theorem insert_without_check_mono (n m : Nat) (h : n ≤ m) (t : Table K V) (e : K × V)
    (r : Table K V × Nat) (he : insert_without_check hasher n t e = some r) :
    insert_without_check hasher m t e = some r :=
  (fuel_mono_all hasher n).2.2.1 t e r he m h

theorem insert_mono (n m : Nat) (h : n ≤ m) (t : Table K V) (e : K × V)
    (r : Table K V × Nat) (he : insert hasher n t e = some r) :
    insert hasher m t e = some r :=
  (fuel_mono_all hasher n).2.2.2 t e r he m h

end Unfold

/-! ## One pass of `insert_without_check` -/

theorem pow2_double_le (a b : Nat) (h : 2 ^ b < 2 ^ a) : 2 ^ b * 2 ≤ 2 ^ a := by
  have hlt : b < a := (Nat.pow_lt_pow_iff_right (by norm_num)).mp h
  have : 2 ^ (b + 1) ≤ 2 ^ a := Nat.pow_le_pow_right (by norm_num) hlt
  rwa [pow_succ] at this

theorem inv_double (hasher : K → Nat) (t : Table K V) (hI : Inv hasher t)
    (h : t.H < t.capacity_) : Inv hasher { t with H := t.H * 2 } := by
  refine ⟨?_, hI.bounded, hI.home, ?_, hI.unique, hI.count, hI.cap_pow2, ?_, ?_⟩
  · show 0 < t.H * 2
    have := hI.H_pos
    omega
  · intro p hp
    show dist t (t.origin_ p) p < t.H * 2
    have := hI.near p hp
    omega
  · obtain ⟨b, hb⟩ := hI.H_pow2
    exact ⟨b + 1, by show t.H * 2 = 2 ^ (b + 1); rw [hb, pow_succ]⟩
  · left
    show t.H * 2 ≤ t.capacity_
    obtain ⟨b, hb⟩ := hI.H_pow2
    rcases hI.cap_pow2 with h0 | ⟨a, ha⟩
    · omega
    · rw [hb, ha] at h ⊢
      exact pow2_double_le a b h

theorem inserted_transfer (hasher : K → Nat) (t0 t2 : Table K V) (e : K × V)
    (t1 : Table K V) (loc : Nat) (h : Inserted hasher t2 e t1 loc)
    (hsize : t2.size_ = t0.size_) (hcont : ∀ k v, Holds t2 k v ↔ Holds t0 k v)
    (hcap : t0.capacity_ ≤ t2.capacity_) (hH : t0.H ≤ t2.H) :
    Inserted hasher t0 e t1 loc where
  inv := h.inv
  loc_lt := h.loc_lt
  loc_used := h.loc_used
  loc_entry := h.loc_entry
  loc_home := h.loc_home
  size_eq := by rw [h.size_eq, hsize]
  content := by
    intro k v
    rw [h.content k v, hcont k v]
  cap_le := le_trans hcap h.cap_le
  H_mono := le_trans hH h.H_mono

theorem inserted_put (hasher : K → Nat) (t : Table K V) (hI : Inv hasher t) (e : K × V)
    (hcap : 0 < t.capacity_) (hfree : t.used (get_pos hasher t e.1) = false)
    (hnew : ¬ Present t e.1) :
    Inserted hasher t e (put t (get_pos hasher t e.1) e) (get_pos hasher t e.1) where
  inv := inv_put hasher t hI e _ rfl (get_pos_lt hasher t e.1 hcap) hfree hnew
  loc_lt := get_pos_lt hasher t e.1 hcap
  loc_used := by simp [store_same, put]
  loc_entry := by simp [store_same, put]
  loc_home := rfl
  size_eq := rfl
  content := holds_put t e _ (get_pos_lt hasher t e.1 hcap) hfree
  cap_le := le_refl _
  H_mono := le_refl _

theorem inv_rebuilt [Inhabited K] [Inhabited V] (hasher : K → Nat) (t : Table K V) (hI : Inv hasher t) (hc : 0 < t.capacity_) :
    Inv hasher (rebuilt t) := by
  refine ⟨hI.H_pos, ?_, ?_, ?_, ?_, ?_, ?_, hI.H_pow2, ?_⟩
  · intro p hp
    exact Bool.noConfusion hp
  · intro p hp
    exact Bool.noConfusion hp
  · intro p hp
    exact Bool.noConfusion hp
  · intro p q hp
    exact Bool.noConfusion hp
  · show 0 = Nat.count (fun _ : Nat => false = true) (t.capacity_ * 2)
    rw [used_count_none]
  · right
    rcases hI.cap_pow2 with h0 | ⟨a, ha⟩
    · omega
    · exact ⟨a + 1, by show t.capacity_ * 2 = 2 ^ (a + 1); rw [ha, pow_succ]⟩
  · left
    show t.H ≤ t.capacity_ * 2
    rcases hI.H_le with h | ⟨h, _⟩ <;> omega

theorem inv_first_slot [Inhabited K] [Inhabited V] (hasher : K → Nat) (t : Table K V)
    (hI : Inv hasher t) (hc : t.capacity_ = 0) : Inv hasher (first_slot t) := by
  refine ⟨hI.H_pos, ?_, ?_, ?_, ?_, ?_, ?_, hI.H_pow2, ?_⟩
  · intro p hp
    exact Bool.noConfusion hp
  · intro p hp
    exact Bool.noConfusion hp
  · intro p hp
    exact Bool.noConfusion hp
  · intro p q hp
    exact Bool.noConfusion hp
  · show t.size_ = Nat.count (fun _ : Nat => false = true) 1
    rw [used_count_none, hI.count, hc]
    simp
  · right
    exact ⟨0, rfl⟩
  · left
    show t.H ≤ 1
    have := hI.H_pos
    rcases hI.H_le with h | ⟨_, h⟩ <;> omega

theorem size_le_capacity (hasher : K → Nat) (t : Table K V) (hI : Inv hasher t) :
    t.size_ ≤ t.capacity_ := by
  rw [hI.count]
  exact used_count_le _ _

section Body

variable [DecidableEq K] [Inhabited K] [Inhabited V] (hasher : K → Nat)

theorem iwc_body (t0 t : Table K V) (e : K × V) (C : Nat → Prop)
    (hload : ∃ F0, ∀ fuel, F0 ≤ fuel →
      (if t0.capacity_ = 0 ∨ t0.capacity_ < 2 * (t0.size_ + 1)
        then expand hasher fuel t0 else some t0) = some t)
    (hI : Inv hasher t) (hsize : t.size_ < t.capacity_) (hs0 : t.size_ = t0.size_)
    (hcont : ∀ k v, Holds t k v ↔ Holds t0 k v) (hcap : t0.capacity_ ≤ t.capacity_)
    (hH : t0.H ≤ t.H) (hnew : ¬ Present t e.1) (hC : C t.capacity_)
    (hretry : ∀ t2 : Table K V, Inv hasher t2 → t2.capacity_ = t.capacity_ →
      t2.size_ = t.size_ → (∀ k v, Holds t2 k v ↔ Holds t k v) → t2.H = t.H * 2 →
      t.H < t.capacity_ →
      ∃ fuel t1 loc, insert_without_check hasher fuel t2 e = some (t1, loc) ∧
        Inserted hasher t2 e t1 loc ∧ C t1.capacity_) :
    ∃ fuel t1 loc, insert_without_check hasher fuel t0 e = some (t1, loc) ∧
      Inserted hasher t0 e t1 loc ∧ C t1.capacity_ := by
  obtain ⟨F0, hF0⟩ := hload
  have hcpos : 0 < t.capacity_ := by omega
  have hpos : get_pos hasher t e.1 < t.capacity_ := get_pos_lt hasher t e.1 hcpos
  by_cases hu : t.used (get_pos hasher t e.1) = false
  · refine ⟨F0 + 1, _, _, ?_, inserted_transfer hasher t0 t e _ _
      (inserted_put hasher t hI e hcpos hu hnew) hs0 hcont hcap hH, hC⟩
    rw [insert_without_check_succ, hF0 F0 (le_refl _)]
    simp only
    rw [if_pos hu]
  · have hu1 : t.used (get_pos hasher t e.1) = true := by simpa using hu
    obtain ⟨n_pos, hfs, hnlt, hnfree, hrun⟩ :=
      free_scan_found hasher t hI hsize _ hpos hu1
    have hC0 : Casc hasher t (get_pos hasher t e.1) t n_pos :=
      ⟨hI, rfl, rfl, rfl, fun _ _ => Iff.rfl, hpos, hnlt, hu1, hnfree, hrun⟩
    obtain ⟨t1, r, c1, hdis, hC1, hr⟩ :=
      displace_spec hasher t (get_pos hasher t e.1) t.capacity_ t n_pos hC0
        (dist_lt t _ _ hpos hnlt)
    have hc1lt : c1 < t.capacity_ := by rw [← hC1.cap_eq]; exact hC1.cur_lt
    -- the retry with `H` doubled
    have retry : t1.H < t1.capacity_ →
        ∃ fuel t3 loc, insert_without_check hasher fuel { t1 with H := t1.H * 2 } e =
          some (t3, loc) ∧ Inserted hasher t0 e t3 loc ∧ C t3.capacity_ := by
      intro hlt
      have hI2 := inv_double hasher t1 hC1.inv hlt
      obtain ⟨f2, t3, loc, h3, hins, hC3⟩ :=
        hretry { t1 with H := t1.H * 2 } hI2 hC1.cap_eq hC1.size_eq hC1.content
          (by show t1.H * 2 = t.H * 2; rw [hC1.H_eq])
          (by rw [← hC1.H_eq, ← hC1.cap_eq]; exact hlt)
      refine ⟨f2, t3, loc, h3, inserted_transfer hasher t0 _ e _ _ hins ?_ ?_ ?_ ?_, hC3⟩
      · show t1.size_ = t0.size_
        rw [hC1.size_eq, hs0]
      · intro k v
        exact (hC1.content k v).trans (hcont k v)
      · show t0.capacity_ ≤ t1.capacity_
        rw [hC1.cap_eq]; exact hcap
      · show t0.H ≤ t1.H * 2
        have := hC1.H_eq
        omega
    have hdlt : dist t1 (get_pos hasher t e.1) c1 < t1.capacity_ :=
      dist_lt t1 _ _ hC1.pos_lt hC1.cur_lt
    rcases hr with ⟨rfl, hnear⟩ | ⟨rfl, hfar⟩
    · by_cases hc : dist t1 (t1.origin_ (get_pos hasher t e.1)) c1 < t1.H
      · -- final placement: the entry at home moves to the free slot
        have hIm := inv_move hasher t1 hC1.inv _ c1 hC1.pos_used hC1.cur_free hC1.cur_lt hc
        have hne : get_pos hasher t e.1 ≠ c1 := by
          intro h
          have := hC1.pos_used
          rw [h, hC1.cur_free] at this
          exact Bool.noConfusion this
        have hfree : (move t1 (get_pos hasher t e.1) c1).used (get_pos hasher t e.1) = false := by
          simp [store_same, move, store_apply]
        have hcm : ∀ k v, Holds (move t1 (get_pos hasher t e.1) c1) k v ↔ Holds t k v := by
          intro k v
          rw [holds_move t1 _ c1 hC1.pos_used hC1.cur_free hC1.cur_lt hC1.pos_lt]
          exact hC1.content k v
        have hnew1 : ¬ Present (move t1 (get_pos hasher t e.1) c1) e.1 := by
          rw [present_congr t _ hcm]
          exact hnew
        have hgp : get_pos hasher (move t1 (get_pos hasher t e.1) c1) e.1 =
            get_pos hasher t e.1 := by
          show hasher e.1 % t1.capacity_ = hasher e.1 % t.capacity_
          rw [hC1.cap_eq]
        have hput := inserted_put hasher (move t1 (get_pos hasher t e.1) c1) hIm e
          (by show 0 < t1.capacity_; rw [hC1.cap_eq]; exact hcpos)
          (by rw [hgp]; exact hfree) hnew1
        rw [hgp] at hput
        refine ⟨max F0 t.capacity_ + 1, _, _, ?_,
          inserted_transfer hasher t0 _ e _ _ hput ?_ ?_ ?_ ?_, ?_⟩
        · rw [insert_without_check_succ, hF0 _ (le_max_left _ _)]
          simp only
          rw [if_neg hu, hfs]
          simp only
          rw [displace_mono _ _ _ _ _ hdis _ (le_max_right _ _)]
          simp only
          rw [if_pos hc]
        · show t1.size_ = t0.size_
          rw [hC1.size_eq, hs0]
        · intro k v
          exact (hcm k v).trans (hcont k v)
        · show t0.capacity_ ≤ t1.capacity_
          rw [hC1.cap_eq]; exact hcap
        · show t0.H ≤ t1.H
          rw [hC1.H_eq]; exact hH
        · show C t1.capacity_
          rw [hC1.cap_eq]; exact hC
      · have horig : t1.origin_ (get_pos hasher t e.1) < t1.capacity_ := by
          rw [hC1.inv.home _ hC1.pos_used]
          exact get_pos_lt hasher t1 _ (by rw [hC1.cap_eq]; exact hcpos)
        have := dist_lt t1 _ _ horig hC1.cur_lt
        obtain ⟨f2, t3, loc, h3, hins, hC3⟩ := retry (by omega)
        refine ⟨max (max F0 t.capacity_) f2 + 1, t3, loc, ?_, hins, hC3⟩
        rw [insert_without_check_succ,
          hF0 _ (le_trans (le_max_left _ _) (le_max_left _ _))]
        simp only
        rw [if_neg hu, hfs]
        simp only
        rw [displace_mono _ _ _ _ _ hdis _ (le_trans (le_max_right _ _) (le_max_left _ _))]
        simp only
        rw [if_neg hc]
        exact insert_without_check_mono hasher _ _ (le_max_right _ _) _ _ _ h3
    · obtain ⟨f2, t3, loc, h3, hins, hC3⟩ := retry (by omega)
      refine ⟨max (max F0 t.capacity_) f2 + 1, t3, loc, ?_, hins, hC3⟩
      rw [insert_without_check_succ,
        hF0 _ (le_trans (le_max_left _ _) (le_max_left _ _))]
      simp only
      rw [if_neg hu, hfs]
      simp only
      rw [displace_mono _ _ _ _ _ hdis _ (le_trans (le_max_right _ _) (le_max_left _ _))]
      simp only
      exact insert_without_check_mono hasher _ _ (le_max_right _ _) _ _ _ h3

theorem iwc_no_expand (e : K × V) :
    ∀ m (t : Table K V), Inv hasher t → t.capacity_ - t.H ≤ m →
      2 * (t.size_ + 1) ≤ t.capacity_ → ¬ Present t e.1 →
      ∃ fuel t1 loc, insert_without_check hasher fuel t e = some (t1, loc) ∧
        Inserted hasher t e t1 loc ∧ t1.capacity_ = t.capacity_ := by
  intro m
  induction m with
  | zero =>
    intro t hI hm hs hnew
    apply iwc_body hasher t t e (fun c => c = t.capacity_)
      ⟨0, fun fuel _ => if_neg (by omega)⟩ hI (by omega) rfl (fun _ _ => Iff.rfl)
      (le_refl _) (le_refl _) hnew rfl
    intro t2 _ _ _ _ _ hlt
    omega
  | succ m ih =>
    intro t hI hm hs hnew
    apply iwc_body hasher t t e (fun c => c = t.capacity_)
      ⟨0, fun fuel _ => if_neg (by omega)⟩ hI (by omega) rfl (fun _ _ => Iff.rfl)
      (le_refl _) (le_refl _) hnew rfl
    intro t2 hI2 hcap hsize hcont hH hlt
    have hpos := hI.H_pos
    obtain ⟨fuel, t1, loc, h1, h2, h3⟩ := ih t2 hI2 (by omega) (by omega)
      (by rw [present_congr t t2 hcont]; exact hnew)
    exact ⟨fuel, t1, loc, h1, h2, by show t1.capacity_ = t.capacity_; omega⟩

theorem insert_absent (t : Table K V) (hI : Inv hasher t) (e : K × V)
    (hnew : ¬ Present t e.1) (fuel : Nat) :
    insert hasher (fuel + 1) t e = insert_without_check hasher fuel t e := by
  rw [insert_succ, find_absent hasher t hI e.1 hnew, iter_ne_end_end]
  simp

theorem insert_present (t : Table K V) (hI : Inv hasher t) (e : K × V)
    (hold : Present t e.1) (fuel : Nat) :
    insert hasher (fuel + 1) t e = some (t, find hasher t e.1) := by
  rcases find_cases hasher t hI e.1 with ⟨_, h⟩ | ⟨h1, h2, _⟩
  · exact absurd hold h
  · rw [insert_succ, iter_ne_used_end t _ h1 h2]
    simp

theorem expand_loop_spec (told : Table K V) (hI0 : Inv hasher told) :
    ∀ k i (t : Table K V), i + k = told.capacity_ → Inv hasher t →
      t.capacity_ = 2 * told.capacity_ →
      t.size_ = Nat.count (fun p => told.used p = true) i →
      (∀ k v, Holds t k v ↔ ∃ p, p < i ∧ told.used p = true ∧ told.entry_ p = (k, v)) →
      told.H ≤ t.H →
      ∃ fuel t1, expand_loop hasher told.entry_ told.used fuel t i = some t1 ∧
        Inv hasher t1 ∧ t1.capacity_ = 2 * told.capacity_ ∧ t1.size_ = told.size_ ∧
        (∀ k v, Holds t1 k v ↔ Holds told k v) ∧ told.H ≤ t1.H := by
  intro k
  induction k with
  | zero =>
    intro i t hik hI hcap hsize hcont hH
    have hi : i = told.capacity_ := by omega
    refine ⟨1, t, ?_, hI, hcap, ?_, ?_, hH⟩
    · rw [expand_loop_succ, if_neg (by omega)]
    · rw [hsize, hi, ← hI0.count]
    · intro k v
      rw [hcont k v, hi]
      rfl
  | succ k ih =>
    intro i t hik hI hcap hsize hcont hH
    have hi : i < t.capacity_ / 2 := by omega
    have hcs := used_count_succ told.used i
    by_cases hu : told.used i = true
    · have hnew : ¬ Present t (told.entry_ i).1 := by
        rw [present_iff_holds]
        rintro ⟨v, hv⟩
        obtain ⟨p, hp, hpu, hpe⟩ := (hcont _ _).mp hv
        have := hI0.unique p i hpu hu (by rw [hpe])
        omega
      have hle : Nat.count (fun p => told.used p = true) (i + 1) ≤ told.capacity_ := by
        have := used_count_mono told.used (i + 1) told.capacity_ (by omega)
        have := used_count_le told.used told.capacity_
        omega
      rw [if_pos hu] at hcs
      obtain ⟨f1, t1, loc, h1, hins, hc1⟩ :=
        iwc_no_expand hasher (told.entry_ i) (t.capacity_ - t.H) t hI (le_refl _)
          (by omega) hnew
      obtain ⟨f2, t2, h2, hrest⟩ := ih (i + 1) t1 (by omega) hins.inv (by omega)
        (by rw [hins.size_eq, hsize, hcs]) (by
          intro k v
          rw [hins.content k v, hcont k v]
          constructor
          · rintro (⟨p, hp, hr⟩ | h)
            · exact ⟨p, by omega, hr⟩
            · exact ⟨i, by omega, hu, h.symm⟩
          · rintro ⟨p, hp, hpu, hpe⟩
            by_cases hpi : p = i
            · right
              rw [← hpe, hpi]
            · left
              exact ⟨p, by omega, hpu, hpe⟩) (le_trans hH hins.H_mono)
      refine ⟨max (f1 + 1) f2 + 1, t2, ?_, hrest⟩
      rw [expand_loop_succ, if_pos hi, if_pos hu]
      have : insert hasher (max (f1 + 1) f2) t (told.entry_ i) = some (t1, loc) := by
        apply insert_mono hasher (f1 + 1) _ (le_max_left _ _)
        rw [insert_absent hasher t hI _ hnew]
        exact h1
      rw [this]
      exact expand_loop_mono hasher _ _ (le_max_right _ _) _ _ _ _ _ h2
    · rw [if_neg hu] at hcs
      obtain ⟨f2, t2, h2, hrest⟩ := ih (i + 1) t (by omega) hI hcap
        (by rw [hsize, hcs]; rfl) (by
          intro k v
          rw [hcont k v]
          constructor
          · rintro ⟨p, hp, hr⟩
            exact ⟨p, by omega, hr⟩
          · rintro ⟨p, hp, hpu, hpe⟩
            have : p ≠ i := by
              intro h
              rw [h] at hpu
              exact hu hpu
            exact ⟨p, by omega, hpu, hpe⟩) hH
      refine ⟨f2 + 1, t2, ?_, hrest⟩
      rw [expand_loop_succ, if_pos hi, if_neg hu]
      exact h2

theorem expand_spec (t : Table K V) (hI : Inv hasher t) (hc : 0 < t.capacity_) :
    ∃ fuel t1, expand hasher fuel t = some t1 ∧ Inv hasher t1 ∧
      t1.capacity_ = 2 * t.capacity_ ∧ t1.size_ = t.size_ ∧
      (∀ k v, Holds t1 k v ↔ Holds t k v) ∧ t.H ≤ t1.H := by
  obtain ⟨f, t1, h1, hrest⟩ := expand_loop_spec hasher t hI t.capacity_ 0 (rebuilt t)
    (by omega) (inv_rebuilt hasher t hI hc) (by show t.capacity_ * 2 = _; omega)
    (by simp [rebuilt]) (by
      intro k v
      constructor
      · rintro ⟨p, _, hu, _⟩
        exact Bool.noConfusion hu
      · rintro ⟨p, hp, _⟩
        omega) (le_refl _)
  refine ⟨f + 1, t1, ?_, hrest⟩
  rw [expand_succ, if_neg (by omega)]
  exact h1

theorem iwc_after_expand (t0 : Table K V) (hI0 : Inv hasher t0) (hc : 0 < t0.capacity_)
    (hl : t0.capacity_ < 2 * (t0.size_ + 1)) (e : K × V) (hnew : ¬ Present t0 e.1)
    (hprov : ∀ t2 : Table K V, Inv hasher t2 → t2.capacity_ = 2 * t0.capacity_ →
      t2.size_ = t0.size_ → ¬ Present t2 e.1 →
      ∃ fuel t1 loc, insert_without_check hasher fuel t2 e = some (t1, loc) ∧
        Inserted hasher t2 e t1 loc) :
    ∃ fuel t1 loc, insert_without_check hasher fuel t0 e = some (t1, loc) ∧
      Inserted hasher t0 e t1 loc := by
  obtain ⟨F, te, hE, hIe, hcap, hsize, hcont, hH⟩ := expand_spec hasher t0 hI0 hc
  have hsc := size_le_capacity hasher t0 hI0
  have hnew1 : ¬ Present te e.1 := by
    rw [present_congr t0 te hcont]; exact hnew
  obtain ⟨fuel, t1, loc, h1, h2, _⟩ := iwc_body hasher t0 te e (fun _ => True)
    ⟨F, fun fuel hf => by
      rw [if_pos (Or.inr hl)]
      exact expand_mono hasher F fuel hf _ _ hE⟩
    hIe (by omega) hsize hcont (by omega) hH hnew1 trivial
    (by
      intro t2 hI2 hc2 hs2 hcont2 _ _
      obtain ⟨fuel, t1, loc, h1, h2⟩ := hprov t2 hI2 (by omega) (by omega)
        (by rw [present_congr te t2 hcont2]; exact hnew1)
      exact ⟨fuel, t1, loc, h1, h2, trivial⟩)
  exact ⟨fuel, t1, loc, h1, h2⟩

theorem iwc_spec (t : Table K V) (hI : Inv hasher t) (e : K × V) (hnew : ¬ Present t e.1) :
    ∃ fuel t1 loc, insert_without_check hasher fuel t e = some (t1, loc) ∧
      Inserted hasher t e t1 loc := by
  have hsc := size_le_capacity hasher t hI
  by_cases hc0 : t.capacity_ = 0
  · have hI1 := inv_first_slot hasher t hI hc0
    have hs0 : t.size_ = 0 := by omega
    obtain ⟨fuel, t1, loc, h1, h2, _⟩ := iwc_body hasher t (first_slot t) e (fun _ => True)
      ⟨1, fun fuel hf => by
        obtain ⟨f1, rfl⟩ : ∃ f1, fuel = f1 + 1 := ⟨fuel - 1, by omega⟩
        rw [if_pos (Or.inl hc0), expand_succ, if_pos hc0]⟩
      hI1 (by show t.size_ < 1; omega) rfl
      (by
        intro k v
        constructor
        · rintro ⟨p, _, hu, _⟩
          exact Bool.noConfusion hu
        · rintro ⟨p, hp, _⟩
          omega)
      (by show t.capacity_ ≤ 1; omega) (le_refl _)
      (by
        rintro ⟨p, _, hu, _⟩
        exact Bool.noConfusion hu) trivial
      (by
        intro t2 _ _ _ _ _ hlt
        have := hI.H_pos
        have h1 : (first_slot t).H < 1 := hlt
        have h2 : (first_slot t).H = t.H := rfl
        omega)
    exact ⟨fuel, t1, loc, h1, h2⟩
  · by_cases hl : t.capacity_ < 2 * (t.size_ + 1)
    · apply iwc_after_expand hasher t hI (by omega) hl e hnew
      intro t2 hI2 hc2 hs2 hn2
      by_cases hl2 : t2.capacity_ < 2 * (t2.size_ + 1)
      · apply iwc_after_expand hasher t2 hI2 (by omega) hl2 e hn2
        intro t3 hI3 hc3 hs3 hn3
        obtain ⟨fuel, t1, loc, h1, h2, _⟩ :=
          iwc_no_expand hasher e _ t3 hI3 (le_refl _) (by omega) hn3
        exact ⟨fuel, t1, loc, h1, h2⟩
      · obtain ⟨fuel, t1, loc, h1, h2, _⟩ :=
          iwc_no_expand hasher e _ t2 hI2 (le_refl _) (by omega) hn2
        exact ⟨fuel, t1, loc, h1, h2⟩
    · obtain ⟨fuel, t1, loc, h1, h2, _⟩ :=
        iwc_no_expand hasher e _ t hI (le_refl _) (by omega) hnew
      exact ⟨fuel, t1, loc, h1, h2⟩

/-- Insertion of a new key succeeds with enough budget. -/
theorem insert_new_spec (t : Table K V) (hI : Inv hasher t) (e : K × V)
    (hnew : ¬ Present t e.1) :
    ∃ fuel t1 loc, insert hasher fuel t e = some (t1, loc) ∧ Inserted hasher t e t1 loc := by
  obtain ⟨fuel, t1, loc, h1, h2⟩ := iwc_spec hasher t hI e hnew
  exact ⟨fuel + 1, t1, loc, by rw [insert_absent hasher t hI e hnew]; exact h1, h2⟩

/-- Two successful runs of `insert` with different budgets agree. -/
theorem insert_det (t : Table K V) (e : K × V) (f1 f2 : Nat) (r1 r2 : Table K V × Nat)
    (h1 : insert hasher f1 t e = some r1) (h2 : insert hasher f2 t e = some r2) : r1 = r2 := by
  have a := insert_mono hasher f1 (max f1 f2) (le_max_left _ _) t e r1 h1
  have b := insert_mono hasher f2 (max f1 f2) (le_max_right _ _) t e r2 h2
  rw [a] at b
  exact Option.some.inj b

theorem insert_zero (t : Table K V) (e : K × V) : insert hasher 0 t e = none := by
  rw [insert]

/-- Whatever the budget, a completed `insert` of a new key has the
insertion postcondition. -/
theorem insert_new_any (t : Table K V) (hI : Inv hasher t) (e : K × V)
    (hnew : ¬ Present t e.1) (fuel : Nat) (t1 : Table K V) (loc : Nat)
    (h : insert hasher fuel t e = some (t1, loc)) : Inserted hasher t e t1 loc := by
  obtain ⟨f0, t0, l0, h0, hins⟩ := insert_new_spec hasher t hI e hnew
  have := insert_det hasher t e fuel f0 _ _ h h0
  obtain ⟨ha, hb⟩ := Prod.mk.inj this
  rw [ha, hb]
  exact hins

/-- Whatever the budget, a completed `insert` of a present key returns the
table unchanged and the position found. -/
theorem insert_old_any (t : Table K V) (hI : Inv hasher t) (e : K × V)
    (hold : Present t e.1) (fuel : Nat) (t1 : Table K V) (loc : Nat)
    (h : insert hasher fuel t e = some (t1, loc)) : t1 = t ∧ loc = find hasher t e.1 := by
  cases fuel with
  | zero =>
    rw [insert_zero] at h
    exact Option.noConfusion h
  | succ f =>
    rw [insert_present hasher t hI e hold f] at h
    have := Option.some.inj h
    exact ⟨(Prod.mk.inj this).1.symm, (Prod.mk.inj this).2.symm⟩

theorem insert_inv (t : Table K V) (hI : Inv hasher t) (e : K × V) (fuel : Nat)
    (t1 : Table K V) (loc : Nat) (h : insert hasher fuel t e = some (t1, loc)) :
    Inv hasher t1 := by
  by_cases hp : Present t e.1
  · rw [(insert_old_any hasher t hI e hp fuel t1 loc h).1]
    exact hI
  · exact (insert_new_any hasher t hI e hp fuel t1 loc h).inv

end Body

/-! ## The other public operations -/

theorem inv_empty [Inhabited K] [Inhabited V] (hasher : K → Nat) :
    Inv hasher (empty : Table K V) := by
  refine ⟨Nat.one_pos, ?_, ?_, ?_, ?_, ?_, Or.inl rfl, ⟨0, rfl⟩, Or.inr ⟨rfl, rfl⟩⟩
  · intro p hp
    exact Bool.noConfusion hp
  · intro p hp
    exact Bool.noConfusion hp
  · intro p hp
    exact Bool.noConfusion hp
  · intro p q hp
    exact Bool.noConfusion hp
  · show 0 = Nat.count (fun _ : Nat => false = true) 0
    rw [used_count_none]

theorem inv_assign_ref (hasher : K → Nat) (t : Table K V) (hI : Inv hasher t)
    (loc : Nat) (v : V) : Inv hasher (assign_ref t loc v) := by
  have hkey : ∀ p, ((assign_ref t loc v).entry_ p).1 = (t.entry_ p).1 := by
    intro p
    by_cases h : p = loc
    · subst h
      simp [assign_ref, store_same]
    · simp [assign_ref, store_apply, h]
  refine ⟨hI.H_pos, hI.bounded, ?_, hI.near, ?_, hI.count, hI.cap_pow2, hI.H_pow2, hI.H_le⟩
  · intro p hp
    have := hI.home p hp
    show t.origin_ p = hasher ((assign_ref t loc v).entry_ p).1 % t.capacity_
    rw [hkey p]
    exact this
  · intro p q hp hq hk
    rw [hkey p, hkey q] at hk
    exact hI.unique p q hp hq hk

section Public

variable [DecidableEq K] [Inhabited K] [Inhabited V] (hasher : K → Nat)

omit [Inhabited K] [Inhabited V] in
theorem erase_present (t : Table K V) (hI : Inv hasher t) (k : K) (h : Present t k) :
    erase hasher t k = (remove t (find hasher t k), true) := by
  rcases find_cases hasher t hI k with ⟨_, h1⟩ | ⟨h1, h2, _⟩
  · exact absurd h h1
  · unfold erase
    simp only
    rw [iter_eq_used_end t _ h1 h2, iter_next_used t _ h2]
    simp

omit [Inhabited K] [Inhabited V] in
theorem erase_absent (t : Table K V) (hI : Inv hasher t) (k : K) (h : ¬ Present t k) :
    erase hasher t k = (t, false) := by
  unfold erase
  simp only
  rw [find_absent hasher t hI k h, iter_eq_end_end]
  simp

omit [Inhabited K] [Inhabited V] in
theorem inv_erase (t : Table K V) (hI : Inv hasher t) (k : K) :
    Inv hasher (erase hasher t k).1 := by
  by_cases h : Present t k
  · rw [erase_present hasher t hI k h]
    rcases find_cases hasher t hI k with ⟨_, h1⟩ | ⟨_, h2, _⟩
    · exact absurd h h1
    · exact inv_remove hasher t hI _ h2
  · rw [erase_absent hasher t hI k h]
    exact hI

omit [Inhabited K] [Inhabited V] in
theorem at_of_holds (t : Table K V) (hI : Inv hasher t) (k : K) (v : V) (h : Holds t k v) :
    at_ hasher t k = some v := by
  obtain ⟨p, hp, hu, he⟩ := h
  have hf := find_present hasher t hI k p hu (by rw [he])
  unfold at_
  simp only
  rw [hf, iter_eq_used_end t p hp hu, iter_next_used t p hu, he]
  simp

omit [Inhabited K] [Inhabited V] in
theorem at_of_absent (t : Table K V) (hI : Inv hasher t) (k : K) (h : ¬ Present t k) :
    at_ hasher t k = none := by
  unfold at_
  simp only
  rw [find_absent hasher t hI k h, iter_eq_end_end]
  simp

omit [Inhabited K] [Inhabited V] in
theorem at_eq_some_iff (t : Table K V) (hI : Inv hasher t) (k : K) (v : V) :
    at_ hasher t k = some v ↔ Holds t k v := by
  constructor
  · intro h
    by_cases hp : Present t k
    · obtain ⟨w, hw⟩ := (present_iff_holds t k).mp hp
      rw [at_of_holds hasher t hI k w hw] at h
      rw [← Option.some.inj h]
      exact hw
    · rw [at_of_absent hasher t hI k hp] at h
      exact Option.noConfusion h
  · exact at_of_holds hasher t hI k v

theorem operator_index_present (t : Table K V) (hI : Inv hasher t) (k : K)
    (h : Present t k) (fuel : Nat) :
    operator_index hasher fuel t k = some (t, find hasher t k) := by
  rcases find_cases hasher t hI k with ⟨_, h1⟩ | ⟨h1, h2, _⟩
  · exact absurd h h1
  · unfold operator_index
    simp only
    rw [iter_eq_used_end t _ h1 h2, iter_next_used t _ h2]
    simp

theorem operator_index_absent (t : Table K V) (hI : Inv hasher t) (k : K)
    (h : ¬ Present t k) (fuel : Nat) :
    operator_index hasher fuel t k = insert hasher fuel t (k, default) := by
  unfold operator_index
  simp only
  rw [find_absent hasher t hI k h, iter_eq_end_end]
  simp only [if_true]
  cases insert hasher fuel t (k, default) with
  | none => rfl
  | some r => rfl

theorem inv_operator_index (t : Table K V) (hI : Inv hasher t) (k : K) (fuel : Nat)
    (t1 : Table K V) (loc : Nat) (h : operator_index hasher fuel t k = some (t1, loc)) :
    Inv hasher t1 := by
  by_cases hp : Present t k
  · rw [operator_index_present hasher t hI k hp] at h
    rw [← (Prod.mk.inj (Option.some.inj h)).1]
    exact hI
  · rw [operator_index_absent hasher t hI k hp] at h
    exact insert_inv hasher t hI _ fuel t1 loc h

/-- Every reachable table satisfies the representation invariant. -/
theorem reachable_inv (t : Table K V) (h : Reachable hasher t) : Inv hasher t := by
  induction h with
  | empty => exact inv_empty hasher
  | insert fuel e _ hins ih => exact insert_inv hasher _ ih e fuel _ _ hins
  | erase k _ ih => exact inv_erase hasher _ ih k
  | index fuel k _ hidx ih => exact inv_operator_index hasher _ ih k fuel _ _ hidx
  | index_assign fuel k v _ hidx ih =>
    exact inv_assign_ref hasher _ (inv_operator_index hasher _ ih k fuel _ _ hidx) _ v
  | clear _ _ => exact inv_empty hasher

theorem reachable_table_of (t : Table K V) (h : Reachable hasher t) (fuel : Nat)
    (e : K × V) : Reachable hasher (table_of (insert hasher fuel t e)) := by
  cases hins : insert hasher fuel t e with
  | none => exact Reachable.empty
  | some r => exact Reachable.insert fuel e h hins

omit [DecidableEq K] [Inhabited K] [Inhabited V] in
theorem holds_remove (t : Table K V) (hI : Inv hasher t) (p : Nat) (hu : t.used p = true)
    (k : K) (v : V) :
    Holds (remove t p) k v ↔ (Holds t k v ∧ k ≠ (t.entry_ p).1) := by
  constructor
  · rintro ⟨q, hq, hqu, hqe⟩
    have hne : q ≠ p := by
      intro h
      subst h
      simp [store_same, remove] at hqu
    have hqu1 : t.used q = true := by simpa [store_same, remove, store_apply, hne] using hqu
    have hqe1 : t.entry_ q = (k, v) := hqe
    refine ⟨⟨q, hq, hqu1, hqe1⟩, ?_⟩
    intro hk
    apply hne
    exact hI.unique q p hqu1 hu (by rw [hqe1, hk])
  · rintro ⟨⟨q, hq, hqu, hqe⟩, hk⟩
    have hne : q ≠ p := by
      intro h
      subst h
      rw [hqe] at hk
      exact hk rfl
    exact ⟨q, hq, by simpa [store_same, remove, store_apply, hne] using hqu, hqe⟩

theorem insert_total (t : Table K V) (hI : Inv hasher t) (e : K × V) :
    ∃ fuel r, insert hasher fuel t e = some r := by
  by_cases hp : Present t e.1
  · exact ⟨1, _, insert_present hasher t hI e hp 0⟩
  · obtain ⟨fuel, t1, loc, h, _⟩ := insert_new_spec hasher t hI e hp
    exact ⟨fuel, _, h⟩

theorem expand_det (t : Table K V) (f1 f2 : Nat) (r1 r2 : Table K V)
    (h1 : expand hasher f1 t = some r1) (h2 : expand hasher f2 t = some r2) : r1 = r2 := by
  have a := expand_mono hasher f1 (max f1 f2) (le_max_left _ _) t r1 h1
  have b := expand_mono hasher f2 (max f1 f2) (le_max_right _ _) t r2 h2
  rw [a] at b
  exact Option.some.inj b

omit [Inhabited K] [Inhabited V] in
theorem present_iff_at (t : Table K V) (hI : Inv hasher t) (k : K) :
    Present t k ↔ (at_ hasher t k).isSome = true := by
  constructor
  · intro hp
    obtain ⟨v, hv⟩ := (present_iff_holds t k).mp hp
    rw [at_of_holds hasher t hI k v hv]
    rfl
  · intro h
    by_contra hp
    rw [at_of_absent hasher t hI k hp] at h
    exact Bool.noConfusion h

end Public

theorem sample1_reachable : Reachable (fun n => n) sample1 :=
  reachable_table_of _ _ Reachable.empty _ _

theorem sample3_reachable : Reachable (fun n => n) sample3 :=
  reachable_table_of _ _ (reachable_table_of _ _ sample1_reachable _ _) _ _

/-! ## The contract of the public operations -/

section Claims

variable [DecidableEq K] [Inhabited K] [Inhabited V]

/-- C1. Lookup is sound and complete: in every reachable table, if some
occupied slot holds `k` then `find k` is the index of an occupied slot whose
key is `k`; otherwise `find k` is the end position `capacity_`. -/
theorem find_sound_complete (hasher : K → Nat) (t : Table K V)
    (h : Reachable hasher t) (k : K) :
    (Present t k → find hasher t k < t.capacity_ ∧ t.used (find hasher t k) = true ∧
      (t.entry_ (find hasher t k)).1 = k) ∧
    (¬ Present t k → find hasher t k = end_ t ∧ end_ t = t.capacity_) := by
  have hI := reachable_inv hasher t h
  constructor
  · intro hp
    rcases find_cases hasher t hI k with ⟨_, h1⟩ | h1
    · exact absurd hp h1
    · exact h1
  · intro hp
    exact ⟨find_absent hasher t hI k hp, rfl⟩

/-- Witness for C1: `find 1` on the reachable `sample1`, which holds key `1`. -/
theorem find_sound_complete_witness :
    find (fun n => n) sample1 1 < sample1.capacity_ ∧
      sample1.used (find (fun n => n) sample1 1) = true ∧
      (sample1.entry_ (find (fun n => n) sample1 1)).1 = 1 :=
  (find_sound_complete (fun n => n) sample1 sample1_reachable 1).1
    ⟨0, by decide, by decide, by decide⟩

/-- C3. Duplicate-insert idempotence: on a reachable table holding
`(k, v1)`, `insert (k, v2)` returns the table unchanged together with the
location of the slot that already stores `(k, v1)`, so `at k` is still `v1`;
and that location is the one the insertion of `(k, v1)` returned when the
table comes straight from it. -/
theorem insert_duplicate (hasher : K → Nat) (t : Table K V) (h : Reachable hasher t)
    (k : K) (v1 v2 : V) (hold : Holds t k v1) :
    (∀ fuel, insert hasher (fuel + 1) t (k, v2) = some (t, find hasher t k)) ∧
    find hasher t k < t.capacity_ ∧ t.used (find hasher t k) = true ∧
    t.entry_ (find hasher t k) = (k, v1) ∧ at_ hasher t k = some v1 ∧
    (∀ t0 fuel0 loc0, Reachable hasher t0 → ¬ Present t0 k →
      insert hasher fuel0 t0 (k, v1) = some (t, loc0) → find hasher t k = loc0) := by
  have hI := reachable_inv hasher t h
  have hp : Present t k := (present_iff_holds t k).mpr ⟨v1, hold⟩
  obtain ⟨p, hp1, hp2, hp3⟩ := hold
  have hf : find hasher t k = p := find_present hasher t hI k p hp2 (by rw [hp3])
  refine ⟨fun fuel => insert_present hasher t hI (k, v2) hp fuel, ?_, ?_, ?_, ?_, ?_⟩
  · rw [hf]; exact hp1
  · rw [hf]; exact hp2
  · rw [hf]; exact hp3
  · exact at_of_holds hasher t hI k v1 ⟨p, hp1, hp2, hp3⟩
  · intro t0 fuel0 loc0 hR0 hnew hins
    have hI0 := reachable_inv hasher t0 hR0
    have hI1 := insert_new_any hasher t0 hI0 (k, v1) hnew fuel0 t loc0 hins
    exact find_present hasher t hI k loc0 hI1.loc_used (by rw [hI1.loc_entry])

/-- Witness for C3: `insert (1, 99)` on `sample1`, which holds `(1, 10)`. -/
theorem insert_duplicate_witness :
    (∀ fuel, insert (fun n => n) (fuel + 1) sample1 (1, 99) =
      some (sample1, find (fun n => n) sample1 1)) ∧
    find (fun n => n) sample1 1 < sample1.capacity_ ∧
    sample1.used (find (fun n => n) sample1 1) = true ∧
    sample1.entry_ (find (fun n => n) sample1 1) = (1, 10) ∧
    at_ (fun n => n) sample1 1 = some 10 ∧
    (∀ t0 fuel0 loc0, Reachable (fun n => n) t0 → ¬ Present t0 1 →
      insert (fun n => n) fuel0 t0 (1, 10) = some (sample1, loc0) →
      find (fun n => n) sample1 1 = loc0) :=
  insert_duplicate (fun n => n) sample1 sample1_reachable 1 10 99
    ⟨0, by decide, by decide, by decide⟩

/-- C5. Erase correctness: on a reachable table, `erase k` returns `true`
exactly when `k` is present; then `k` is no longer present, `find k` reports
not-found and `size_` has dropped by exactly one; when it returns `false` the
table is unchanged. -/
theorem erase_correct (hasher : K → Nat) (t : Table K V) (h : Reachable hasher t) (k : K) :
    ((erase hasher t k).2 = true ↔ Present t k) ∧
    ((erase hasher t k).2 = true →
      ¬ Present (erase hasher t k).1 k ∧
      find hasher (erase hasher t k).1 k = end_ (erase hasher t k).1 ∧
      (erase hasher t k).1.size_ + 1 = t.size_) ∧
    ((erase hasher t k).2 = false → (erase hasher t k).1 = t) := by
  have hI := reachable_inv hasher t h
  by_cases hp : Present t k
  · have he := erase_present hasher t hI k hp
    rcases find_cases hasher t hI k with ⟨_, h1⟩ | ⟨h1, h2, h3⟩
    · exact absurd hp h1
    · have hI1 := inv_remove hasher t hI _ h2
      have hnp : ¬ Present (remove t (find hasher t k)) k := by
        rw [present_iff_holds]
        rintro ⟨v, hv⟩
        exact ((holds_remove hasher t hI _ h2 k v).mp hv).2 h3.symm
      rw [he]
      refine ⟨⟨fun _ => hp, fun _ => rfl⟩, fun _ => ⟨hnp, find_absent hasher _ hI1 k hnp, ?_⟩,
        fun hf => Bool.noConfusion hf⟩
      show t.size_ - 1 + 1 = t.size_
      have hc := used_count_store_false t.used _ t.capacity_ h1 h2
      have := hI.count
      omega
  · rw [erase_absent hasher t hI k hp]
    exact ⟨⟨fun hf => Bool.noConfusion hf, fun hq => absurd hq hp⟩,
      fun hf => Bool.noConfusion hf, fun _ => rfl⟩

/-- Witness for C5: `erase 2` on `sample3` returns `true`, after which key
`2` is not found and the size is one less. -/
theorem erase_correct_witness :
    ¬ Present (erase (fun n => n) sample3 2).1 2 ∧
      find (fun n => n) (erase (fun n => n) sample3 2).1 2 =
        end_ (erase (fun n => n) sample3 2).1 ∧
      (erase (fun n => n) sample3 2).1.size_ + 1 = sample3.size_ :=
  (erase_correct (fun n => n) sample3 sample3_reachable 2).2.1 (by decide)

/-- C6. Key uniqueness is an invariant: in every reachable table two
distinct occupied slots hold different keys (and every occupied slot index
is below `capacity_`). -/
theorem keys_unique (hasher : K → Nat) (t : Table K V) (h : Reachable hasher t)
    (p q : Nat) (hpu : t.used p = true) (hqu : t.used q = true) (hne : p ≠ q) :
    (t.entry_ p).1 ≠ (t.entry_ q).1 ∧ p < t.capacity_ ∧ q < t.capacity_ := by
  refine ⟨?_, (reachable_inv hasher t h).bounded p hpu,
    (reachable_inv hasher t h).bounded q hqu⟩
  intro hk
  exact hne ((reachable_inv hasher t h).unique p q hpu hqu hk)

/-- Witness for C6: slots `1` and `2` of `sample3` are occupied and hold
different keys. -/
theorem keys_unique_witness :
    (sample3.entry_ 1).1 ≠ (sample3.entry_ 2).1 ∧ 1 < sample3.capacity_ ∧
      2 < sample3.capacity_ :=
  keys_unique (fun n => n) sample3 sample3_reachable 1 2 (by decide) (by decide) (by decide)

/-- C9. Bounds-checked access raises exactly when the key is absent: on a
reachable table `at k` throws (`none`) if and only if no occupied slot holds
`k`, and otherwise returns the value stored with `k`; `at` is a function of
the table and returns no new state. -/
theorem at_correct (hasher : K → Nat) (t : Table K V) (h : Reachable hasher t) (k : K) :
    (at_ hasher t k = none ↔ ¬ Present t k) ∧
    (∀ v, at_ hasher t k = some v ↔ Holds t k v) := by
  have hI := reachable_inv hasher t h
  refine ⟨?_, fun v => at_eq_some_iff hasher t hI k v⟩
  constructor
  · intro hn hp
    rw [present_iff_at hasher t hI k, hn] at hp
    exact Bool.noConfusion hp
  · exact at_of_absent hasher t hI k

/-- Witness for C9: on `sample3`, `at 7` throws and key `7` is absent, while
slot `2` holds `(2, 20)` and `at 2` returns `20`. -/
theorem at_correct_witness :
    ¬ Present sample3 7 ∧ at_ (fun n => n) sample3 2 = some 20 :=
  ⟨(at_correct (fun n => n) sample3 sample3_reachable 7).1.mp (by decide),
   ((at_correct (fun n => n) sample3 sample3_reachable 2).2 20).mpr
     ⟨2, by decide, by decide, by decide⟩⟩

end Claims

/-! ## Capacity after an insertion -/

section Capacity

variable [DecidableEq K] [Inhabited K] [Inhabited V] (hasher : K → Nat)

theorem iwc_after_expand_cap (C : Nat → Prop) (t0 : Table K V) (hI0 : Inv hasher t0)
    (hc : 0 < t0.capacity_) (hl : t0.capacity_ < 2 * (t0.size_ + 1)) (e : K × V)
    (hnew : ¬ Present t0 e.1) (hC : C (2 * t0.capacity_))
    (hprov : ∀ t2 : Table K V, Inv hasher t2 → t2.capacity_ = 2 * t0.capacity_ →
      t2.size_ = t0.size_ → ¬ Present t2 e.1 →
      ∃ fuel t1 loc, insert_without_check hasher fuel t2 e = some (t1, loc) ∧
        Inserted hasher t2 e t1 loc ∧ C t1.capacity_) :
    ∃ fuel t1 loc, insert_without_check hasher fuel t0 e = some (t1, loc) ∧
      Inserted hasher t0 e t1 loc ∧ C t1.capacity_ := by
  obtain ⟨F, te, hE, hIe, hcap, hsize, hcont, hH⟩ := expand_spec hasher t0 hI0 hc
  have hsc := size_le_capacity hasher t0 hI0
  have hnew1 : ¬ Present te e.1 := by
    rw [present_congr t0 te hcont]; exact hnew
  exact iwc_body hasher t0 te e C
    ⟨F, fun fuel hf => by
      rw [if_pos (Or.inr hl)]
      exact expand_mono hasher F fuel hf _ _ hE⟩
    hIe (by omega) hsize hcont (by omega) hH hnew1 (by rw [hcap]; exact hC)
    (by
      intro t2 hI2 hc2 hs2 hcont2 _ _
      exact hprov t2 hI2 (by omega) (by omega)
        (by rw [present_congr te t2 hcont2]; exact hnew1))

theorem iwc_cap (t : Table K V) (hI : Inv hasher t) (e : K × V) (hnew : ¬ Present t e.1) :
    ∃ fuel t1 loc, insert_without_check hasher fuel t e = some (t1, loc) ∧
      Inserted hasher t e t1 loc ∧ CapAfter t.size_ t.capacity_ t1.capacity_ := by
  have hsc := size_le_capacity hasher t hI
  by_cases hc0 : t.capacity_ = 0
  · have hI1 := inv_first_slot hasher t hI hc0
    have hs0 : t.size_ = 0 := by omega
    exact iwc_body hasher t (first_slot t) e (CapAfter t.size_ t.capacity_)
      ⟨1, fun fuel hf => by
        obtain ⟨f1, rfl⟩ : ∃ f1, fuel = f1 + 1 := ⟨fuel - 1, by omega⟩
        rw [if_pos (Or.inl hc0), expand_succ, if_pos hc0]⟩
      hI1 (by show t.size_ < 1; omega) rfl
      (by
        intro k v
        constructor
        · rintro ⟨p, _, hu, _⟩
          exact Bool.noConfusion hu
        · rintro ⟨p, hp, _⟩
          omega)
      (by show t.capacity_ ≤ 1; omega) (le_refl _)
      (by
        rintro ⟨p, _, hu, _⟩
        exact Bool.noConfusion hu) (Or.inl ⟨hc0, rfl⟩)
      (by
        intro t2 _ _ _ _ _ hlt
        have := hI.H_pos
        have h1 : (first_slot t).H < 1 := hlt
        have h2 : (first_slot t).H = t.H := rfl
        omega)
  · by_cases hl : t.capacity_ < 2 * (t.size_ + 1)
    · apply iwc_after_expand_cap hasher _ t hI (by omega) hl e hnew
        (Or.inr (Or.inr ⟨by omega, hl, Or.inl rfl⟩))
      intro t2 hI2 hc2 hs2 hn2
      by_cases hl2 : t2.capacity_ < 2 * (t2.size_ + 1)
      · obtain ⟨fuel, t1, loc, h1, h2, h3⟩ :=
          iwc_after_expand_cap hasher (fun c1 => c1 = 4 * t.capacity_) t2 hI2 (by omega)
            hl2 e hn2 (by omega) (by
              intro t3 hI3 hc3 hs3 hn3
              obtain ⟨fuel, t1, loc, h1, h2, h3⟩ :=
                iwc_no_expand hasher e _ t3 hI3 (le_refl _) (by omega) hn3
              exact ⟨fuel, t1, loc, h1, h2, by omega⟩)
        exact ⟨fuel, t1, loc, h1, h2,
          Or.inr (Or.inr ⟨by omega, hl, Or.inr ⟨by omega, h3⟩⟩)⟩
      · obtain ⟨fuel, t1, loc, h1, h2, h3⟩ :=
          iwc_no_expand hasher e _ t2 hI2 (le_refl _) (by omega) hn2
        exact ⟨fuel, t1, loc, h1, h2,
          Or.inr (Or.inr ⟨by omega, hl, Or.inl (by omega)⟩)⟩
    · obtain ⟨fuel, t1, loc, h1, h2, h3⟩ :=
        iwc_no_expand hasher e _ t hI (le_refl _) (by omega) hnew
      exact ⟨fuel, t1, loc, h1, h2, Or.inr (Or.inl ⟨by omega, by omega, h3⟩)⟩

/-- Whatever the budget, a completed `insert` of a new key leaves one of the
capacities of `CapAfter`. -/
theorem insert_cap_any (t : Table K V) (hI : Inv hasher t) (e : K × V)
    (hnew : ¬ Present t e.1) (fuel : Nat) (t1 : Table K V) (loc : Nat)
    (h : insert hasher fuel t e = some (t1, loc)) :
    CapAfter t.size_ t.capacity_ t1.capacity_ := by
  obtain ⟨f0, t0, l0, h0, _, hcap⟩ := iwc_cap hasher t hI e hnew
  have h0i : insert hasher (f0 + 1) t e = some (t0, l0) := by
    rw [insert_absent hasher t hI e hnew]; exact h0
  have := insert_det hasher t e fuel (f0 + 1) _ _ h h0i
  rw [(Prod.mk.inj this).1]
  exact hcap

omit [DecidableEq K] [Inhabited K] [Inhabited V] in
theorem load_step (s c c1 : Nat) (hsc : s ≤ c) (h : LoadOK s c) (hc : CapAfter s c c1) :
    LoadOK (s + 1) c1 := by
  unfold LoadOK CapAfter at *
  omega

theorem insert_load (t : Table K V) (hI : Inv hasher t) (e : K × V) (fuel : Nat)
    (t1 : Table K V) (loc : Nat) (h : insert hasher fuel t e = some (t1, loc))
    (hL : LoadOK t.size_ t.capacity_) : LoadOK t1.size_ t1.capacity_ := by
  by_cases hp : Present t e.1
  · rw [(insert_old_any hasher t hI e hp fuel t1 loc h).1]
    exact hL
  · have hins := insert_new_any hasher t hI e hp fuel t1 loc h
    rw [hins.size_eq]
    exact load_step _ _ _ (size_le_capacity hasher t hI) hL
      (insert_cap_any hasher t hI e hp fuel t1 loc h)

/-- Every reachable table satisfies the load bound `LoadOK`. -/
theorem reachable_load (t : Table K V) (h : Reachable hasher t) :
    LoadOK t.size_ t.capacity_ := by
  induction h with
  | empty => exact Or.inl (le_refl _)
  | insert fuel e hR hins ih =>
    exact insert_load hasher _ (reachable_inv hasher _ hR) e fuel _ _ hins ih
  | @erase t0 k hR ih =>
    have hI := reachable_inv hasher t0 hR
    by_cases hp : Present t0 k
    · rw [erase_present hasher t0 hI k hp]
      show LoadOK (t0.size_ - 1) t0.capacity_
      unfold LoadOK at *
      omega
    · rw [erase_absent hasher t0 hI k hp]
      exact ih
  | @index t0 fuel k t1 loc hR hidx ih =>
    have hI := reachable_inv hasher t0 hR
    by_cases hp : Present t0 k
    · rw [operator_index_present hasher t0 hI k hp] at hidx
      rw [← (Prod.mk.inj (Option.some.inj hidx)).1]
      exact ih
    · rw [operator_index_absent hasher t0 hI k hp] at hidx
      exact insert_load hasher _ hI _ fuel _ _ hidx ih
  | @index_assign t0 fuel k v t1 loc hR hidx ih =>
    have hI := reachable_inv hasher t0 hR
    show LoadOK t1.size_ t1.capacity_
    by_cases hp : Present t0 k
    · rw [operator_index_present hasher t0 hI k hp] at hidx
      rw [← (Prod.mk.inj (Option.some.inj hidx)).1]
      exact ih
    · rw [operator_index_absent hasher t0 hI k hp] at hidx
      exact insert_load hasher _ hI _ fuel _ _ hidx ih
  | clear _ _ => exact Or.inl (le_refl _)

theorem reachable_run (ops : List (Op K V)) :
    ∀ (t : Table K V), Reachable hasher t → ∀ fuel r, run hasher fuel ops t = some r →
      Reachable hasher r := by
  induction ops with
  | nil =>
    intro t hR fuel r h
    have : t = r := Option.some.inj h
    rw [← this]
    exact hR
  | cons op ops ih =>
    intro t hR fuel r h
    cases op with
    | ins k v =>
      simp only [run] at h
      cases hins : insert hasher fuel t (k, v) with
      | none =>
        rw [hins] at h
        exact Option.noConfusion h
      | some r1 =>
        rw [hins] at h
        exact ih r1.1 (Reachable.insert fuel (k, v) hR hins) fuel r h
    | del k =>
      simp only [run] at h
      exact ih _ (Reachable.erase k hR) fuel r h

theorem reachable_run_getD (ops : List (Op K V)) (fuel : Nat) :
    Reachable hasher ((run hasher fuel ops empty).getD empty) := by
  cases hr : run hasher fuel ops empty with
  | none => exact Reachable.empty
  | some r => exact reachable_run hasher ops empty Reachable.empty fuel r hr

omit [DecidableEq K] [Inhabited K] [Inhabited V] in
theorem back_scan_decreases (t : Table K V) (pos cur prev : Nat) (hp : pos < t.capacity_)
    (hc : cur < t.capacity_) (hd : t.H ≤ dist t pos cur)
    (hb : back_scan t cur (t.H - 1) 1 = some prev) :
    prev < t.capacity_ ∧ dist t pos prev < dist t pos cur := by
  obtain ⟨l1, h1, h2, h3, _⟩ := back_scan_spec t cur _ _ _ hb
  obtain ⟨ha, hb1⟩ := dist_prev_at t pos cur l1 hp hc (by omega)
  rw [h3]
  exact ⟨ha, by omega⟩

omit [DecidableEq K] [Inhabited K] [Inhabited V] in
theorem free_scan_nearest (t : Table K V) (hI : Inv hasher t)
    (hsize : t.size_ < t.capacity_) (pos : Nat) (hpos : pos < t.capacity_)
    (hused : t.used pos = true) (n_pos : Nat) (hlt : n_pos < t.capacity_)
    (hfree : t.used n_pos = false)
    (hnearest : ∀ q, q < t.capacity_ → dist t pos q < dist t pos n_pos → t.used q = true) :
    free_scan t pos (t.capacity_ - 1) 1 = some n_pos := by
  obtain ⟨n1, h1, h2, h3, h4⟩ := free_scan_found hasher t hI hsize pos hpos hused
  have hd : dist t pos n1 = dist t pos n_pos := by
    by_contra hne
    rcases Nat.lt_or_gt_of_ne hne with hlt1 | hgt
    · have := hnearest n1 h2 hlt1
      rw [h3] at this
      exact Bool.noConfusion this
    · have := h4 n_pos hlt hgt
      rw [hfree] at this
      exact Bool.noConfusion this
  have e1 := wrap_dist t pos n1 hpos h2
  have e2 := wrap_dist t pos n_pos hpos hlt
  rw [hd, e2] at e1
  rw [h1, e1]

theorem placement_unfold (t : Table K V) (hI : Inv hasher t) (e : K × V)
    (hnew : ¬ Present t e.1) (hload : 2 * (t.size_ + 1) ≤ t.capacity_)
    (hocc : t.used (get_pos hasher t e.1) = true) (n_pos : Nat)
    (hfs : free_scan t (get_pos hasher t e.1) (t.capacity_ - 1) 1 = some n_pos)
    (hin : dist t (get_pos hasher t e.1) n_pos < t.H) (fuel : Nat) :
    insert hasher (fuel + 3) t e =
      if dist t (t.origin_ (get_pos hasher t e.1)) n_pos < t.H then
        some (put (move t (get_pos hasher t e.1) n_pos) (get_pos hasher t e.1) e,
          get_pos hasher t e.1)
      else insert_without_check hasher (fuel + 1) { t with H := t.H * 2 } e := by
  rw [insert_absent hasher t hI e hnew, insert_without_check_succ,
    if_neg (by omega)]
  simp only
  rw [if_neg (by rw [hocc]; exact Bool.noConfusion), hfs]
  simp only
  rw [displace_succ, if_neg (by omega)]

/-- With `H = 0` every pass of `insert_without_check` on an occupied home
slot ends in the retry, and the retry runs on the same table. -/
theorem iwc_H_zero (e : K × V) :
    ∀ fuel (t : Table K V), t.H = 0 → 2 * (t.size_ + 1) ≤ t.capacity_ →
      t.used (get_pos hasher t e.1) = true → (∃ q, q < t.capacity_ ∧ t.used q = false) →
      insert_without_check hasher fuel t e = none := by
  intro fuel
  induction fuel with
  | zero =>
    intro t _ _ _ _
    rw [insert_without_check]
  | succ f ih =>
    intro t hH hload hocc hfree
    have hpos : get_pos hasher t e.1 < t.capacity_ := get_pos_lt hasher t e.1 (by omega)
    rw [insert_without_check_succ, if_neg (by omega)]
    simp only
    rw [if_neg (by rw [hocc]; exact Bool.noConfusion)]
    rcases free_scan_spec t (get_pos hasher t e.1) (t.capacity_ - 1) 1 with
      ⟨_, h2⟩ | ⟨s, _, _, h3, _, _⟩
    · exfalso
      obtain ⟨q, hq, hqf⟩ := hfree
      have hqu : t.used q = true := by
        by_cases hd : dist t (get_pos hasher t e.1) q = 0
        · have := wrap_dist t _ q hpos hq
          rw [hd] at this
          have hw : wrap t (get_pos hasher t e.1 + 0) = get_pos hasher t e.1 := by
            unfold wrap; simp; omega
          rw [hw] at this
          rw [← this]
          exact hocc
        · have := h2 (dist t (get_pos hasher t e.1) q) (by omega)
            (by have := dist_lt t _ q hpos hq; omega)
          rwa [wrap_dist t _ q hpos hq] at this
      rw [hqf] at hqu
      exact Bool.noConfusion hqu
    · rw [h3]
      simp only
      cases f with
      | zero => rfl
      | succ f1 =>
        rw [displace_succ, if_pos (by omega)]
        have hb : back_scan t (wrap t (get_pos hasher t e.1 + s)) (t.H - 1) 1 = none := by
          rw [hH]
          rfl
        rw [hb]
        simp only
        exact ih { t with H := t.H * 2 } (by show t.H * 2 = 0; omega) hload hocc hfree

theorem insert_u32_succ (fuel : Nat) (t : Table K V) (elem : K × V) :
    insert_u32 hasher (fuel + 1) t elem =
      if iter_ne t (find hasher t elem.1) (end_ t) = true then some (t, find hasher t elem.1)
      else insert_without_check_u32 hasher fuel t elem := by
  rw [insert_u32]

theorem insert_without_check_u32_succ (fuel : Nat) (t0 : Table K V) (elem : K × V) :
    insert_without_check_u32 hasher (fuel + 1) t0 elem =
      match (if t0.capacity_ = 0 ∨ t0.capacity_ < 2 * (t0.size_ + 1)
             then expand_u32 hasher fuel t0 else some t0) with
      | none => none
      | some t =>
        if t.used (get_pos hasher t elem.1) = false then
          some (put t (get_pos hasher t elem.1) elem, get_pos hasher t elem.1)
        else
          match free_scan t (get_pos hasher t elem.1) (t.capacity_ - 1) 1 with
          | some n_pos =>
            match displace (get_pos hasher t elem.1) fuel t n_pos with
            | none => none
            | some (t1, none) =>
              insert_without_check_u32 hasher fuel { t1 with H := double_u32 t1.H } elem
            | some (t1, some cur_pos) =>
              if dist t1 (t1.origin_ (get_pos hasher t elem.1)) cur_pos < t1.H then
                some (put (move t1 (get_pos hasher t elem.1) cur_pos)
                  (get_pos hasher t elem.1) elem, get_pos hasher t elem.1)
              else
                insert_without_check_u32 hasher fuel { t1 with H := double_u32 t1.H } elem
          | none =>
            match expand_u32 hasher fuel t with
            | none => none
            | some t1 => insert_without_check_u32 hasher fuel t1 elem := by
  rw [insert_without_check_u32]

omit [DecidableEq K] [Inhabited K] [Inhabited V] in
/-- A free slot exists when the forward scan finds one. -/
theorem free_of_scan (t : Table K V) (pos cur : Nat) (hpos : pos < t.capacity_)
    (hscan : free_scan t pos (t.capacity_ - 1) 1 = some cur) :
    ∃ q, q < t.capacity_ ∧ t.used q = false := by
  rcases free_scan_spec t pos (t.capacity_ - 1) 1 with ⟨h1, _⟩ | ⟨s, _, hs, _, h4, _⟩
  · rw [h1] at hscan
    exact Option.noConfusion hscan
  · exact ⟨wrap t (pos + s), wrap_lt t pos s hpos (by omega), h4⟩

/-- With `H = 0` every pass of the 32-bit `insert_without_check` on an
occupied home slot ends in the retry, and the retry runs on the same table. -/
theorem iwc_u32_H_zero (e : K × V) :
    ∀ fuel (t : Table K V), t.H = 0 → 2 * (t.size_ + 1) ≤ t.capacity_ →
      t.used (get_pos hasher t e.1) = true → (∃ q, q < t.capacity_ ∧ t.used q = false) →
      insert_without_check_u32 hasher fuel t e = none := by
  intro fuel
  induction fuel with
  | zero =>
    intro t _ _ _ _
    rw [insert_without_check_u32]
  | succ f ih =>
    intro t hH hload hocc hfree
    have hpos : get_pos hasher t e.1 < t.capacity_ := get_pos_lt hasher t e.1 (by omega)
    rw [insert_without_check_u32_succ, if_neg (by omega)]
    simp only
    rw [if_neg (by rw [hocc]; exact Bool.noConfusion)]
    rcases free_scan_spec t (get_pos hasher t e.1) (t.capacity_ - 1) 1 with
      ⟨_, h2⟩ | ⟨s, _, _, h3, _, _⟩
    · exfalso
      obtain ⟨q, hq, hqf⟩ := hfree
      have hqu : t.used q = true := by
        by_cases hd : dist t (get_pos hasher t e.1) q = 0
        · have := wrap_dist t _ q hpos hq
          rw [hd] at this
          have hw : wrap t (get_pos hasher t e.1 + 0) = get_pos hasher t e.1 := by
            unfold wrap; simp; omega
          rw [hw] at this
          rw [← this]
          exact hocc
        · have := h2 (dist t (get_pos hasher t e.1) q) (by omega)
            (by have := dist_lt t _ q hpos hq; omega)
          rwa [wrap_dist t _ q hpos hq] at this
      rw [hqf] at hqu
      exact Bool.noConfusion hqu
    · rw [h3]
      simp only
      cases f with
      | zero => rfl
      | succ f1 =>
        rw [displace_succ, if_pos (by omega)]
        have hb : back_scan t (wrap t (get_pos hasher t e.1 + s)) (t.H - 1) 1 = none := by
          rw [hH]
          rfl
        rw [hb]
        simp only
        exact ih { t with H := double_u32 t.H }
          (by show double_u32 t.H = 0; rw [hH]; rfl) hload hocc hfree

theorem expand_u32_succ (fuel : Nat) (t : Table K V) :
    expand_u32 hasher (fuel + 1) t =
      if t.capacity_ = 0 then some (first_slot t)
      else expand_loop_u32 hasher t.entry_ t.used fuel (rebuilt t) 0 := by
  rw [expand_u32]

theorem expand_loop_u32_succ (oe : Nat → K × V) (ou : Nat → Bool) (fuel : Nat)
    (t : Table K V) (i : Nat) :
    expand_loop_u32 hasher oe ou (fuel + 1) t i =
      if i < t.capacity_ / 2 then
        if ou i = true then
          match insert_u32 hasher fuel t (oe i) with
          | some (t1, _) => expand_loop_u32 hasher oe ou fuel t1 (i + 1)
          | none => none
        else expand_loop_u32 hasher oe ou fuel t (i + 1)
      else some t := by
  rw [expand_loop_u32]

omit [DecidableEq K] [Inhabited K] [Inhabited V] in
/-- The displacement loop does not write `H`. -/
theorem displace_H (pos : Nat) :
    ∀ n (t : Table K V) cur t1 r, displace pos n t cur = some (t1, r) → t1.H = t.H := by
  intro n
  induction n with
  | zero =>
    intro t cur t1 r h
    exact Option.noConfusion h
  | succ n ih =>
    intro t cur t1 r h
    rw [displace_succ] at h
    by_cases hd : dist t pos cur ≥ t.H
    · rw [if_pos hd] at h
      cases hb : back_scan t cur (t.H - 1) 1 with
      | none =>
        rw [hb] at h
        simp only at h
        obtain ⟨e1, _⟩ := Prod.mk.inj (Option.some.inj h)
        rw [← e1]
      | some prev =>
        rw [hb] at h
        simp only at h
        exact ih (move t prev cur) prev t1 r h
    · rw [if_neg hd] at h
      obtain ⟨e1, _⟩ := Prod.mk.inj (Option.some.inj h)
      rw [← e1]

/-- The insertion with the product `H * 2` taken on the naturals and the
insertion with the 32-bit `H` are the same computation on every run that ends
with `H < 2^32`: `H` never decreases, so no doubling of such a run wraps. -/
theorem u32_agrees_all : ∀ n : Nat,
    (∀ (t t1 : Table K V), expand hasher n t = some t1 →
      t.H ≤ t1.H ∧ (t1.H < 2 ^ 32 → expand_u32 hasher n t = some t1)) ∧
    (∀ (oe : Nat → K × V) (ou : Nat → Bool) (t : Table K V) i t1,
      expand_loop hasher oe ou n t i = some t1 →
      t.H ≤ t1.H ∧ (t1.H < 2 ^ 32 → expand_loop_u32 hasher oe ou n t i = some t1)) ∧
    (∀ (t : Table K V) e r, insert_without_check hasher n t e = some r →
      t.H ≤ r.1.H ∧ (r.1.H < 2 ^ 32 → insert_without_check_u32 hasher n t e = some r)) ∧
    (∀ (t : Table K V) e r, insert hasher n t e = some r →
      t.H ≤ r.1.H ∧ (r.1.H < 2 ^ 32 → insert_u32 hasher n t e = some r)) := by
  intro n
  induction n with
  | zero =>
    refine ⟨?_, ?_, ?_, ?_⟩
    · intro t t1 h
      rw [expand] at h
      exact Option.noConfusion h
    · intro oe ou t i t1 h
      rw [expand_loop] at h
      exact Option.noConfusion h
    · intro t e r h
      rw [insert_without_check] at h
      exact Option.noConfusion h
    · intro t e r h
      rw [insert] at h
      exact Option.noConfusion h
  | succ n ih =>
    obtain ⟨ihE, ihL, ihW, ihI⟩ := ih
    refine ⟨?_, ?_, ?_, ?_⟩
    · intro t t1 h
      rw [expand_succ] at h
      rw [expand_u32_succ]
      by_cases hc : t.capacity_ = 0
      · rw [if_pos hc] at h ⊢
        have e1 := Option.some.inj h
        rw [← e1]
        exact ⟨le_refl _, fun _ => rfl⟩
      · rw [if_neg hc] at h ⊢
        exact ihL _ _ _ _ _ h
    · intro oe ou t i t1 h
      rw [expand_loop_succ] at h
      rw [expand_loop_u32_succ]
      by_cases hi : i < t.capacity_ / 2
      · rw [if_pos hi] at h ⊢
        by_cases hu : ou i = true
        · rw [if_pos hu] at h ⊢
          cases hins : insert hasher n t (oe i) with
          | none =>
            rw [hins] at h
            exact Option.noConfusion h
          | some r =>
            obtain ⟨t2, loc⟩ := r
            rw [hins] at h
            simp only at h
            obtain ⟨a1, a2⟩ := ihI t (oe i) (t2, loc) hins
            obtain ⟨b1, b2⟩ := ihL oe ou t2 (i + 1) t1 h
            have a3 : t.H ≤ t2.H := a1
            refine ⟨by omega, fun hlt => ?_⟩
            rw [a2 (by show t2.H < 2 ^ 32; omega)]
            simp only
            exact b2 hlt
        · rw [if_neg hu] at h ⊢
          exact ihL _ _ _ _ _ h
      · rw [if_neg hi] at h ⊢
        have e1 := Option.some.inj h
        rw [← e1]
        exact ⟨le_refl _, fun _ => rfl⟩
    · intro t0 e r h
      rw [insert_without_check_succ] at h
      rw [insert_without_check_u32_succ]
      cases hl : (if t0.capacity_ = 0 ∨ t0.capacity_ < 2 * (t0.size_ + 1)
          then expand hasher n t0 else some t0) with
      | none =>
        rw [hl] at h
        exact Option.noConfusion h
      | some t =>
        rw [hl] at h
        simp only at h
        have hst : t0.H ≤ t.H ∧ (t.H < 2 ^ 32 →
            (if t0.capacity_ = 0 ∨ t0.capacity_ < 2 * (t0.size_ + 1)
              then expand_u32 hasher n t0 else some t0) = some t) := by
          by_cases hc : t0.capacity_ = 0 ∨ t0.capacity_ < 2 * (t0.size_ + 1)
          · rw [if_pos hc] at hl ⊢
            exact ihE t0 t hl
          · rw [if_neg hc] at hl ⊢
            have e1 := Option.some.inj hl
            rw [← e1]
            exact ⟨le_refl _, fun _ => rfl⟩
        obtain ⟨s1, s2⟩ := hst
        by_cases hu : t.used (get_pos hasher t e.1) = false
        · rw [if_pos hu] at h
          have e1 := Option.some.inj h
          rw [← e1]
          refine ⟨s1, fun hlt => ?_⟩
          rw [s2 hlt]
          simp only
          rw [if_pos hu]
        · rw [if_neg hu] at h
          cases hf : free_scan t (get_pos hasher t e.1) (t.capacity_ - 1) 1 with
          | none =>
            rw [hf] at h
            simp only at h
            cases he : expand hasher n t with
            | none =>
              rw [he] at h
              exact Option.noConfusion h
            | some t1 =>
              rw [he] at h
              simp only at h
              obtain ⟨a1, a2⟩ := ihE t t1 he
              obtain ⟨b1, b2⟩ := ihW t1 e r h
              refine ⟨by omega, fun hlt => ?_⟩
              rw [s2 (by omega)]
              simp only
              rw [if_neg hu, hf]
              simp only
              rw [a2 (by omega)]
              simp only
              exact b2 hlt
          | some n_pos =>
            rw [hf] at h
            simp only at h
            cases hd : displace (get_pos hasher t e.1) n t n_pos with
            | none =>
              rw [hd] at h
              exact Option.noConfusion h
            | some r1 =>
              obtain ⟨t1, c⟩ := r1
              have hH1 := displace_H _ _ _ _ _ _ hd
              rw [hd] at h
              have retry : insert_without_check hasher n { t1 with H := t1.H * 2 } e = some r →
                  t0.H ≤ r.1.H ∧ t.H ≤ r.1.H ∧ (r.1.H < 2 ^ 32 →
                    insert_without_check_u32 hasher n { t1 with H := double_u32 t1.H } e =
                      some r) := by
                intro hr
                obtain ⟨b1, b2⟩ := ihW _ e r hr
                have b3 : t1.H * 2 ≤ r.1.H := b1
                refine ⟨by omega, by omega, fun hlt => ?_⟩
                have hdu : double_u32 t1.H = t1.H * 2 := by
                  unfold double_u32
                  exact Nat.mod_eq_of_lt (by omega)
                rw [hdu]
                exact b2 hlt
              cases c with
              | none =>
                simp only at h
                obtain ⟨c1, c3, c2⟩ := retry h
                refine ⟨c1, fun hlt => ?_⟩
                rw [s2 (by omega)]
                simp only
                rw [if_neg hu, hf]
                simp only
                rw [hd]
                simp only
                exact c2 hlt
              | some cur =>
                simp only at h
                by_cases hdist : dist t1 (t1.origin_ (get_pos hasher t e.1)) cur < t1.H
                · rw [if_pos hdist] at h
                  have e1 := Option.some.inj h
                  rw [← e1]
                  have e2 : (put (move t1 (get_pos hasher t e.1) cur)
                      (get_pos hasher t e.1) e).H = t1.H := rfl
                  refine ⟨by show t0.H ≤ (put _ _ _).H; rw [e2]; omega, fun hlt => ?_⟩
                  have hlt2 : t1.H < 2 ^ 32 := by
                    have : (put (move t1 (get_pos hasher t e.1) cur)
                      (get_pos hasher t e.1) e).H < 2 ^ 32 := hlt
                    rw [e2] at this
                    exact this
                  rw [s2 (by omega)]
                  simp only
                  rw [if_neg hu, hf]
                  simp only
                  rw [hd]
                  simp only
                  rw [if_pos hdist]
                · rw [if_neg hdist] at h
                  obtain ⟨c1, c3, c2⟩ := retry h
                  refine ⟨c1, fun hlt => ?_⟩
                  rw [s2 (by omega)]
                  simp only
                  rw [if_neg hu, hf]
                  simp only
                  rw [hd]
                  simp only
                  rw [if_neg hdist]
                  exact c2 hlt
    · intro t e r h
      rw [insert_succ] at h
      rw [insert_u32_succ]
      by_cases hf : iter_ne t (find hasher t e.1) (end_ t) = true
      · rw [if_pos hf] at h ⊢
        have e1 := Option.some.inj h
        rw [← e1]
        exact ⟨le_refl _, fun _ => rfl⟩
      · rw [if_neg hf] at h ⊢
        exact ihW t e r h

/-- Below `2^30` slots the insertion with the 32-bit `H` completes, with the
result of `insert`: the capacity at most quadruples and `H` stays at or below
the capacity, so no doubling wraps. -/
theorem insert_u32_total (t : Table K V) (hI : Inv hasher t) (hc : t.capacity_ < 2 ^ 30)
    (e : K × V) :
    ∃ fuel r, insert_u32 hasher fuel t e = some r ∧ insert hasher fuel t e = some r := by
  obtain ⟨fuel, ⟨t1, loc⟩, h⟩ := insert_total hasher t hI e
  have hI1 := insert_inv hasher t hI e fuel t1 loc h
  have hcap : t1.capacity_ ≤ 4 * t.capacity_ ∨ t1.capacity_ = 1 := by
    by_cases hp : Present t e.1
    · rw [(insert_old_any hasher t hI e hp fuel t1 loc h).1]
      left
      omega
    · have := insert_cap_any hasher t hI e hp fuel t1 loc h
      unfold CapAfter at this
      omega
  have hH : t1.H < 2 ^ 32 := by
    rcases hI1.H_le with a | ⟨_, b⟩ <;> omega
  exact ⟨fuel, (t1, loc), ((u32_agrees_all hasher fuel).2.2.2 t e (t1, loc) h).2 hH, h⟩

/-- A pass of `insert_without_check` that finds the free slot within `H` of
the home slot but too far from the origin of the home slot's occupant ends in
the retry of line 292, in both readings of `H *= 2`. -/
theorem iwc_retry_step (t : Table K V) (e : K × V) (cur : Nat)
    (hload : 2 * (t.size_ + 1) ≤ t.capacity_)
    (hocc : t.used (get_pos hasher t e.1) = true)
    (hscan : free_scan t (get_pos hasher t e.1) (t.capacity_ - 1) 1 = some cur)
    (hnear : dist t (get_pos hasher t e.1) cur < t.H)
    (hfar : t.H ≤ dist t (t.origin_ (get_pos hasher t e.1)) cur) (fuel : Nat) :
    insert_without_check hasher (fuel + 2) t e =
        insert_without_check hasher (fuel + 1) { t with H := t.H * 2 } e ∧
    insert_without_check_u32 hasher (fuel + 2) t e =
        insert_without_check_u32 hasher (fuel + 1) { t with H := double_u32 t.H } e := by
  constructor
  · rw [insert_without_check_succ, if_neg (by omega)]
    simp only
    rw [if_neg (by rw [hocc]; exact Bool.noConfusion), hscan]
    simp only
    rw [displace_succ, if_neg (by omega)]
    simp only
    rw [if_neg (by omega)]
  · rw [insert_without_check_u32_succ, if_neg (by omega)]
    simp only
    rw [if_neg (by rw [hocc]; exact Bool.noConfusion), hscan]
    simp only
    rw [displace_succ, if_neg (by omega)]
    simp only
    rw [if_neg (by omega)]

end Capacity

theorem sample2_reachable : Reachable (fun n => n) sample2 :=
  reachable_table_of _ _ sample1_reachable _ _

theorem sample_h_reachable : Reachable (fun n => n) sample_h :=
  reachable_run_getD _ _ _

/-! ## The checked insertion computes the insertion -/

theorem and_flag_fst {α : Type} (b : Bool) (o : Option (α × Bool)) :
    (and_flag b o).map Prod.fst = o.map Prod.fst := by
  cases o with
  | none => rfl
  | some r => rfl

theorem and_flag_some {α : Type} (b : Bool) (o : Option (α × Bool)) (r : α) (c : Bool)
    (h : and_flag b o = some (r, c)) : ∃ c1, o = some (r, c1) ∧ c = (b && c1) := by
  cases o with
  | none => exact Option.noConfusion h
  | some x =>
    obtain ⟨r1, c1⟩ := x
    have h1 : some (r1, b && c1) = some (r, c) := h
    have h2 := Prod.mk.inj (Option.some.inj h1)
    exact ⟨c1, by rw [h2.1], h2.2.symm⟩

theorem displace_live_succ (pos n : Nat) (t : Table K V) (cur : Nat) :
    displace_live pos (n + 1) t cur =
      if dist t pos cur ≥ t.H then
        match back_scan t cur (t.H - 1) 1 with
        | some prev =>
          and_flag (move_live t prev cur) (displace_live pos n (move t prev cur) prev)
        | none => some ((t, none), true)
      else some ((t, some cur), true) := rfl

theorem displace_live_fst (pos : Nat) :
    ∀ n (t : Table K V) cur,
      (displace_live pos n t cur).map Prod.fst = displace pos n t cur := by
  intro n
  induction n with
  | zero =>
    intro t cur
    rfl
  | succ n ih =>
    intro t cur
    rw [displace_live_succ, displace_succ]
    by_cases hd : dist t pos cur ≥ t.H
    · rw [if_pos hd, if_pos hd]
      cases hb : back_scan t cur (t.H - 1) 1 with
      | none => rfl
      | some prev =>
        simp only
        rw [and_flag_fst, ih]
    · rw [if_neg hd, if_neg hd]
      rfl

section Checked

variable [DecidableEq K] [Inhabited K] [Inhabited V] (hasher : K → Nat)

theorem expand_live_succ (fuel : Nat) (t : Table K V) :
    expand_live hasher (fuel + 1) t =
      if t.capacity_ = 0 then some (first_slot t, true)
      else expand_loop_live hasher t.entry_ t.used fuel (rebuilt t) 0 := by
  rw [expand_live]

theorem expand_loop_live_succ (old_entry : Nat → K × V) (old_used : Nat → Bool)
    (fuel : Nat) (t : Table K V) (i : Nat) :
    expand_loop_live hasher old_entry old_used (fuel + 1) t i =
      if i < t.capacity_ / 2 then
        if old_used i = true then
          match insert_live hasher fuel t (old_entry i) with
          | some (r1, b1) =>
            and_flag b1 (expand_loop_live hasher old_entry old_used fuel r1.1 (i + 1))
          | none => none
        else expand_loop_live hasher old_entry old_used fuel t (i + 1)
      else some (t, true) := by
  rw [expand_loop_live]

theorem insert_live_succ (fuel : Nat) (t : Table K V) (elem : K × V) :
    insert_live hasher (fuel + 1) t elem =
      if iter_ne t (find hasher t elem.1) (end_ t) = true then
        some ((t, find hasher t elem.1), true)
      else insert_without_check_live hasher fuel t elem := by
  rw [insert_live]

theorem insert_without_check_live_succ (fuel : Nat) (t0 : Table K V) (elem : K × V) :
    insert_without_check_live hasher (fuel + 1) t0 elem =
      match (if t0.capacity_ = 0 ∨ t0.capacity_ < 2 * (t0.size_ + 1)
             then expand_live hasher fuel t0 else some (t0, true)) with
      | none => none
      | some (t, b0) =>
        if t.used (get_pos hasher t elem.1) = false then
          some ((put t (get_pos hasher t elem.1) elem, get_pos hasher t elem.1), b0)
        else
          match free_scan t (get_pos hasher t elem.1) (t.capacity_ - 1) 1 with
          | some n_pos =>
            match displace_live (get_pos hasher t elem.1) fuel t n_pos with
            | none => none
            | some ((t1, none), b1) =>
              and_flag (b0 && b1)
                (insert_without_check_live hasher fuel { t1 with H := t1.H * 2 } elem)
            | some ((t1, some cur_pos), b1) =>
              if dist t1 (t1.origin_ (get_pos hasher t elem.1)) cur_pos < t1.H then
                some ((put (move t1 (get_pos hasher t elem.1) cur_pos)
                  (get_pos hasher t elem.1) elem, get_pos hasher t elem.1),
                  b0 && b1 && move_live t1 (get_pos hasher t elem.1) cur_pos)
              else
                and_flag (b0 && b1)
                  (insert_without_check_live hasher fuel { t1 with H := t1.H * 2 } elem)
          | none =>
            match expand_live hasher fuel t with
            | none => none
            | some (t1, b1) =>
              and_flag (b0 && b1) (insert_without_check_live hasher fuel t1 elem) := by
  rw [insert_without_check_live]

theorem live_fst_all : ∀ n : Nat,
    (∀ (t : Table K V), (expand_live hasher n t).map Prod.fst = expand hasher n t) ∧
    (∀ (oe : Nat → K × V) (ou : Nat → Bool) (t : Table K V) i,
      (expand_loop_live hasher oe ou n t i).map Prod.fst = expand_loop hasher oe ou n t i) ∧
    (∀ (t : Table K V) e,
      (insert_without_check_live hasher n t e).map Prod.fst =
        insert_without_check hasher n t e) ∧
    (∀ (t : Table K V) e, (insert_live hasher n t e).map Prod.fst = insert hasher n t e) := by
  intro n
  induction n with
  | zero =>
    refine ⟨?_, ?_, ?_, ?_⟩
    · intro t
      rw [expand_live, expand]
      rfl
    · intro oe ou t i
      rw [expand_loop_live, expand_loop]
      rfl
    · intro t e
      rw [insert_without_check_live, insert_without_check]
      rfl
    · intro t e
      rw [insert_live, insert]
      rfl
  | succ n ih =>
    obtain ⟨ihE, ihL, ihW, ihI⟩ := ih
    refine ⟨?_, ?_, ?_, ?_⟩
    · intro t
      rw [expand_live_succ, expand_succ]
      by_cases hc : t.capacity_ = 0
      · rw [if_pos hc, if_pos hc]
        rfl
      · rw [if_neg hc, if_neg hc]
        exact ihL _ _ _ _
    · intro oe ou t i
      rw [expand_loop_live_succ, expand_loop_succ]
      by_cases hi : i < t.capacity_ / 2
      · rw [if_pos hi, if_pos hi]
        by_cases hu : ou i = true
        · rw [if_pos hu, if_pos hu, ← ihI t (oe i)]
          cases hins : insert_live hasher n t (oe i) with
          | none => rfl
          | some r =>
            obtain ⟨⟨t1, loc⟩, b1⟩ := r
            simp only [Option.map_some']
            rw [and_flag_fst]
            exact ihL _ _ _ _
        · rw [if_neg hu, if_neg hu]
          exact ihL _ _ _ _
      · rw [if_neg hi, if_neg hi]
        rfl
    · intro t0 e
      rw [insert_without_check_live_succ, insert_without_check_succ]
      have hload : (if t0.capacity_ = 0 ∨ t0.capacity_ < 2 * (t0.size_ + 1)
          then expand hasher n t0 else some t0) =
          (if t0.capacity_ = 0 ∨ t0.capacity_ < 2 * (t0.size_ + 1)
            then expand_live hasher n t0 else some (t0, true)).map Prod.fst := by
        split
        · exact (ihE t0).symm
        · rfl
      rw [hload]
      cases hl : (if t0.capacity_ = 0 ∨ t0.capacity_ < 2 * (t0.size_ + 1)
          then expand_live hasher n t0 else some (t0, true)) with
      | none => rfl
      | some r0 =>
        obtain ⟨t, b0⟩ := r0
        simp only [Option.map_some']
        by_cases hu : t.used (get_pos hasher t e.1) = false
        · rw [if_pos hu, if_pos hu]
          rfl
        · rw [if_neg hu, if_neg hu]
          cases hf : free_scan t (get_pos hasher t e.1) (t.capacity_ - 1) 1 with
          | none =>
            simp only
            rw [← ihE t]
            cases he : expand_live hasher n t with
            | none => rfl
            | some r1 =>
              obtain ⟨t1, b1⟩ := r1
              simp only [Option.map_some']
              rw [and_flag_fst]
              exact ihW _ _
          | some n_pos =>
            simp only
            rw [← displace_live_fst]
            cases hd : displace_live (get_pos hasher t e.1) n t n_pos with
            | none => rfl
            | some r1 =>
              obtain ⟨⟨t1, c⟩, b1⟩ := r1
              cases c with
              | none =>
                simp only [Option.map_some']
                rw [and_flag_fst]
                exact ihW _ _
              | some cur =>
                simp only [Option.map_some']
                split
                · rfl
                · rw [and_flag_fst]
                  exact ihW _ _
    · intro t e
      rw [insert_live_succ, insert_succ]
      split
      · rfl
      · exact ihW _ _

omit [DecidableEq K] [Inhabited K] [Inhabited V] in
theorem casc_step (t0 : Table K V) (pos : Nat) (t : Table K V) (cur prev : Nat)
    (hC : Casc hasher t0 pos t cur) (hd : t.H ≤ dist t pos cur)
    (hb : back_scan t cur (t.H - 1) 1 = some prev) :
    Casc hasher t0 pos (move t prev cur) prev ∧ t.used prev = true := by
  obtain ⟨l1, h1, h2, h3, h4⟩ := back_scan_spec t cur _ _ _ hb
  have hHpos := hC.inv.H_pos
  have hl : l1 ≤ dist t pos cur := by omega
  obtain ⟨hplt, hpd⟩ := dist_prev_at t pos cur l1 hC.pos_lt hC.cur_lt hl
  rw [← h3] at hplt hpd
  have hpu : t.used prev = true := hC.run_used prev hplt (by omega)
  have hne : prev ≠ cur := by
    intro h
    rw [h, hC.cur_free] at hpu
    exact Bool.noConfusion hpu
  have hnp : pos ≠ prev := by
    intro h
    rw [← h, dist_self] at hpd
    omega
  have hnc : pos ≠ cur := by
    intro h
    have := hC.pos_used
    rw [h, hC.cur_free] at this
    exact Bool.noConfusion this
  refine ⟨⟨inv_move hasher t hC.inv prev cur hpu hC.cur_free hC.cur_lt h4,
    hC.cap_eq, hC.size_eq, hC.H_eq, ?_, hC.pos_lt, hplt, ?_, ?_, ?_⟩, hpu⟩
  · intro k v
    rw [holds_move t prev cur hpu hC.cur_free hC.cur_lt hplt]
    exact hC.content k v
  · simpa [store_same, move, store_apply, hnp, hnc] using hC.pos_used
  · simp [store_same, move, store_apply]
  · intro q hq hdq
    have hdq1 : dist t pos q < dist t pos prev := hdq
    have h1 : q ≠ prev := by
      intro h
      rw [h] at hdq1
      omega
    by_cases h2 : q = cur
    · simp [store_same, move, store_apply, h1, h2, hne.symm]
    · have := hC.run_used q hq (by omega)
      simpa [store_same, move, store_apply, h1, h2] using this

omit [DecidableEq K] [Inhabited K] [Inhabited V] in
theorem displace_live_true (t0 : Table K V) (pos : Nat) :
    ∀ n (t : Table K V) cur, Casc hasher t0 pos t cur →
      ∀ r b, displace_live pos n t cur = some (r, b) → b = true := by
  intro n
  induction n with
  | zero =>
    intro t cur _ r b h
    exact Option.noConfusion h
  | succ n ih =>
    intro t cur hC r b h
    rw [displace_live_succ] at h
    by_cases hd : dist t pos cur ≥ t.H
    · rw [if_pos hd] at h
      cases hb : back_scan t cur (t.H - 1) 1 with
      | none =>
        rw [hb] at h
        exact (Prod.mk.inj (Option.some.inj h)).2.symm
      | some prev =>
        rw [hb] at h
        obtain ⟨c1, h1, h2⟩ := and_flag_some _ _ _ _ h
        obtain ⟨hC1, hpu⟩ := casc_step hasher t0 pos t cur prev hC hd hb
        have hc1 := ih _ _ hC1 _ _ h1
        rw [h2, hc1]
        simp [move_live, hpu, hC.cur_free]
    · rw [if_neg hd] at h
      exact (Prod.mk.inj (Option.some.inj h)).2.symm

omit [DecidableEq K] [Inhabited K] [Inhabited V] in
theorem displace_any (t0 : Table K V) (pos : Nat) (t : Table K V) (cur : Nat)
    (hC : Casc hasher t0 pos t cur) (n : Nat) (t1 : Table K V) (r : Option Nat)
    (h : displace pos n t cur = some (t1, r)) :
    ∃ c1, Casc hasher t0 pos t1 c1 ∧
      ((r = some c1 ∧ dist t1 pos c1 < t1.H) ∨ (r = none ∧ t1.H ≤ dist t1 pos c1)) := by
  obtain ⟨t2, r2, c1, h2, hC2, hr2⟩ :=
    displace_spec hasher t0 pos (dist t pos cur + 1) t cur hC (by omega)
  have a := displace_mono pos _ _ _ _ h (max n (dist t pos cur + 1)) (le_max_left _ _)
  have b := displace_mono pos _ _ _ _ h2 (max n (dist t pos cur + 1)) (le_max_right _ _)
  rw [a] at b
  obtain ⟨e1, e2⟩ := Prod.mk.inj (Option.some.inj b)
  rw [e1, e2]
  exact ⟨c1, hC2, hr2⟩

theorem expand_any (t : Table K V) (hI : Inv hasher t) (fuel : Nat) (r : Table K V)
    (h : expand hasher fuel t = some r) :
    Inv hasher r ∧ (∀ k v, Holds r k v ↔ Holds t k v) ∧ r.size_ = t.size_ ∧
      r.size_ < r.capacity_ := by
  have hsc := size_le_capacity hasher t hI
  by_cases hc : t.capacity_ = 0
  · have h1 : expand hasher 1 t = some (first_slot t) := by
      rw [expand_succ, if_pos hc]
    have := expand_det hasher t fuel 1 _ _ h h1
    subst this
    refine ⟨inv_first_slot hasher t hI hc, ?_, rfl, ?_⟩
    · intro k v
      constructor
      · rintro ⟨p, _, hu, _⟩
        exact Bool.noConfusion hu
      · rintro ⟨p, hp, _⟩
        omega
    · show t.size_ < 1
      omega
  · obtain ⟨f0, t0, h0, hI0, hcap, hsize, hcont, _⟩ := expand_spec hasher t hI (by omega)
    have := expand_det hasher t fuel f0 _ _ h h0
    subst this
    exact ⟨hI0, hcont, hsize, by omega⟩

omit [DecidableEq K] [Inhabited K] [Inhabited V] in
theorem loop_inv_new (told t : Table K V) (i : Nat) (hI0 : Inv hasher told)
    (hL : LoopInv hasher told t i) (hu : told.used i = true) :
    ¬ Present t (told.entry_ i).1 := by
  rw [present_iff_holds]
  rintro ⟨v, hv⟩
  obtain ⟨p, hp, hpu, hpe⟩ := (hL.content _ _).mp hv
  have := hI0.unique p i hpu hu (by rw [hpe])
  omega

theorem loop_inv_step (told t : Table K V) (i : Nat) (hI0 : Inv hasher told)
    (hL : LoopInv hasher told t i) (hi : i < told.capacity_) (hu : told.used i = true)
    (fuel : Nat) (t1 : Table K V) (loc : Nat)
    (h : insert hasher fuel t (told.entry_ i) = some (t1, loc)) :
    LoopInv hasher told t1 (i + 1) := by
  have hnew := loop_inv_new hasher told t i hI0 hL hu
  have hins := insert_new_any hasher t hL.inv _ hnew fuel t1 loc h
  have hcap := insert_cap_any hasher t hL.inv _ hnew fuel t1 loc h
  have hcs := used_count_succ told.used i
  rw [if_pos hu] at hcs
  have hle : Nat.count (fun p => told.used p = true) (i + 1) ≤ told.capacity_ := by
    have := used_count_mono told.used (i + 1) told.capacity_ (by omega)
    have := used_count_le told.used told.capacity_
    omega
  have hsz := hL.size_eq
  have hce := hL.cap_eq
  refine ⟨hins.inv, ?_, by rw [hins.size_eq, hsz, hcs], ?_⟩
  · unfold CapAfter at hcap
    omega
  · intro k v
    rw [hins.content k v, hL.content k v]
    constructor
    · rintro (⟨p, hp, hr⟩ | h)
      · exact ⟨p, by omega, hr⟩
      · exact ⟨i, by omega, hu, h.symm⟩
    · rintro ⟨p, hp, hpu, hpe⟩
      by_cases hpi : p = i
      · right
        rw [← hpe, hpi]
      · left
        exact ⟨p, by omega, hpu, hpe⟩

omit [DecidableEq K] [Inhabited K] [Inhabited V] in
theorem loop_inv_skip (told t : Table K V) (i : Nat)
    (hL : LoopInv hasher told t i) (hu : ¬ told.used i = true) :
    LoopInv hasher told t (i + 1) := by
  have hcs := used_count_succ told.used i
  rw [if_neg hu] at hcs
  refine ⟨hL.inv, hL.cap_eq, by rw [hL.size_eq, hcs]; rfl, ?_⟩
  intro k v
  rw [hL.content k v]
  constructor
  · rintro ⟨p, hp, hr⟩
    exact ⟨p, by omega, hr⟩
  · rintro ⟨p, hp, hpu, hpe⟩
    have : p ≠ i := by
      intro h
      rw [h] at hpu
      exact hu hpu
    exact ⟨p, by omega, hpu, hpe⟩

omit [DecidableEq K] in
theorem loop_inv_start (t : Table K V) (hI : Inv hasher t) (hc : 0 < t.capacity_) :
    LoopInv hasher t (rebuilt t) 0 := by
  refine ⟨inv_rebuilt hasher t hI hc, by show t.capacity_ * 2 = _; omega,
    by simp [rebuilt], ?_⟩
  intro k v
  constructor
  · rintro ⟨p, _, hu, _⟩
    exact Bool.noConfusion hu
  · rintro ⟨p, hp, _⟩
    omega

theorem insert_live_fst (fuel : Nat) (t : Table K V) (e : K × V) :
    (insert_live hasher fuel t e).map Prod.fst = insert hasher fuel t e :=
  (live_fst_all hasher fuel).2.2.2 t e

theorem expand_live_fst (fuel : Nat) (t : Table K V) :
    (expand_live hasher fuel t).map Prod.fst = expand hasher fuel t :=
  (live_fst_all hasher fuel).1 t

theorem insert_of_live (fuel : Nat) (t : Table K V) (e : K × V) (r : Table K V × Nat)
    (b : Bool) (h : insert_live hasher fuel t e = some (r, b)) :
    insert hasher fuel t e = some r := by
  rw [← insert_live_fst, h]
  rfl

theorem expand_of_live (fuel : Nat) (t r : Table K V) (b : Bool)
    (h : expand_live hasher fuel t = some (r, b)) : expand hasher fuel t = some r := by
  rw [← expand_live_fst, h]
  rfl

theorem live_all : ∀ n : Nat,
    (∀ (t : Table K V), Inv hasher t →
      ∀ r b, expand_live hasher n t = some (r, b) → b = true) ∧
    (∀ (told t : Table K V) i, Inv hasher told → LoopInv hasher told t i →
      ∀ r b, expand_loop_live hasher told.entry_ told.used n t i = some (r, b) →
        b = true) ∧
    (∀ (t : Table K V) e, Inv hasher t → ¬ Present t e.1 →
      ∀ r b, insert_without_check_live hasher n t e = some (r, b) → b = true) ∧
    (∀ (t : Table K V) e, Inv hasher t →
      ∀ r b, insert_live hasher n t e = some (r, b) → b = true) := by
  intro n
  induction n with
  | zero =>
    refine ⟨?_, ?_, ?_, ?_⟩
    · intro t _ r b h
      rw [expand_live] at h
      exact Option.noConfusion h
    · intro told t i _ _ r b h
      rw [expand_loop_live] at h
      exact Option.noConfusion h
    · intro t e _ _ r b h
      rw [insert_without_check_live] at h
      exact Option.noConfusion h
    · intro t e _ r b h
      rw [insert_live] at h
      exact Option.noConfusion h
  | succ n ih =>
    obtain ⟨ihE, ihL, ihW, ihI⟩ := ih
    refine ⟨?_, ?_, ?_, ?_⟩
    · intro t hI r b h
      rw [expand_live_succ] at h
      by_cases hc : t.capacity_ = 0
      · rw [if_pos hc] at h
        exact (Prod.mk.inj (Option.some.inj h)).2.symm
      · rw [if_neg hc] at h
        exact ihL t (rebuilt t) 0 hI (loop_inv_start hasher t hI (by omega)) r b h
    · intro told t i hI0 hL r b h
      rw [expand_loop_live_succ] at h
      by_cases hi : i < t.capacity_ / 2
      · rw [if_pos hi] at h
        have hi1 : i < told.capacity_ := by
          have := hL.cap_eq
          omega
        by_cases hu : told.used i = true
        · rw [if_pos hu] at h
          cases hins : insert_live hasher n t (told.entry_ i) with
          | none =>
            rw [hins] at h
            exact Option.noConfusion h
          | some r1 =>
            obtain ⟨⟨t1, loc⟩, b1⟩ := r1
            rw [hins] at h
            obtain ⟨c1, h1, h2⟩ := and_flag_some _ _ _ _ h
            have hb1 := ihI t _ hL.inv _ _ hins
            have hL1 := loop_inv_step hasher told t i hI0 hL hi1 hu n t1 loc
              (insert_of_live hasher n t _ _ _ hins)
            have hc1 := ihL told t1 (i + 1) hI0 hL1 _ _ h1
            rw [h2, hb1, hc1]
            rfl
        · rw [if_neg hu] at h
          exact ihL told t (i + 1) hI0 (loop_inv_skip hasher told t i hL hu) r b h
      · rw [if_neg hi] at h
        exact (Prod.mk.inj (Option.some.inj h)).2.symm
    · intro t0 e hI0 hnew0 r b h
      rw [insert_without_check_live_succ] at h
      cases hl : (if t0.capacity_ = 0 ∨ t0.capacity_ < 2 * (t0.size_ + 1)
          then expand_live hasher n t0 else some (t0, true)) with
      | none =>
        rw [hl] at h
        exact Option.noConfusion h
      | some r0 =>
        obtain ⟨t, b0⟩ := r0
        rw [hl] at h
        simp only at h
        -- the table after the load test
        have hfacts : b0 = true ∧ Inv hasher t ∧ (∀ k v, Holds t k v ↔ Holds t0 k v) ∧
            t.size_ < t.capacity_ := by
          by_cases hc : t0.capacity_ = 0 ∨ t0.capacity_ < 2 * (t0.size_ + 1)
          · rw [if_pos hc] at hl
            obtain ⟨a1, a2, _, a4⟩ :=
              expand_any hasher t0 hI0 n t (expand_of_live hasher n t0 t b0 hl)
            exact ⟨ihE t0 hI0 _ _ hl, a1, a2, a4⟩
          · rw [if_neg hc] at hl
            obtain ⟨e1, e2⟩ := Prod.mk.inj (Option.some.inj hl)
            subst e1
            exact ⟨e2.symm, hI0, fun _ _ => Iff.rfl, by omega⟩
        obtain ⟨hb0, hI, hcont, hsize⟩ := hfacts
        have hnew : ¬ Present t e.1 := by
          rw [present_congr t0 t hcont]; exact hnew0
        have hpos : get_pos hasher t e.1 < t.capacity_ :=
          get_pos_lt hasher t e.1 (by omega)
        by_cases hu : t.used (get_pos hasher t e.1) = false
        · rw [if_pos hu] at h
          rw [← (Prod.mk.inj (Option.some.inj h)).2]
          exact hb0
        · rw [if_neg hu] at h
          have hu1 : t.used (get_pos hasher t e.1) = true := by simpa using hu
          obtain ⟨n_pos, hfs, hnlt, hnfree, hrun⟩ :=
            free_scan_found hasher t hI hsize _ hpos hu1
          rw [hfs] at h
          simp only at h
          have hC0 : Casc hasher t (get_pos hasher t e.1) t n_pos :=
            ⟨hI, rfl, rfl, rfl, fun _ _ => Iff.rfl, hpos, hnlt, hu1, hnfree, hrun⟩
          cases hd : displace_live (get_pos hasher t e.1) n t n_pos with
          | none =>
            rw [hd] at h
            exact Option.noConfusion h
          | some r1 =>
            obtain ⟨⟨t1, c⟩, b1⟩ := r1
            rw [hd] at h
            have hb1 := displace_live_true hasher t _ n t n_pos hC0 _ _ hd
            have hdis : displace (get_pos hasher t e.1) n t n_pos = some (t1, c) := by
              rw [← displace_live_fst, hd]
              rfl
            obtain ⟨c1, hC1, hr⟩ := displace_any hasher t _ t n_pos hC0 n t1 c hdis
            have hdlt : dist t1 (get_pos hasher t e.1) c1 < t1.capacity_ :=
              dist_lt t1 _ _ hC1.pos_lt hC1.cur_lt
            have hretry : t1.H < t1.capacity_ → ∀ r b2,
                insert_without_check_live hasher n { t1 with H := t1.H * 2 } e =
                  some (r, b2) → b2 = true := by
              intro hlt r b2 h2
              apply ihW { t1 with H := t1.H * 2 } e (inv_double hasher t1 hC1.inv hlt) _ _ _ h2
              have hc2 : ∀ k v, Holds { t1 with H := t1.H * 2 } k v ↔ Holds t k v :=
                hC1.content
              rw [present_congr t _ hc2]
              exact hnew
            rcases hr with ⟨rfl, hnear⟩ | ⟨rfl, hfar⟩
            · simp only at h
              by_cases hc : dist t1 (t1.origin_ (get_pos hasher t e.1)) c1 < t1.H
              · rw [if_pos hc] at h
                rw [← (Prod.mk.inj (Option.some.inj h)).2, hb0, hb1]
                simp [move_live, hC1.pos_used, hC1.cur_free]
              · rw [if_neg hc] at h
                obtain ⟨c2, h1, h2⟩ := and_flag_some _ _ _ _ h
                have horig : t1.origin_ (get_pos hasher t e.1) < t1.capacity_ := by
                  rw [hC1.inv.home _ hC1.pos_used]
                  exact get_pos_lt hasher t1 _ (by have := hC1.cap_eq; omega)
                have := dist_lt t1 _ _ horig hC1.cur_lt
                rw [h2, hb0, hb1, hretry (by omega) _ _ h1]
                rfl
            · simp only at h
              obtain ⟨c2, h1, h2⟩ := and_flag_some _ _ _ _ h
              rw [h2, hb0, hb1, hretry (by omega) _ _ h1]
              rfl
    · intro t e hI r b h
      rw [insert_live_succ] at h
      by_cases hc : iter_ne t (find hasher t e.1) (end_ t) = true
      · rw [if_pos hc] at h
        exact (Prod.mk.inj (Option.some.inj h)).2.symm
      · rw [if_neg hc] at h
        apply ihW t e hI _ r b h
        intro hp
        rcases find_cases hasher t hI e.1 with ⟨_, h1⟩ | ⟨h1, h2, _⟩
        · exact h1 hp
        · exact hc (iter_ne_used_end t _ h1 h2)

/-- A completed checked insertion on a table satisfying the invariant made
only live moves. -/
theorem insert_live_true (t : Table K V) (hI : Inv hasher t) (e : K × V) (fuel : Nat)
    (r : Table K V × Nat) (b : Bool) (h : insert_live hasher fuel t e = some (r, b)) :
    b = true :=
  (live_all hasher fuel).2.2.2 t e hI r b h

theorem insert_live_total (t : Table K V) (hI : Inv hasher t) (e : K × V) :
    ∃ fuel r, insert_live hasher fuel t e = some (r, true) := by
  obtain ⟨fuel, r, hr⟩ := insert_total hasher t hI e
  have hf := insert_live_fst hasher fuel t e
  rw [hr] at hf
  cases hl : insert_live hasher fuel t e with
  | none =>
    rw [hl] at hf
    exact Option.noConfusion hf
  | some x =>
    obtain ⟨r1, b⟩ := x
    have hb := insert_live_true hasher t hI e fuel r1 b hl
    rw [hb] at hl
    exact ⟨fuel, r1, hl⟩

theorem insert_live_eq_table_of (t : Table K V) (e : K × V) (fuel loc : Nat) (b : Bool)
    (h : (insert_live hasher fuel t e).map (fun x => (x.1.2, x.2)) = some (loc, b)) :
    insert_live hasher fuel t e = some ((table_of (insert hasher fuel t e), loc), b) := by
  have hf := insert_live_fst hasher fuel t e
  cases hl : insert_live hasher fuel t e with
  | none =>
    rw [hl] at h
    exact Option.noConfusion h
  | some x =>
    obtain ⟨⟨t1, l1⟩, b1⟩ := x
    rw [hl] at h hf
    obtain ⟨e1, e2⟩ := Prod.mk.inj (Option.some.inj h)
    have e3 : l1 = loc := e1
    have e4 : b1 = b := e2
    rw [← hf, e3, e4]
    rfl

end Checked

/-! ## The calls of `expand` made by an insertion -/

section Traced

variable [DecidableEq K] [Inhabited K] [Inhabited V] (hasher : K → Nat)

end Traced

/-! ## Traversal -/

theorem next_loop_spec (t : Table K V) :
    ∀ n pos, pos ≤ next_loop t n pos ∧ next_loop t n pos ≤ pos + n ∧
      (pos ≤ t.capacity_ → next_loop t n pos ≤ t.capacity_) ∧
      (∀ q, pos ≤ q → q < next_loop t n pos → t.used q = false) ∧
      (next_loop t n pos < pos + n →
        ¬ (next_loop t n pos < t.capacity_ ∧ t.used (next_loop t n pos) = false)) := by
  intro n
  induction n with
  | zero =>
    intro pos
    refine ⟨le_refl _, le_refl _, fun h => h, ?_, ?_⟩
    · intro q h1 h2
      have : next_loop t 0 pos = pos := rfl
      omega
    · intro h
      have : next_loop t 0 pos = pos := rfl
      omega
  | succ n ih =>
    intro pos
    by_cases hc : pos < t.capacity_ ∧ t.used pos = false
    · have hdef : next_loop t (n + 1) pos = next_loop t n (pos + 1) := by
        show (if pos < t.capacity_ ∧ t.used pos = false then next_loop t n (pos + 1)
          else pos) = _
        rw [if_pos hc]
      obtain ⟨h1, h2, h3, h4, h5⟩ := ih (pos + 1)
      rw [hdef]
      refine ⟨by omega, by omega, fun _ => h3 (by omega), ?_, ?_⟩
      · intro q hq1 hq2
        by_cases hq : q = pos
        · rw [hq]; exact hc.2
        · exact h4 q (by omega) hq2
      · intro h
        exact h5 (by omega)
    · have hdef : next_loop t (n + 1) pos = pos := next_loop_stop t _ _ hc
      rw [hdef]
      refine ⟨le_refl _, by omega, fun h => h, ?_, fun _ => hc⟩
      intro q h1 h2
      omega

theorem iter_next_spec (t : Table K V) (pos : Nat) (hp : pos ≤ t.capacity_) :
    pos ≤ iter_next t pos ∧ iter_next t pos ≤ t.capacity_ ∧
    (∀ q, pos ≤ q → q < iter_next t pos → t.used q = false) ∧
    (iter_next t pos < t.capacity_ → t.used (iter_next t pos) = true) := by
  obtain ⟨h1, _, h3, h4, h5⟩ := next_loop_spec t (t.capacity_ - pos) pos
  refine ⟨h1, h3 hp, h4, ?_⟩
  intro hlt
  have hlt1 : next_loop t (t.capacity_ - pos) pos < t.capacity_ := hlt
  have := h5 (by omega)
  by_contra hu
  exact this ⟨hlt1, by simpa using hu⟩

theorem traverse_succ (t : Table K V) (fuel pos : Nat) :
    traverse t (fuel + 1) pos =
      if iter_ne t pos (end_ t) = true then
        match traverse t fuel (iter_incr t (iter_next t (iter_next t pos))) with
        | some l => some (iter_next t (iter_next t pos) :: l)
        | none => none
      else some [] := rfl

theorem traverse_mono (t : Table K V) :
    ∀ n pos l, traverse t n pos = some l → ∀ m, n ≤ m → traverse t m pos = some l := by
  intro n
  induction n with
  | zero =>
    intro pos l h
    exact Option.noConfusion h
  | succ n ih =>
    intro pos l h m hm
    obtain ⟨m1, rfl⟩ : ∃ m1, m = m1 + 1 := ⟨m - 1, by omega⟩
    rw [traverse_succ] at h ⊢
    split
    · rename_i hc
      rw [if_pos hc] at h
      cases hr : traverse t n (iter_incr t (iter_next t (iter_next t pos))) with
      | none =>
        rw [hr] at h
        exact Option.noConfusion h
      | some l1 =>
        rw [hr] at h
        rw [ih _ _ hr m1 (by omega)]
        exact h
    · rename_i hc
      rw [if_neg hc] at h
      exact h

theorem traverse_spec (t : Table K V) :
    ∀ d pos, t.capacity_ - pos ≤ d → pos ≤ t.capacity_ →
      ∃ l, traverse t (d + 1) pos = some l ∧ l.Pairwise (· < ·) ∧
        ∀ p, p ∈ l ↔ (pos ≤ p ∧ p < t.capacity_ ∧ t.used p = true) := by
  intro d
  induction d with
  | zero =>
    intro pos hd hp
    have hpos : pos = t.capacity_ := by omega
    refine ⟨[], ?_, List.Pairwise.nil, ?_⟩
    · rw [traverse_succ, hpos]
      have : iter_ne t t.capacity_ (end_ t) = false := iter_ne_end_end t
      rw [this]
      simp
    · intro p
      simp only [List.not_mem_nil, false_iff]
      omega
  | succ d ih =>
    intro pos hd hp
    obtain ⟨h1, h2, h3, h4⟩ := iter_next_spec t pos hp
    by_cases hr : iter_next t pos = t.capacity_
    · refine ⟨[], ?_, List.Pairwise.nil, ?_⟩
      · rw [traverse_succ]
        have : iter_ne t pos (end_ t) = false := by
          unfold iter_ne
          rw [iter_next_end, hr]
          simp [end_]
        rw [this]
        simp
      · intro p
        simp only [List.not_mem_nil, false_iff]
        rintro ⟨hp1, hp2, hp3⟩
        have := h3 p hp1 (by omega)
        rw [this] at hp3
        exact Bool.noConfusion hp3
    · have hlt : iter_next t pos < t.capacity_ := by omega
      have hu := h4 hlt
      have hne : iter_ne t pos (end_ t) = true := by
        unfold iter_ne
        rw [iter_next_end]
        simp [end_]
        omega
      have hrr : iter_next t (iter_next t pos) = iter_next t pos := iter_next_used t _ hu
      have hinc : iter_incr t (iter_next t pos) = iter_next t pos + 1 := by
        unfold iter_incr
        rw [hrr]
        omega
      obtain ⟨l, hl, hsort, hmem⟩ := ih (iter_next t pos + 1) (by omega) (by omega)
      refine ⟨iter_next t pos :: l, ?_, ?_, ?_⟩
      · rw [traverse_succ, if_pos hne, hrr, hinc,
          traverse_mono t _ _ _ hl (d + 1) (by omega)]
      · rw [List.pairwise_cons]
        refine ⟨?_, hsort⟩
        intro a ha
        have := (hmem a).mp ha
        omega
      · intro p
        rw [List.mem_cons, hmem p]
        constructor
        · rintro (h | ⟨ha, hb, hc⟩)
          · rw [h]
            exact ⟨h1, hlt, hu⟩
          · exact ⟨by omega, hb, hc⟩
        · rintro ⟨ha, hb, hc⟩
          by_cases hpe : p = iter_next t pos
          · exact Or.inl hpe
          · right
            refine ⟨?_, hb, hc⟩
            by_contra hlt2
            have := h3 p ha (by omega)
            rw [this] at hc
            exact Bool.noConfusion hc

theorem length_of_sorted_used (t : Table K V) (l : List Nat) (hs : l.Pairwise (· < ·))
    (hm : ∀ p, p ∈ l ↔ (p < t.capacity_ ∧ t.used p = true)) :
    l.length = Nat.count (fun p => t.used p = true) t.capacity_ := by
  have hnd : l.Nodup := hs.imp (fun h => Nat.ne_of_lt h)
  rw [Nat.count_eq_card_filter_range, ← List.toFinset_card_of_nodup hnd]
  congr 1
  ext p
  rw [List.mem_toFinset, hm p, Finset.mem_filter, Finset.mem_range]

/-! ## Invariants of the reachable tables -/

section Invariants

variable [DecidableEq K] [Inhabited K] [Inhabited V]

/-- C12. The size counter counts the occupied slots and is bounded by the
capacity: in every reachable table `size_` is the number of slots below
`capacity_` whose `used` flag is set, and `size_ ≤ capacity_`; `move` leaves
`size_` alone, `put` adds one and `remove` takes one away. -/
theorem size_counts_used (hasher : K → Nat) (t : Table K V) (h : Reachable hasher t) :
    t.size_ = Nat.count (fun p => t.used p = true) t.capacity_ ∧
    t.size_ ≤ t.capacity_ ∧
    (∀ a b, (move t a b).size_ = t.size_) ∧
    (∀ p e, (put t p e).size_ = t.size_ + 1) ∧
    (∀ p, t.used p = true → (remove t p).size_ + 1 = t.size_) := by
  have hI := reachable_inv hasher t h
  refine ⟨hI.count, size_le_capacity hasher t hI, fun _ _ => rfl, fun _ _ => rfl, ?_⟩
  intro p hp
  show t.size_ - 1 + 1 = t.size_
  have hc := used_count_store_false t.used p t.capacity_ (hI.bounded p hp) hp
  have := hI.count
  omega

/-- Witness for C12: `sample3` has three occupied slots among its four. -/
theorem size_counts_used_witness :
    sample3.size_ = Nat.count (fun p => sample3.used p = true) sample3.capacity_ ∧
    sample3.size_ ≤ sample3.capacity_ ∧
    (∀ a b, (move sample3 a b).size_ = sample3.size_) ∧
    (∀ p e, (put sample3 p e).size_ = sample3.size_ + 1) ∧
    (∀ p, sample3.used p = true → (remove sample3 p).size_ + 1 = sample3.size_) :=
  size_counts_used (fun n => n) sample3 sample3_reachable

/-- C14. Method `clear` restores the initial state: for every table,
`clear` gives exactly the freshly constructed empty table (capacity 0, size
0, `H = 1`, no slots), so `find` reports not-found for every key and every
later sequence of calls runs as on a fresh table. -/
theorem clear_restores_initial (hasher : K → Nat) (t : Table K V) :
    clear t = empty ∧ (clear t).capacity_ = 0 ∧ (clear t).size_ = 0 ∧ (clear t).H = 1 ∧
    (∀ p, (clear t).used p = false) ∧
    (∀ k, find hasher (clear t) k = end_ (clear t)) ∧
    (∀ fuel ops, run hasher fuel ops (clear t) = run hasher fuel ops empty) ∧
    (∀ fuel e, insert hasher fuel (clear t) e = insert hasher fuel empty e) :=
  ⟨rfl, rfl, rfl, rfl, fun _ => rfl, fun _ => rfl, fun _ _ => rfl, fun _ _ => rfl⟩

/-- C15. Neighborhood invariant: in every reachable table every occupied
slot `p` records the origin `hash(key) mod capacity_` of its key, and the
cyclic forward distance from that origin to `p` is below `H`. -/
theorem neighborhood_invariant (hasher : K → Nat) (t : Table K V)
    (h : Reachable hasher t) (p : Nat) (hu : t.used p = true) :
    p < t.capacity_ ∧ t.origin_ p = hasher (t.entry_ p).1 % t.capacity_ ∧
    dist t (t.origin_ p) p < t.H ∧
    (if t.origin_ p ≤ p then p - t.origin_ p else p + t.capacity_ - t.origin_ p) < t.H := by
  have hI := reachable_inv hasher t h
  exact ⟨hI.bounded p hu, hI.home p hu, hI.near p hu, hI.near p hu⟩

/-- Witness for C15: slot `2` of `sample3`. -/
theorem neighborhood_invariant_witness :
    2 < sample3.capacity_ ∧ sample3.origin_ 2 = (sample3.entry_ 2).1 % sample3.capacity_ ∧
    dist sample3 (sample3.origin_ 2) 2 < sample3.H ∧
    (if sample3.origin_ 2 ≤ 2 then 2 - sample3.origin_ 2
      else 2 + sample3.capacity_ - sample3.origin_ 2) < sample3.H :=
  neighborhood_invariant (fun n => n) sample3 sample3_reachable 2 (by decide)

/-- C18. Bound `H ≤ capacity_`: in every reachable table with
`capacity_ > 0` the neighbourhood bound is at most the capacity, so the
slots `pos + shift (- capacity_)` scanned by `find` and the slots
`cur_pos - l_shift (+ capacity_)` of the backward window are valid indices
and pairwise different. -/
theorem H_le_capacity (hasher : K → Nat) (t : Table K V) (h : Reachable hasher t)
    (hc : 0 < t.capacity_) :
    t.H ≤ t.capacity_ ∧
    (∀ pos shift, pos < t.capacity_ → shift < t.H → wrap t (pos + shift) < t.capacity_) ∧
    (∀ pos s1 s2, pos < t.capacity_ → s1 < t.H → s2 < t.H →
      wrap t (pos + s1) = wrap t (pos + s2) → s1 = s2) ∧
    (∀ cur l, cur < t.capacity_ → l < t.H → prev_at t cur l < t.capacity_) ∧
    (∀ cur l1 l2, cur < t.capacity_ → l1 < t.H → l2 < t.H →
      prev_at t cur l1 = prev_at t cur l2 → l1 = l2) := by
  have hI := reachable_inv hasher t h
  have hH : t.H ≤ t.capacity_ := by
    rcases hI.H_le with h1 | ⟨h1, _⟩
    · exact h1
    · omega
  refine ⟨hH, ?_, ?_, ?_, ?_⟩
  · intro pos shift hp hs
    exact wrap_lt t pos shift hp (by omega)
  · intro pos s1 s2 hp h1 h2 hw
    have e1 := dist_wrap t pos s1 hp (by omega)
    have e2 := dist_wrap t pos s2 hp (by omega)
    rw [hw] at e1
    omega
  · intro cur l hcur hl
    unfold prev_at
    split <;> omega
  · intro cur l1 l2 hcur h1 h2
    unfold prev_at
    split <;> split <;> omega

/-- Witness for C18: `sample_h` has capacity 8 and `H = 2`. -/
theorem H_le_capacity_witness :
    sample_h.H ≤ sample_h.capacity_ ∧
    (∀ pos shift, pos < sample_h.capacity_ → shift < sample_h.H →
      wrap sample_h (pos + shift) < sample_h.capacity_) ∧
    (∀ pos s1 s2, pos < sample_h.capacity_ → s1 < sample_h.H → s2 < sample_h.H →
      wrap sample_h (pos + s1) = wrap sample_h (pos + s2) → s1 = s2) ∧
    (∀ cur l, cur < sample_h.capacity_ → l < sample_h.H →
      prev_at sample_h cur l < sample_h.capacity_) ∧
    (∀ cur l1 l2, cur < sample_h.capacity_ → l1 < sample_h.H → l2 < sample_h.H →
      prev_at sample_h cur l1 = prev_at sample_h cur l2 → l1 = l2) :=
  H_le_capacity (fun n => n) sample_h sample_h_reachable (by decide)

/-- C11. Iteration completeness and order: on every reachable table the
traversal `for (it = begin(); it != end(); ++it)` terminates, and the slots
it visits are exactly the occupied slots, each once, in strictly increasing
index order; so it visits `size_` elements and no key twice. -/
theorem iteration_complete (hasher : K → Nat) (t : Table K V) (h : Reachable hasher t) :
    (∃ fuel l, traverse t fuel (begin_ t) = some l) ∧
    ∀ fuel l, traverse t fuel (begin_ t) = some l →
      l.Pairwise (· < ·) ∧ (∀ p, p ∈ l ↔ (p < t.capacity_ ∧ t.used p = true)) ∧
      l.length = t.size_ ∧ (l.map (fun p => (t.entry_ p).1)).Nodup := by
  have hI := reachable_inv hasher t h
  obtain ⟨l0, h0, hs0, hm0⟩ := traverse_spec t t.capacity_ 0 (by omega) (Nat.zero_le _)
  refine ⟨⟨_, l0, h0⟩, ?_⟩
  intro fuel l hl
  have e1 := traverse_mono t _ _ _ hl (max fuel (t.capacity_ + 1)) (le_max_left _ _)
  have e2 := traverse_mono t _ _ _ h0 (max fuel (t.capacity_ + 1)) (le_max_right _ _)
  have hb : begin_ t = 0 := rfl
  rw [hb] at e1
  rw [e1] at e2
  have hll : l = l0 := Option.some.inj e2
  subst hll
  have hm : ∀ p, p ∈ l ↔ (p < t.capacity_ ∧ t.used p = true) := by
    intro p
    rw [hm0 p]
    constructor
    · rintro ⟨_, a, b⟩
      exact ⟨a, b⟩
    · rintro ⟨a, b⟩
      exact ⟨Nat.zero_le _, a, b⟩
  refine ⟨hs0, hm, ?_, ?_⟩
  · rw [length_of_sorted_used t l hs0 hm, hI.count]
  · apply List.Nodup.map_on _ (hs0.imp (fun h => Nat.ne_of_lt h))
    intro x hx y hy hk
    exact hI.unique x y ((hm x).mp hx).2 ((hm y).mp hy).2 hk

/-- Witness for C11: the traversal of `sample3` visits the slots 1, 2, 3. -/
theorem iteration_complete_witness :
    [1, 2, 3].Pairwise (· < ·) ∧
      (∀ p, p ∈ [1, 2, 3] ↔ (p < sample3.capacity_ ∧ sample3.used p = true)) ∧
      [1, 2, 3].length = sample3.size_ ∧
      ([1, 2, 3].map (fun p => (sample3.entry_ p).1)).Nodup :=
  (iteration_complete (fun n => n) sample3 sample3_reachable).2 10 [1, 2, 3] (by decide)

/-- C13: the insertion does not always terminate in the code. On a table
with `H = 2^31` on which the insertion of a new key finds its home slot
occupied, the nearest free slot within `H` of the home slot, and the origin of
the home slot's occupant at distance `H` or more from that free slot, the pass
ends in `H *= 2` (line 292), which stores `0` in the 32-bit member, and
`insert` (read with the 32-bit `H`, `insert_u32`) never returns, whatever the
budget: with `H = 0` the loop `while (dist(pos, cur_pos) >= H)` is always
entered, its window `l_shift < H` is empty, and `H *= 2` leaves `0` again.
The same pass with the product taken on the naturals goes on with `H = 2^32`;
started on the table with `H = 0` it does not return either. -/
theorem insert_after_wrap_never_returns (hasher : K → Nat) (t : Table K V) (e : K × V)
    (cur : Nat) (hH : t.H = 2 ^ 31) (hload : 2 * (t.size_ + 1) ≤ t.capacity_)
    (hnew : find hasher t e.1 = end_ t)
    (hocc : t.used (get_pos hasher t e.1) = true)
    (hscan : free_scan t (get_pos hasher t e.1) (t.capacity_ - 1) 1 = some cur)
    (hnear : dist t (get_pos hasher t e.1) cur < t.H)
    (hfar : t.H ≤ dist t (t.origin_ (get_pos hasher t e.1)) cur) :
    double_u32 t.H = 0 ∧
    (∀ fuel, insert_u32 hasher fuel t e = none) ∧
    (∀ fuel, insert_without_check_u32 hasher fuel t e = none) ∧
    (∀ fuel, insert_without_check hasher (fuel + 2) t e =
      insert_without_check hasher (fuel + 1) { t with H := 2 ^ 32 } e) ∧
    (∀ fuel, insert_without_check hasher fuel { t with H := double_u32 t.H } e = none) := by
  have h0 : double_u32 t.H = 0 := by
    rw [hH]
    decide
  have hpos : get_pos hasher t e.1 < t.capacity_ := get_pos_lt hasher t e.1 (by omega)
  have hfree := free_of_scan t _ cur hpos hscan
  have hiwc : ∀ fuel, insert_without_check_u32 hasher fuel t e = none := by
    intro fuel
    cases fuel with
    | zero => rw [insert_without_check_u32]
    | succ f =>
      cases f with
      | zero =>
        rw [insert_without_check_u32_succ, if_neg (by omega)]
        simp only
        rw [if_neg (by rw [hocc]; exact Bool.noConfusion), hscan]
        rfl
      | succ f1 =>
        rw [(iwc_retry_step hasher t e cur hload hocc hscan hnear hfar f1).2, h0]
        exact iwc_u32_H_zero hasher e (f1 + 1) { t with H := 0 } rfl hload hocc hfree
  refine ⟨h0, ?_, hiwc, ?_, ?_⟩
  · intro fuel
    cases fuel with
    | zero => rw [insert_u32]
    | succ f =>
      rw [insert_u32_succ, hnew, iter_ne_end_end, if_neg Bool.noConfusion]
      exact hiwc f
  · intro fuel
    have := (iwc_retry_step hasher t e cur hload hocc hscan hnear hfar fuel).1
    rw [hH] at this
    exact this
  · intro fuel
    rw [h0]
    exact iwc_H_zero hasher e fuel { t with H := 0 } rfl hload hocc hfree

/-- Witness for C13: the state `sample_wrap` (`H = 2^31`, capacity `2^32`, the
key `0` in slot `2^31 - 1`) and the new key `2^31 - 1`, whose home slot is
that slot; the next slot, `2^31`, is free and lies `2^31` slots from slot
`0`. -/
theorem insert_after_wrap_never_returns_witness :
    double_u32 sample_wrap.H = 0 ∧
    insert_u32 (fun n => n) 1000 sample_wrap (2 ^ 31 - 1, 7) = none ∧
    insert_without_check_u32 (fun n => n) 1000 sample_wrap (2 ^ 31 - 1, 7) = none :=
  have hfind : find (fun n => n) sample_wrap (2 ^ 31 - 1, 7).1 = end_ sample_wrap := by
    unfold find
    rw [if_neg (by decide)]
    rcases find_loop_spec sample_wrap (2 ^ 31 - 1)
      (get_pos (fun n => n) sample_wrap (2 ^ 31 - 1)) sample_wrap.H 0 with
      ⟨h1, _⟩ | ⟨s, _, _, _, _, h5⟩
    · exact h1
    · have h6 : (2 ^ 31 - 1 : Nat) = 0 := h5
      exact absurd h6 (by decide)
  have hw := insert_after_wrap_never_returns (fun n => n) sample_wrap (2 ^ 31 - 1, 7)
    (2 ^ 31) (by decide) (by decide) hfind (by decide) (by decide) (by decide) (by decide)
  ⟨hw.1, hw.2.1 1000, hw.2.2.1 1000⟩

/-- C16, as stated, fails: `sample1`, the table right after the first
insertion, is reachable and has capacity 1 and size 1, so `2 * size_`
exceeds `capacity_`. -/
theorem load_factor_counterexample :
    Reachable (fun n => n) sample1 ∧ 0 < sample1.capacity_ ∧
    ¬ (2 * sample1.size_ ≤ sample1.capacity_) :=
  ⟨sample1_reachable, by decide, by decide⟩

/-- C16, amended. In every reachable table `size_ ≤ capacity_`, and
`2 * size_ ≤ capacity_` holds except in the full small tables with
`(capacity_, size_)` equal to `(1, 1)`, `(2, 2)` or `(4, 3)`; in particular
the load factor is at most 0.5 whenever `capacity_ ≥ 8`. -/
theorem load_factor_bound (hasher : K → Nat) (t : Table K V) (h : Reachable hasher t) :
    t.size_ ≤ t.capacity_ ∧
    (2 * t.size_ ≤ t.capacity_ ∨ (t.capacity_ = 1 ∧ t.size_ = 1) ∨
      (t.capacity_ = 2 ∧ t.size_ = 2) ∨ (t.capacity_ = 4 ∧ t.size_ = 3)) ∧
    (8 ≤ t.capacity_ → 2 * t.size_ ≤ t.capacity_) := by
  have hL := reachable_load hasher t h
  have hs := size_le_capacity hasher t (reachable_inv hasher t h)
  unfold LoadOK at hL
  refine ⟨hs, ?_, ?_⟩ <;> omega

/-- Witness for C16 amended: `sample_h` has capacity 8 and size 3. -/
theorem load_factor_bound_witness : 2 * sample_h.size_ ≤ sample_h.capacity_ :=
  (load_factor_bound (fun n => n) sample_h sample_h_reachable).2.2 (by decide)

/-- C19, as stated, fails: in the reachable `sample_h` (capacity 8, size 3,
`H = 2`) key `11` is absent, its home slot 3 is occupied by `(3, 30)` and the
next slot 4 is free, at distance 1; after `insert({11, 110})` the new entry
is in slot 3 and `(3, 30)` has moved to slot 4. -/
theorem placement_counterexample :
    Reachable (fun n => n) sample_h ∧
    (sample_h.capacity_ = 8 ∧ sample_h.size_ = 3 ∧ sample_h.H = 2 ∧
      at_ (fun n => n) sample_h 11 = none ∧ get_pos (fun n => n) sample_h 11 = 3 ∧
      sample_h.used 3 = true ∧ sample_h.entry_ 3 = (3, 30) ∧ sample_h.used 4 = false ∧
      dist sample_h 3 4 = 1) ∧
    (sample_h_ins.capacity_ = 8 ∧ sample_h_ins.entry_ 3 = (11, 110) ∧
      sample_h_ins.used 4 = true ∧ sample_h_ins.entry_ 4 = (3, 30) ∧
      sample_h_ins.origin_ 4 = 3) :=
  ⟨sample_h_reachable, by decide, by decide⟩

/-- C19, amended. On a reachable table, for an absent key whose insertion
needs no expansion, whose home slot is occupied and whose nearest free slot
forward from home is at cyclic distance below `H`: if the recorded origin of
the entry at home is within `H` of that free slot, `insert` moves exactly
that entry from home into the free slot (keeping its origin) and stores the
new entry in the home slot with origin = home, every other slot staying as
it was; otherwise `H` is doubled and the insertion restarts. -/
theorem placement_in_range (hasher : K → Nat) (t : Table K V) (h : Reachable hasher t)
    (k : K) (v : V) (hnew : ¬ Present t k) (hload : 2 * (t.size_ + 1) ≤ t.capacity_)
    (hocc : t.used (get_pos hasher t k) = true) (n_pos : Nat) (hlt : n_pos < t.capacity_)
    (hfree : t.used n_pos = false)
    (hnearest : ∀ q, q < t.capacity_ →
      dist t (get_pos hasher t k) q < dist t (get_pos hasher t k) n_pos → t.used q = true)
    (hin : dist t (get_pos hasher t k) n_pos < t.H) :
    (dist t (t.origin_ (get_pos hasher t k)) n_pos < t.H →
      (∀ fuel, insert hasher (fuel + 3) t (k, v) =
        some (put (move t (get_pos hasher t k) n_pos) (get_pos hasher t k) (k, v),
          get_pos hasher t k)) ∧
      ∀ fuel t1 loc, insert hasher fuel t (k, v) = some (t1, loc) →
        loc = get_pos hasher t k ∧
        t1.used loc = true ∧ t1.entry_ loc = (k, v) ∧ t1.origin_ loc = loc ∧
        t1.used n_pos = true ∧ t1.entry_ n_pos = t.entry_ loc ∧
        t1.origin_ n_pos = t.origin_ loc ∧
        ∀ p, p ≠ loc → p ≠ n_pos →
          t1.used p = t.used p ∧ t1.entry_ p = t.entry_ p ∧ t1.origin_ p = t.origin_ p) ∧
    (¬ dist t (t.origin_ (get_pos hasher t k)) n_pos < t.H →
      ∀ fuel, insert hasher (fuel + 3) t (k, v) =
        insert_without_check hasher (fuel + 1) { t with H := t.H * 2 } (k, v)) := by
  have hI := reachable_inv hasher t h
  have hpos : get_pos hasher t k < t.capacity_ := get_pos_lt hasher t k (by omega)
  have hfs := free_scan_nearest hasher t hI (by omega) _ hpos hocc n_pos hlt hfree hnearest
  have hne : n_pos ≠ get_pos hasher t k := by
    intro he
    rw [he, hocc] at hfree
    exact Bool.noConfusion hfree
  constructor
  · intro hd
    have hun : ∀ fuel, insert hasher (fuel + 3) t (k, v) =
        some (put (move t (get_pos hasher t k) n_pos) (get_pos hasher t k) (k, v),
          get_pos hasher t k) := by
      intro fuel
      rw [placement_unfold hasher t hI (k, v) hnew hload hocc n_pos hfs hin fuel]
      exact if_pos hd
    refine ⟨hun, ?_⟩
    intro fuel t1 loc hins
    have := insert_det hasher t (k, v) fuel 3 _ _ hins (hun 0)
    obtain ⟨ha, hb⟩ := Prod.mk.inj this
    subst ha
    subst hb
    refine ⟨rfl, by simp [store_same, put], by simp [store_same, put],
      by simp [store_same, put], ?_, ?_, ?_, ?_⟩
    · simp [store_same, put, move, store_apply, hne]
    · simp [store_same, put, move, store_apply, hne]
    · simp [store_same, put, move, store_apply, hne]
    · intro p hp1 hp2
      simp [put, move, store_apply, hp1, hp2]
  · intro hd fuel
    rw [placement_unfold hasher t hI (k, v) hnew hload hocc n_pos hfs hin fuel]
    exact if_neg hd

/-- Witness for C19 amended: `insert({11, 110})` on `sample_h`, with home
slot 3 and nearest free slot 4, run with budget 20. -/
theorem placement_in_range_witness :
    insert (fun n => n) (17 + 3) sample_h (11, 110) =
      some (put (move sample_h (get_pos (fun n => n) sample_h 11) 4)
        (get_pos (fun n => n) sample_h 11) (11, 110), get_pos (fun n => n) sample_h 11) :=
  ((placement_in_range (fun n => n) sample_h sample_h_reachable 11 110
    (fun hp => Bool.noConfusion
      ((present_iff_at (fun n => n) sample_h (reachable_inv _ _ sample_h_reachable) 11).mp hp))
    (by decide) (by decide) 4 (by decide) (by decide) (by decide) (by decide)).1
    (by decide)).1 17

/-- C20. The displacement cascade only relocates live entries: on every
reachable table the checked insertion completes, and in every completed run
each call `move(prev_pos, new_pos)` made during the insertion (by the
displacement loops, the final placement, the retries and the reinsertions of
`expand`) had an occupied source and a free destination; the checked
insertion returns what `insert` returns. -/
theorem cascade_moves_live (hasher : K → Nat) (t : Table K V) (h : Reachable hasher t)
    (e : K × V) :
    (∃ fuel r, insert_live hasher fuel t e = some (r, true)) ∧
    ∀ fuel r b, insert_live hasher fuel t e = some (r, b) →
      b = true ∧ insert hasher fuel t e = some r := by
  have hI := reachable_inv hasher t h
  refine ⟨insert_live_total hasher t hI e, ?_⟩
  intro fuel r b hl
  exact ⟨insert_live_true hasher t hI e fuel r b hl, insert_of_live hasher fuel t e r b hl⟩

/-- Witness for C20: `insert({9, 90})` on `sample_h`, whose cascade moves the
entries of slots 3, 2 and 1. -/
theorem cascade_moves_live_witness :
    true = true ∧
    insert (fun n => n) 20 sample_h (9, 90) = some (sample_h_ins9, 1) :=
  (cascade_moves_live (fun n => n) sample_h sample_h_reachable (9, 90)).2 20
    (sample_h_ins9, 1) true (insert_live_eq_table_of _ _ _ _ _ _ (by decide))

end Invariants

end HashMap
